import Mathlib

set_option autoImplicit false

/-! Feature file splitter.

A shallow embedding of `src/src/featureFileSplitter.js`: the Gherkin document
nodes the splitter reads, `getFeatureTemplate`, `splitFeature`, `writeFeature`,
`filterFeaturesByTag` and `compile` (with `readFiles` and `parseGherkinFiles`),
followed by the properties established about them.

Conventions of the embedding.

* A field the JavaScript code tests for absence (`x || []`, `if (x)`, `!x`,
  `x != undefined`) is an `Option`; every other field has its plain type.
* A function whose body sits in `try { ... } catch (e) { console.log(...) }`
  returns `Option`: `none` stands for the `undefined` returned after a caught
  exception.
* `_.cloneDeep` is the identity on values: no node is mutated after it has been
  shared, so copies and originals cannot be told apart.
* Fields the code never reads (`location`, `description`, `language`,
  `comments`) are left out.
* The collaborators (tag-expression parser, Gherkin parser, `glob`, `fs`) are
  parameters; `compile` returns the list of the files it wrote.
* For the round trip through the parser, the part of the Gherkin parser that
  reads the texts of `writeFeature` is embedded as `parseGherkin`.
-/

namespace FeatureFileSplitter

/-! ## Document model -/

/-- A tag node; only `name` is read. -/
structure Tag where
  name : String
deriving DecidableEq, Repr

/-- A table cell; only `value` is read. -/
structure TableCell where
  value : String
deriving DecidableEq, Repr

/-- A table row: an ordered list of cells. -/
structure TableRow where
  cells : List TableCell
deriving DecidableEq, Repr

/-- A step argument, told apart in the code by `argument.type`. `Other` is any
argument whose type is neither `DataTable` nor `DocString`. -/
inductive Argument where
  | DataTable (rows : List TableRow)
  | DocString (content : String)
  | Other (type : String)
deriving DecidableEq, Repr

/-- A step: `keyword` (with its trailing blank, as the parser records it),
`text` and an optional argument. -/
structure Step where
  keyword : String
  text : String
  argument : Option Argument
deriving DecidableEq, Repr

/-- An `Examples` block of a scenario outline. -/
structure Examples where
  tags : Option (List Tag)
  tableHeader : TableRow
  tableBody : List TableRow
deriving DecidableEq, Repr

/-- The `type` of a child of a feature. -/
inductive NodeType where
  | Background
  | Scenario
  | ScenarioOutline
deriving DecidableEq, Repr

/-- A child of a feature (Background, Scenario or ScenarioOutline). The nodes are
duck-typed in the code, so this is one record with the optional fields. -/
structure Scenario where
  type : NodeType
  tags : Option (List Tag)
  keyword : String
  name : String
  steps : List Step
  examples : Option (List Examples)
deriving DecidableEq, Repr

/-- The feature node. `type` is the node's type tag (`"Feature"` on a parsed
node) and `keyword` the keyword found in the text. -/
structure Feature where
  type : String
  tags : Option (List Tag)
  keyword : String
  name : String
  children : List Scenario
deriving DecidableEq, Repr

/-- The parsed document wrapping a feature (`ast`, with `ast.feature` defined). -/
structure GherkinDocument where
  feature : Feature
deriving DecidableEq, Repr

/-- The tag-expression collaborator (`cucumber-tag-expressions`): `parse` either
throws (`none`) or returns an expression node, represented by its `evaluate`
function from a list of tag names to a boolean. -/
structure TagExpressionParser where
  parse : String → Option (List String → Bool)

/-! ## JavaScript helpers -/

/-- The expression `x || []` on an optional array. -/
def orEmpty {α : Type} : Option (List α) → List α
  | some xs => xs
  | none => []

/-- The call `xs.forEach(cb)` for a callback that updates an accumulator and
may throw: the first exception aborts the loop. -/
def forEach {α σ : Type} (xs : List α) (cb : σ → α → Option σ) (acc : σ) : Option σ :=
  match xs with
  | [] => some acc
  | x :: rest =>
    match cb acc x with
    | none => none
    | some acc1 => forEach rest cb acc1

/-- The characters matched by `\s` in a regular expression and removed by
`String.prototype.trim` (white space and line terminators). -/
def isWhiteSpace (c : Char) : Bool :=
  let n := c.toNat
  n == 9 || n == 10 || n == 11 || n == 12 || n == 13 || n == 32 || n == 160 ||
  n == 5760 || (8192 ≤ n && n ≤ 8202) || n == 8232 || n == 8233 || n == 8239 ||
  n == 8287 || n == 12288 || n == 65279

/-- Length of the match of `\s+` at the head of the input (0 when it fails). -/
def whiteSpaceRun (cs : List Char) : Nat :=
  (cs.takeWhile isWhiteSpace).length

/-- Length of the match of `/\s+and\s+/` at the head of the input, if any. Each
`\s+` is greedy; since `a` is no white space, backtracking changes nothing. -/
def matchAnd (cs : List Char) : Option Nat :=
  let n1 := whiteSpaceRun cs
  if n1 == 0 then none
  else
    match cs.drop n1 with
    | 'a' :: 'n' :: 'd' :: rest =>
      let n2 := whiteSpaceRun rest
      if n2 == 0 then none else some (n1 + 3 + n2)
    | _ => none

/-- The call `s.split(/\s+and\s+/)` on a list of characters. `skip` counts the
characters of the current separator still to be passed over, `cur` holds the
piece being read, reversed. -/
def splitAnd : List Char → Nat → List Char → List (List Char)
  | [], _, cur => [cur.reverse]
  | _ :: cs, skip + 1, cur => splitAnd cs skip cur
  | c :: cs, 0, cur =>
    match matchAnd (c :: cs) with
    | some n => cur.reverse :: splitAnd cs (n - 1) []
    | none => splitAnd cs 0 (c :: cur)

/-- The call `t.trim()` on a list of characters. -/
def trim (cs : List Char) : List Char :=
  ((cs.dropWhile isWhiteSpace).reverse.dropWhile isWhiteSpace).reverse

/-- The expression `tagExpression.split(/\s+and\s+/).map(t => t.trim())`. -/
def requiredTags (tagExpression : String) : List String :=
  (splitAnd tagExpression.toList 0 []).map (fun t => String.mk (trim t))

/-! ## getFeatureTemplate -/

/-- `getFeatureTemplate`: a copy of the document whose feature keeps only its
Background children. -/
def getFeatureTemplate (feature : GherkinDocument) : GherkinDocument :=
  { feature with
    feature := { feature.feature with
      children := feature.feature.children.filter (fun scenario => scenario.type == NodeType.Background) } }

/-! ## splitFeature -/

/-- The copy `feature` of the template after
`feature.feature.children.push(updatedScenario)`. -/
def subFeature (featureTemplate : GherkinDocument) (updatedScenario : Scenario) :
    GherkinDocument :=
  { featureTemplate with
    feature := { featureTemplate.feature with
      children := featureTemplate.feature.children ++ [updatedScenario] } }

/-- The two statements `feature.feature.children.push(updatedScenario);
features.push(feature)` on a copy `feature` of the template. -/
def pushFeature (features : List GherkinDocument) (featureTemplate : GherkinDocument)
    (updatedScenario : Scenario) : List GherkinDocument :=
  features ++ [subFeature featureTemplate updatedScenario]

/-- The array literal `[...(scenario.tags || []), ...featureTemplate.feature.tags,
...extra]`. Spreading an absent `featureTemplate.feature.tags` throws. -/
def spreadTags (scenarioTags featureTags : Option (List Tag)) (extra : List Tag) :
    Option (List Tag) :=
  match featureTags with
  | none => none
  | some ft => some (orEmpty scenarioTags ++ ft ++ extra)

/-- The test `ex.tags && ex.tags.length > 0`. -/
def hasTags (ex : Examples) : Bool :=
  match ex.tags with
  | some ts => decide (ts.length > 0)
  | none => false

/-- CASE 1, body of the inner loop: one sub-feature for `row` of the block `ex`. -/
def splitTaggedRow (featureTemplate : GherkinDocument) (scenario : Scenario) (ex : Examples)
    (features : List GherkinDocument) (row : TableRow) : Option (List GherkinDocument) :=
  match spreadTags scenario.tags featureTemplate.feature.tags (orEmpty ex.tags) with
  | none => none
  | some tags =>
    some (pushFeature features featureTemplate
      { scenario with
        examples := some [{ ex with tableBody := [row] }]
        tags := some tags })

/-- CASE 2, body of the loop: one sub-feature for `row`, on a copy of the first
example block `first`. -/
def splitUntaggedRow (featureTemplate : GherkinDocument) (scenario : Scenario) (first : Examples)
    (features : List GherkinDocument) (row : TableRow) : Option (List GherkinDocument) :=
  match spreadTags scenario.tags featureTemplate.feature.tags [] with
  | none => none
  | some tags =>
    some (pushFeature features featureTemplate
      { scenario with
        examples := some [{ first with tableBody := [row] }]
        tags := some tags })

/-- CASE 3, body of the loop over the example blocks: the tags of the block `ex` are
appended when every required tag is among the scenario and example tag names. -/
def mergeExampleTags (scenario : Scenario) (tagExpression : String) (tags : List Tag)
    (ex : Examples) : List Tag :=
  let combinedTags :=
    (orEmpty scenario.tags).map (fun t => t.name) ++ (orEmpty ex.tags).map (fun t => t.name)
  let required := requiredTags tagExpression
  let isMatch := required.all (fun tag => combinedTags.contains tag)
  if isMatch then tags ++ orEmpty ex.tags else tags

/-- The callback of the `forEach` over the non-Background children:
`features` is the array built so far. -/
def splitScenario (featureTemplate : GherkinDocument) (splitScenarioOutLineMultipleExamples : Bool)
    (tagExpression : String) (features : List GherkinDocument) (scenario : Scenario) :
    Option (List GherkinDocument) :=
  if scenario.type == NodeType.ScenarioOutline then
    match scenario.examples with
    | none => some features
    | some [] => some features
    | some (first :: others) =>
      if splitScenarioOutLineMultipleExamples then
        if (first :: others).any hasTags then
          forEach (first :: others)
            (fun acc ex =>
              forEach ex.tableBody (splitTaggedRow featureTemplate scenario ex) acc)
            features
        else
          forEach ((first :: others).flatMap (fun ex => ex.tableBody))
            (splitUntaggedRow featureTemplate scenario first) features
      else
        match spreadTags scenario.tags featureTemplate.feature.tags [] with
        | none => none
        | some tags =>
          some (pushFeature features featureTemplate
            { scenario with
              tags := some ((first :: others).foldl (mergeExampleTags scenario tagExpression) tags) })
  else
    match spreadTags scenario.tags featureTemplate.feature.tags [] with
    | none => none
    | some tags => some (pushFeature features featureTemplate { scenario with tags := some tags })

/-- `splitFeature`: `none` is the `undefined` returned after a caught exception. -/
def splitFeature (scenarios : List Scenario) (featureTemplate : GherkinDocument)
    (splitScenarioOutLineMultipleExamples : Bool) (tagExpression : String) :
    Option (List GherkinDocument) :=
  forEach (scenarios.filter (fun scenario => scenario.type != NodeType.Background))
    (splitScenario featureTemplate splitScenarioOutLineMultipleExamples tagExpression) []

/-! ## writeFeature -/

/-- The constant `LINE_DELIMITER`. -/
def LINE_DELIMITER : String := "\n"

/-- The three double quotes that open and close a doc string. -/
def DOC_STRING_DELIMITER : String := String.mk (List.replicate 3 (Char.ofNat 34))

/-- The guarded loop `if (x.tags) x.tags.forEach(tag => featureString += ...)`. -/
def writeTags (featureString : String) (tags : Option (List Tag)) : String :=
  match tags with
  | some ts => ts.foldl (fun acc tag => acc ++ (tag.name ++ LINE_DELIMITER)) featureString
  | none => featureString

/-- The `cellData` built for one row of a data table. -/
def writeDataTableRow (row : TableRow) : String :=
  row.cells.foldl (fun cellData cell => cellData ++ (cell.value ++ "|")) "|"

/-- The body of `scenario.steps.forEach`. -/
def writeStep (featureString : String) (step : Step) : String :=
  match step.argument with
  | some argument =>
    let s1 := featureString ++ (step.keyword ++ step.text ++ LINE_DELIMITER)
    let s2 :=
      match argument with
      | Argument.DataTable rows =>
        rows.foldl (fun acc row => acc ++ (writeDataTableRow row ++ LINE_DELIMITER)) s1
      | _ => s1
    match argument with
    | Argument.DocString content =>
      s2 ++ (DOC_STRING_DELIMITER ++ LINE_DELIMITER ++ content ++ LINE_DELIMITER ++
        DOC_STRING_DELIMITER ++ LINE_DELIMITER)
    | _ => s2
  | none => featureString ++ (step.keyword ++ step.text ++ LINE_DELIMITER)

/-- One line of an examples table: `|` then each cell value followed by `|`. -/
def writeExampleRow (row : TableRow) : String :=
  "|" ++ String.join (row.cells.map (fun cell => cell.value ++ "|")) ++ LINE_DELIMITER

/-- The block `if (scenario.examples) { const example = scenario.examples[0]; ... }`.
With an empty `examples` array `example` is `undefined` and reading its
`tableHeader` throws. -/
def writeExamples (featureString : String) (examples : Option (List Examples)) : Option String :=
  match examples with
  | none => some featureString
  | some [] => none
  | some (ex :: _) =>
    some (ex.tableBody.foldl (fun acc tableRow => acc ++ writeExampleRow tableRow)
      (featureString ++ ("Examples:" ++ LINE_DELIMITER) ++ writeExampleRow ex.tableHeader))

/-- The body of `feature.children.forEach`. -/
def writeScenario (featureString : String) (scenario : Scenario) : Option String :=
  writeExamples
    (scenario.steps.foldl writeStep
      (writeTags featureString scenario.tags ++
        (scenario.keyword ++ ": " ++ scenario.name ++ LINE_DELIMITER)))
    scenario.examples

/-- `writeFeature`: `none` is the `undefined` returned after a caught exception. -/
def writeFeature (feature : Feature) : Option String :=
  forEach feature.children writeScenario
    (writeTags "" feature.tags ++ (feature.type ++ ": " ++ feature.name ++ LINE_DELIMITER))

/-! ## filterFeaturesByTag -/

/-- The callback of `feature.feature.children.some`: a child without a tag list
yields `undefined`, which `some` reads as false. -/
def scenarioMatches (expressionNode : List String → Bool) (scenario : Scenario) : Bool :=
  match scenario.tags with
  | some tags => expressionNode (tags.map (fun tag => tag.name))
  | none => false

/-- `filterFeaturesByTag`: `none` when `parser.parse` throws. -/
def filterFeaturesByTag (parser : TagExpressionParser) (features : List GherkinDocument)
    (tagExpression : String) : Option (List GherkinDocument) :=
  match parser.parse tagExpression with
  | none => none
  | some expressionNode =>
    some (features.filter (fun feature =>
      feature.feature.children.any (scenarioMatches expressionNode)))

/-! ## compile -/

/-- The `options` object of `compile`; an option that is not given is `none`. -/
structure Options where
  sourceSpecDirectory : Option String
  tmpSpecDirectory : Option String
  tagExpression : Option String
  lang : Option String
  ff : Option String
  splitScenarioOutLineMultipleExamples : Bool

/-- The collaborators of `compile` besides the tag matcher: `glob.sync`;
`fs.readFileSync` (`none` when it throws); the constructor of the Gherkin token
matcher (`false` when it throws for the language); the Gherkin parser run on a
text with the matcher of a language (`none` when it throws, `some none` for a
document without a feature); `fs.writeFileSync` on a path and the data it is
given (`false` when the call throws). -/
structure Environment where
  globSync : String → List String
  readFileSync : String → Option String
  tokenMatcher : String → Bool
  parse : String → String → Option (Option GherkinDocument)
  writeFileSync : String → Option String → Bool

/-- A call of `fs.writeFileSync` that returned: the directory and the file name
that make up the path, and the data passed (`none` for `undefined`).
`path.resolve` only makes the path absolute and is left out. -/
structure WrittenFile where
  directory : String
  fileName : String
  data : Option String
deriving DecidableEq, Repr

/-- The variables of the loop of `compile`, with the files written so far. -/
structure CompileState where
  i : Nat
  fileSequence : Nat
  scenariosWithTagFound : Bool
  written : List WrittenFile
deriving DecidableEq, Repr

/-- What a call of `compile` leaves behind: the files written, and whether the
line `No Feature File found for the Tag Expression` was printed. -/
structure CompileResult where
  written : List WrittenFile
  noFeatureNotice : Bool
deriving DecidableEq, Repr

/-- The call `xs.map(f)` for a callback that may throw. -/
def mapThrow {α β : Type} (f : α → Option β) : List α → Option (List β)
  | [] => some []
  | x :: xs =>
    match f x with
    | none => none
    | some y =>
      match mapThrow f xs with
      | none => none
      | some ys => some (y :: ys)

/-- The call `xs.forEach(cb)` for a callback that updates the loop variables and
may throw: `Except.error` carries the variables at the time of the exception,
which ends the loop. -/
def forEachThrow {α σ : Type} (xs : List α) (cb : σ → α → Except σ σ) (st : σ) : Except σ σ :=
  match xs with
  | [] => Except.ok st
  | x :: rest =>
    match cb st x with
    | Except.error st1 => Except.error st1
    | Except.ok st1 => forEachThrow rest cb st1

/-- The expression `value || fallback` on an optional string (the empty string
is falsy). -/
def orDefault (value : Option String) (fallback : String) : String :=
  match value with
  | some s => if s == "" then fallback else s
  | none => fallback

/-- The last element of `filePath.split("/")`. -/
def lastSegment (filePath : List Char) : List Char :=
  (filePath.reverse.takeWhile (fun c => c != '/')).reverse

/-- The call `s.replace(pattern, replacement)` with a string pattern: the first
occurrence of the pattern is replaced. -/
def replaceFirst (pattern replacement : List Char) : List Char → List Char
  | [] => if pattern.isEmpty then replacement else []
  | c :: cs =>
    if pattern.isPrefixOf (c :: cs) then replacement ++ (c :: cs).drop pattern.length
    else c :: replaceFirst pattern replacement cs

/-- The value of `parentFileName` after `replace(".feature", "_")`. -/
def parentFileName (filePath : String) : String :=
  String.mk (replaceFirst ".feature".toList "_".toList (lastSegment filePath.toList))

/-- `readFiles`: `none` is the `undefined` returned after a caught exception. -/
def readFiles (env : Environment) (filePaths : List String) : Option (List String) :=
  mapThrow env.readFileSync filePaths

/-- `parseGherkinFiles`, called with what `readFiles` returned: `none` is the
`undefined` returned after a caught exception (of the token matcher, of
`features.map` on `undefined`, or of the parser on one of the texts). -/
def parseGherkinFiles (env : Environment) (features : Option (List String)) (lang : String) :
    Option (List (Option GherkinDocument)) :=
  if env.tokenMatcher lang then
    match features with
    | none => none
    | some texts => mapThrow (env.parse lang) texts
  else none

/-- The list `filePaths` of `compile`. -/
def resolveFilePaths (env : Environment) (sourceSpecDirectory : String) (ff : Option String) :
    List String :=
  match ff with
  | none => env.globSync (sourceSpecDirectory ++ "/*.feature")
  | some name => [sourceSpecDirectory ++ "/" ++ name ++ ".feature"]

/-- The callback of `filteredFeatures.forEach`: names the file after
`filePaths[fileSequence]` and the counter `i`, increments `i`, writes. -/
def writeSplitFeature (env : Environment) (tmpSpecDirectory : String) (filePaths : List String)
    (st : CompileState) (splitFeature : GherkinDocument) : Except CompileState CompileState :=
  match filePaths[st.fileSequence]? with
  | none => Except.error st
  | some filePath =>
    let fileName := parentFileName filePath ++ toString st.i ++ ".feature"
    let st1 := { st with i := st.i + 1 }
    let data := writeFeature splitFeature.feature
    if env.writeFileSync (tmpSpecDirectory ++ "/" ++ fileName) data then
      Except.ok { st1 with
        written := st1.written ++
          [{ directory := tmpSpecDirectory, fileName := fileName, data := data }] }
    else Except.error st1

/-- The callback of `asts.forEach`; `ast` is `none` for a document without a
feature. A `splitFeature` or `filterFeaturesByTag` that returned `undefined`
makes `filteredFeatures.length` throw. -/
def compileAst (parser : TagExpressionParser) (env : Environment) (tmpSpecDirectory : String)
    (filePaths : List String) (splitScenarioOutLineMultipleExamples : Bool)
    (tagExpression : String) (st : CompileState) (ast : Option GherkinDocument) :
    Except CompileState CompileState :=
  match ast with
  | none => Except.ok st
  | some doc =>
    match splitFeature doc.feature.children (getFeatureTemplate doc)
        splitScenarioOutLineMultipleExamples tagExpression with
    | none => Except.error st
    | some features =>
      match filterFeaturesByTag parser features tagExpression with
      | none => Except.error st
      | some filteredFeatures =>
        let st1 :=
          if filteredFeatures.length > 0 then { st with scenariosWithTagFound := true } else st
        match forEachThrow filteredFeatures (writeSplitFeature env tmpSpecDirectory filePaths)
            st1 with
        | Except.error st2 => Except.error st2
        | Except.ok st2 => Except.ok { st2 with fileSequence := st2.fileSequence + 1 }

/-- `compile`. Every exception is caught and logged; what remains are the files
written before it. -/
def compile (parser : TagExpressionParser) (env : Environment) (options : Options) :
    CompileResult :=
  match options.sourceSpecDirectory with
  | none => { written := [], noFeatureNotice := false }
  | some sourceSpecDirectory =>
    if sourceSpecDirectory == "" then { written := [], noFeatureNotice := false }
    else
      match options.tmpSpecDirectory with
      | none => { written := [], noFeatureNotice := false }
      | some tmpSpecDirectory =>
        if tmpSpecDirectory == "" then { written := [], noFeatureNotice := false }
        else
          let tagExpression := orDefault options.tagExpression ""
          let lang := orDefault options.lang "en"
          let filePaths := resolveFilePaths env sourceSpecDirectory options.ff
          let featureTexts := readFiles env filePaths
          match parseGherkinFiles env featureTexts lang with
          | none => { written := [], noFeatureNotice := false }
          | some asts =>
            match forEachThrow asts
                (compileAst parser env tmpSpecDirectory filePaths
                  options.splitScenarioOutLineMultipleExamples tagExpression)
                { i := 1, fileSequence := 0, scenariosWithTagFound := false, written := [] } with
            | Except.error st => { written := st.written, noFeatureNotice := false }
            | Except.ok st =>
              { written := st.written, noFeatureNotice := !st.scenariosWithTagFound }

/-! ## Vocabulary of the properties -/

/-- Number of data rows of a child, over all its example blocks (0 when the
`examples` field is absent). -/
def dataRowCount (scenario : Scenario) : Nat :=
  ((orEmpty scenario.examples).map (fun ex => ex.tableBody.length)).sum

/-- Concatenation of the results of several calls, failing when one of them
fails. -/
def concatResults {α : Type} : List (Option (List α)) → Option (List α)
  | [] => some []
  | r :: rs => r.bind (fun a => (concatResults rs).map (fun b => a ++ b))

/-- The check of the intact-outline policy in the words of the specification:
every token of the tag expression is the name of a tag of the outline or of the
example block. -/
def blockSatisfies (scenario : Scenario) (tagExpression : String) (ex : Examples) : Bool :=
  (requiredTags tagExpression).all (fun token =>
    decide (token ∈ (orEmpty scenario.tags).map (fun t => t.name) ∨
      token ∈ (orEmpty ex.tags).map (fun t => t.name)))

/-- A separator of the tag expression in the words of the specification: white
space, the word `and`, white space. -/
def IsAndSeparator (sep : List Char) : Prop :=
  ∃ w1 w2, sep = w1 ++ ['a', 'n', 'd'] ++ w2 ∧ w1 ≠ [] ∧ w2 ≠ [] ∧
    (∀ c ∈ w1, isWhiteSpace c = true) ∧ (∀ c ∈ w2, isWhiteSpace c = true)

/-- A separator stands at the head of the characters `cs`. -/
def StartsWithSeparator (cs : List Char) : Prop :=
  ∃ sep tail, IsAndSeparator sep ∧ cs = sep ++ tail

/-- The pieces obtained by splitting on the separators: either no separator
stands anywhere and the text is the only piece, or the text is a first piece, a
separator and the rest, where no separator starts inside the first piece (the
separator is the leftmost one), the separator takes all the white space that
follows it, and the rest is split in the same way. -/
inductive IsAndSplit : List Char → List (List Char) → Prop where
  | last (cs : List Char) :
      (∀ q, ¬ StartsWithSeparator (cs.drop q)) → IsAndSplit cs [cs]
  | more (piece sep rest : List Char) (pieces : List (List Char)) :
      IsAndSeparator sep →
      (∀ q, q < piece.length → ¬ StartsWithSeparator ((piece ++ sep ++ rest).drop q)) →
      (∀ c tail, rest = c :: tail → isWhiteSpace c = false) →
      IsAndSplit rest pieces →
      IsAndSplit (piece ++ sep ++ rest) (piece :: pieces)

/-- The token is the piece trimmed: the piece is white space, the token, white
space, and the token neither starts nor ends with white space. -/
def IsTrimOf (piece token : List Char) : Prop :=
  ∃ l r, piece = l ++ token ++ r ∧
    (∀ c ∈ l, isWhiteSpace c = true) ∧ (∀ c ∈ r, isWhiteSpace c = true) ∧
    (∀ c, token.head? = some c → isWhiteSpace c = false) ∧
    (∀ c, token.getLast? = some c → isWhiteSpace c = false)

/-- The tokens of a tag expression in the words of the specification: the
expression split on white space, `and`, white space, each piece trimmed. -/
def IsTokenization (tagExpression : String) (tokens : List String) : Prop :=
  ∃ pieces, IsAndSplit tagExpression.toList pieces ∧
    List.Forall₂ (fun piece token => IsTrimOf piece (String.toList token)) pieces tokens

/-- The non-Background children of a sub-feature. -/
def scenarioChildren (feature : GherkinDocument) : List Scenario :=
  feature.feature.children.filter (fun scenario => scenario.type != NodeType.Background)

/-- The tag names found on the non-Background children of a sub-feature; with a
single such child, the tag names of that child. -/
def scenarioTagNames (feature : GherkinDocument) : List String :=
  (scenarioChildren feature).flatMap (fun scenario =>
    (orEmpty scenario.tags).map (fun tag => tag.name))

/-- The shape of a sub-feature in the data model: exactly one non-Background
child, which carries a tag list, and at most one Background child. -/
def isSubFeature (feature : GherkinDocument) : Bool :=
  (match scenarioChildren feature with
    | [child] => child.tags.isSome
    | _ => false) &&
  decide ((feature.feature.children.filter
    (fun scenario => scenario.type == NodeType.Background)).length ≤ 1)

/-- The lines of a data table in the words of the specification: each row as
`|` followed by each cell value followed by `|`, one row per line. -/
def dataTableLines (rows : List TableRow) : String :=
  String.join (rows.map (fun row =>
    "|" ++ String.join (row.cells.map (fun cell => cell.value ++ "|")) ++ "\n"))

/-- The text of one step in the words of the specification: the line
`<keyword><text>`; then, for a DataTable argument, its rows; for a DocString
argument, a line of three double quotes, the content, and a closing line of
three double quotes; nothing more otherwise. -/
def stepLines (step : Step) : String :=
  step.keyword ++ step.text ++ "\n" ++
    (match step.argument with
      | some (Argument.DataTable rows) => dataTableLines rows
      | some (Argument.DocString content) =>
        "\"\"\"" ++ "\n" ++ content ++ "\n" ++ "\"\"\"" ++ "\n"
      | _ => "")

/-- The lines of a tag list: each tag name on a line of its own; nothing when
the tag list is absent. -/
def tagLines (tags : Option (List Tag)) : String :=
  String.join ((tags.getD []).map (fun tag => tag.name ++ "\n"))

/-- One line of an examples table: `|`, then each cell value followed by `|`. -/
def tableRowLine (row : TableRow) : String :=
  "|" ++ String.join (row.cells.map (fun cell => cell.value ++ "|")) ++ "\n"

/-- The lines of the examples of a child: the line `Examples:`, the header row
and the data rows of the first example block; nothing when the child has no
examples. -/
def examplesLines (examples : Option (List Examples)) : String :=
  match examples with
  | some (ex :: _) =>
    "Examples:\n" ++ tableRowLine ex.tableHeader ++ String.join (ex.tableBody.map tableRowLine)
  | _ => ""

/-- The text of a child: its tag lines, the line `<keyword>: <name>`, the text
of each step in order, and the lines of its examples. -/
def childLines (child : Scenario) : String :=
  tagLines child.tags ++ (child.keyword ++ ": " ++ child.name ++ "\n") ++
    String.join (child.steps.map stepLines) ++ examplesLines child.examples

/-- The text of a feature: its tag lines, the header line (built from the type
tag of the feature node, as `writeFeature` does) and the text of each child in
order. -/
def featureLayout (feature : Feature) : String :=
  tagLines feature.tags ++ (feature.type ++ ": " ++ feature.name ++ "\n") ++
    String.join (feature.children.map childLines)

/-- The step without its argument when the argument is neither a DataTable nor
a DocString; the step itself otherwise. -/
def dropUnrecognizedArgument (step : Step) : Step :=
  match step.argument with
  | some (Argument.Other _) => { step with argument := none }
  | _ => step

/-- The feature with every unrecognized step argument removed. -/
def dropUnrecognizedArguments (feature : Feature) : Feature :=
  { feature with
    children := feature.children.map (fun scenario =>
      { scenario with steps := scenario.steps.map dropUnrecognizedArgument }) }

/-- The child with every example block after the first removed. -/
def keepFirstBlock (scenario : Scenario) : Scenario :=
  { scenario with examples := scenario.examples.map (fun exs => exs.take 1) }

/-- The feature with, on every child, every example block after the first
removed. -/
def keepFirstBlocks (feature : Feature) : Feature :=
  { feature with children := feature.children.map keepFirstBlock }

/-- The numbering of output files: the k-th file written, counted from 1, is
named after one of the source files, then the number k, then `.feature`. -/
def isNumbered (filePaths : List String) (written : List WrittenFile) : Prop :=
  ∀ k w, written[k]? = some w →
    ∃ path ∈ filePaths, w.fileName = parentFileName path ++ toString (k + 1) ++ ".feature"

/-- Closed form of what `splitScenario` appends to `features` when the tag list
of the template is `ftags` (see `splitScenario_eq_contribution`). -/
def contribution (featureTemplate : GherkinDocument) (ftags : List Tag)
    (splitScenarioOutLineMultipleExamples : Bool) (tagExpression : String)
    (scenario : Scenario) : List GherkinDocument :=
  if scenario.type == NodeType.ScenarioOutline then
    match scenario.examples with
    | none => []
    | some [] => []
    | some (first :: others) =>
      if splitScenarioOutLineMultipleExamples then
        if (first :: others).any hasTags then
          (first :: others).flatMap (fun ex => ex.tableBody.map (fun row =>
            subFeature featureTemplate
              { scenario with
                examples := some [{ ex with tableBody := [row] }]
                tags := some (orEmpty scenario.tags ++ ftags ++ orEmpty ex.tags) }))
        else
          ((first :: others).flatMap (fun ex => ex.tableBody)).map (fun row =>
            subFeature featureTemplate
              { scenario with
                examples := some [{ first with tableBody := [row] }]
                tags := some (orEmpty scenario.tags ++ ftags ++ []) })
      else
        [subFeature featureTemplate
          { scenario with
            tags := some ((first :: others).foldl (mergeExampleTags scenario tagExpression)
              (orEmpty scenario.tags ++ ftags ++ [])) }]
  else
    [subFeature featureTemplate
      { scenario with tags := some (orEmpty scenario.tags ++ ftags ++ []) }]

/-! ## The Gherkin parser on the texts of the serializer

`parseGherkinFiles` parses with `new Gherkin.Parser()`, a
`Gherkin.TokenMatcher(lang)` and a `Gherkin.TokenScanner(feature)`: the package
`gherkin` in its version 5. For the round trip the part of that parser that
reads what `writeFeature` writes is embedded here, for the English dialect:
the token scanner (`split(/\r?\n/)`, last blank line dropped), the line
(`trimmedLineText`, `indent`, `getRestTrimmed`, `getTags`, `getTableCells`),
the token matcher (`match_TagLine`, `match_FeatureLine`, `match_BackgroundLine`,
`match_ScenarioLine`, `match_StepLine`, `match_TableRow`,
`match_DocStringSeparator`, `match_Other` inside a doc string, `match_Empty`)
and the nodes that the AST builder returns. A text with a description, a
comment, a language header, an outline, an examples table or a doc string with
a content type is outside this part: on it `parseGherkin` returns `none`, as
it does on a parse error. In `compile` the parser remains a parameter. -/

/-- The call `source.split(/\r?\n/)` of the token scanner: the pieces between
the line feeds, a carriage return right before a line feed being part of the
separator. `cur` holds the piece being read, reversed. -/
def splitLines : List Char → List Char → List (List Char)
  | [], cur => [cur.reverse]
  | c :: cs, cur =>
    if c == '\n' then
      (if cur.head? == some '\r' then cur.tail.reverse else cur.reverse) :: splitLines cs []
    else splitLines cs (c :: cur)

/-- The lines of the token scanner: the pieces of the source, without the last
one when it is blank. -/
def scanLines (source : List Char) : List (List Char) :=
  let lines := splitLines source []
  match lines.getLast? with
  | some last => if (trim last).isEmpty then lines.dropLast else lines
  | none => lines

/-- The call `s.split(sep)` with a one-character separator; `cur` holds the
piece being read, reversed. -/
def splitOnChar (sep : Char) : List Char → List Char → List (List Char)
  | [], cur => [cur.reverse]
  | c :: cs, cur =>
    if c == sep then cur.reverse :: splitOnChar sep cs [] else splitOnChar sep cs (c :: cur)

/-- The tags of a tag line (`getTags`): the trimmed line split at `@`, the piece
before the first `@` dropped, each remaining piece trimmed and given its `@`
back. -/
def getTags (trimmedLineText : List Char) : List Tag :=
  ((splitOnChar '@' (trim trimmedLineText) []).drop 1).map (fun item =>
    { name := String.mk ('@' :: trim item) })

/-- The cells of a table row (`getTableCells`): what precedes the first `|` is
skipped; each later `|` closes a cell, whose text is trimmed; a backslash
escapes the next character (`\n` is a line feed, `\|` a bar, `\\` a backslash,
any other character keeps its backslash). `cell` holds the cell being read,
reversed. -/
def getTableCells : List Char → List Char → Bool → List TableCell
  | [], _, _ => []
  | c :: cs, cell, firstCell =>
    if c == '|' then
      if firstCell then getTableCells cs [] false
      else { value := String.mk (trim cell.reverse) } :: getTableCells cs [] false
    else if c == '\\' then
      match cs with
      | [] => []
      | d :: ds =>
        if d == 'n' then getTableCells ds ('\n' :: cell) firstCell
        else if d != '|' && d != '\\' then getTableCells ds (d :: '\\' :: cell) firstCell
        else getTableCells ds (d :: cell) firstCell
    else getTableCells cs (c :: cell) firstCell

/-- The rest of a line after its first `length` characters, trimmed
(`getRestTrimmed`). -/
def getRestTrimmed (trimmedLineText : List Char) (length : Nat) : String :=
  String.mk (trim (trimmedLineText.drop length))

/-- The step keywords of the English dialect, each with its trailing blank. -/
def stepKeywords : List String := ["* ", "Given ", "When ", "Then ", "And ", "But "]

/-- The tokens of the lines that `writeFeature` writes for a Background or a
plain Scenario. `other` is any other line (a description, a comment or language
line, an outline or an examples line, a doc string opened by back quotes). -/
inductive GherkinToken where
  | empty
  | tagLine (tags : List Tag)
  | featureLine (name : String)
  | backgroundLine (name : String)
  | scenarioLine (name : String)
  | stepLine (keyword text : String)
  | tableRow (cells : List TableCell)
  | docStringSeparator (indent : Nat) (contentType : String)
  | other
deriving DecidableEq, Repr

/-- The token of a line outside a doc string (token matcher, English dialect):
the line without its leading white space is matched against the line kinds; a
title line is its keyword followed by a colon, a step line starts with a step
keyword. -/
def matchToken (line : List Char) : GherkinToken :=
  let trimmedLineText := line.dropWhile isWhiteSpace
  if trimmedLineText.isEmpty then GherkinToken.empty
  else if "#".toList.isPrefixOf trimmedLineText then GherkinToken.other
  else if "@".toList.isPrefixOf trimmedLineText then GherkinToken.tagLine (getTags trimmedLineText)
  else if "Feature:".toList.isPrefixOf trimmedLineText then
    GherkinToken.featureLine (getRestTrimmed trimmedLineText 8)
  else if "Background:".toList.isPrefixOf trimmedLineText then
    GherkinToken.backgroundLine (getRestTrimmed trimmedLineText 11)
  else if "Scenario:".toList.isPrefixOf trimmedLineText then
    GherkinToken.scenarioLine (getRestTrimmed trimmedLineText 9)
  else if "|".toList.isPrefixOf trimmedLineText then
    GherkinToken.tableRow (getTableCells trimmedLineText [] true)
  else if "\"\"\"".toList.isPrefixOf trimmedLineText then
    GherkinToken.docStringSeparator (line.length - trimmedLineText.length)
      (getRestTrimmed trimmedLineText 3)
  else
    match stepKeywords.find? (fun keyword => keyword.toList.isPrefixOf trimmedLineText) with
    | some keyword => GherkinToken.stepLine keyword (getRestTrimmed trimmedLineText keyword.length)
    | none => GherkinToken.other

/-- What the parser has built so far: the tags and the name of the feature once
its line is read; the finished children; the child being read with its finished
steps; the step being read, whose argument may still grow; the indentation and
the lines of the doc string being read; the tags read since the last title
line. -/
structure AstBuilder where
  feature : Option (List Tag × String)
  finished : List Scenario
  current : Option Scenario
  step : Option Step
  docString : Option (Nat × List (List Char))
  pendingTags : List Tag
deriving DecidableEq, Repr

/-- The child being read, with the step being read added to its steps. -/
def AstBuilder.closedChild (builder : AstBuilder) : Option Scenario :=
  builder.current.map (fun child => { child with steps := child.steps ++ builder.step.toList })

/-- The children read so far, in document order. -/
def AstBuilder.children (builder : AstBuilder) : List Scenario :=
  builder.finished ++ builder.closedChild.toList

/-- One step of the parser on a token outside a doc string; `none` is a parse
error or a line outside the modelled part of the grammar. Tags precede the
Feature line or a Scenario line; a Background line comes before every other
child and carries no tags; a step belongs to the child being read; table rows
and a doc string follow a step line, all rows of a table have the same number
of cells, and a doc string with a content type is outside the model. -/
def parseToken (builder : AstBuilder) (token : GherkinToken) : Option AstBuilder :=
  match token with
  | GherkinToken.empty => some builder
  | GherkinToken.tagLine tags =>
    some { builder with
      current := builder.closedChild, step := none,
      pendingTags := builder.pendingTags ++ tags }
  | GherkinToken.featureLine name =>
    match builder.feature with
    | some _ => none
    | none => some { builder with feature := some (builder.pendingTags, name), pendingTags := [] }
  | GherkinToken.backgroundLine name =>
    match builder.feature, builder.children, builder.pendingTags with
    | some _, [], [] =>
      some { builder with
        current := some { type := NodeType.Background, tags := none, keyword := "Background",
                          name := name, steps := [], examples := none }
        step := none }
    | _, _, _ => none
  | GherkinToken.scenarioLine name =>
    match builder.feature with
    | none => none
    | some _ =>
      some { builder with
        finished := builder.children
        current := some { type := NodeType.Scenario, tags := some builder.pendingTags,
                          keyword := "Scenario", name := name, steps := [], examples := none }
        step := none
        pendingTags := [] }
  | GherkinToken.stepLine keyword text =>
    match builder.closedChild, builder.pendingTags with
    | some child, [] =>
      some { builder with
        current := some child
        step := some { keyword := keyword, text := text, argument := none } }
    | _, _ => none
  | GherkinToken.tableRow cells =>
    match builder.step, builder.pendingTags with
    | some step, [] =>
      match step.argument with
      | none =>
        some { builder with
          step := some { step with argument := some (Argument.DataTable [{ cells := cells }]) } }
      | some (Argument.DataTable (first :: rows)) =>
        if cells.length = first.cells.length then
          some { builder with
            step := some { step with
              argument := some (Argument.DataTable (first :: rows ++ [{ cells := cells }])) } }
        else none
      | _ => none
    | _, _ => none
  | GherkinToken.docStringSeparator indent contentType =>
    match builder.step, builder.pendingTags with
    | some step, [] =>
      match step.argument with
      | none =>
        if contentType = "" then some { builder with docString := some (indent, []) } else none
      | _ => none
    | _, _ => none
  | GherkinToken.other => none

/-- One step of the parser on a line. Inside a doc string, a line that starts
with three double quotes (after its leading white space) closes the doc string,
whose content is the lines read joined by line feeds; any other line is taken
without the indentation of the opening line, its first escaped `\"\"\"`
unescaped. Outside a doc string the line is matched as a token. -/
def parseLine (builder : AstBuilder) (line : List Char) : Option AstBuilder :=
  let trimmedLineText := line.dropWhile isWhiteSpace
  match builder.docString with
  | some (indentToRemove, content) =>
    if "\"\"\"".toList.isPrefixOf trimmedLineText then
      match builder.step with
      | some step =>
        some { builder with
          step := some { step with
            argument := some (Argument.DocString (String.mk (List.intercalate ['\n'] content))) }
          docString := none }
      | none => none
    else
      let indent := line.length - trimmedLineText.length
      let text := if indentToRemove > indent then trimmedLineText else line.drop indentToRemove
      some { builder with
        docString := some (indentToRemove,
          content ++ [replaceFirst "\\\"\\\"\\\"".toList "\"\"\"".toList text]) }
  | none => parseToken builder (matchToken line)

/-- The parser run over the lines. -/
def parseLines (builder : AstBuilder) : List (List Char) → Option AstBuilder
  | [] => some builder
  | line :: rest =>
    match parseLine builder line with
    | none => none
    | some next => parseLines next rest

/-- The builder before the first line. -/
def initialBuilder : AstBuilder :=
  { feature := none, finished := [], current := none, step := none, docString := none,
    pendingTags := [] }

/-- The Gherkin parser (token scanner, token matcher of the English dialect,
parser and AST builder) on a source text, restricted to features made of a
Background and plain Scenarios without descriptions: `none` is a parse error, a
document without a feature, or a source outside that part of the grammar. The
feature node carries the type tag and the keyword `Feature`. -/
def parseGherkin (source : String) : Option GherkinDocument :=
  match parseLines initialBuilder (scanLines source.toList) with
  | none => none
  | some builder =>
    match builder.feature, builder.docString, builder.pendingTags with
    | some (tags, name), none, [] =>
      some { feature := { type := "Feature", tags := some tags, keyword := "Feature",
                          name := name, children := builder.children } }
    | _, _, _ => none

/-! ## Vocabulary of the round trip -/

/-- No white space at either end. -/
def isTrimmed (cs : List Char) : Bool :=
  (match cs.head? with
    | some c => !isWhiteSpace c
    | none => true) &&
  (match cs.getLast? with
    | some c => !isWhiteSpace c
    | none => true)

/-- A name or a step text as the parser records it: one line, trimmed. -/
def isLineText (s : String) : Bool :=
  !s.toList.contains '\n' && isTrimmed s.toList

/-- A tag name as the parser records it: `@` followed by a trimmed piece of a
line without a further `@`. -/
def isTagName (s : String) : Bool :=
  match s.toList with
  | c :: rest => c == '@' && !rest.contains '@' && !rest.contains '\n' && isTrimmed rest
  | [] => false

/-- A tag list as the parser records it. -/
def isTagList (tags : Option (List Tag)) : Bool :=
  match tags with
  | some tags => tags.all (fun tag => isTagName tag.name)
  | none => false

/-- A cell value that reads back unchanged when written without escaping:
trimmed, without `|`, backslash or line feed. -/
def isPlainCell (cell : TableCell) : Bool :=
  !cell.value.toList.contains '|' && !cell.value.toList.contains '\\' &&
  !cell.value.toList.contains '\n' && isTrimmed cell.value.toList

/-- The pattern occurs somewhere in the characters. -/
def occursIn (pattern : List Char) : List Char → Bool
  | [] => pattern.isEmpty
  | c :: cs => pattern.isPrefixOf (c :: cs) || occursIn pattern cs

/-- A line of a doc string that reads back unchanged when written without
escaping and without indentation: it does not start, after its leading white
space, with three double quotes, holds no escaped `\"\"\"`, and does not end
with a carriage return. -/
def isPlainDocStringLine (line : List Char) : Bool :=
  !"\"\"\"".toList.isPrefixOf (line.dropWhile isWhiteSpace) &&
  !occursIn "\\\"\\\"\\\"".toList line &&
  !(line.getLast? == some '\r')

/-- A step argument that reads back unchanged: none; a data table with at least
one row, all rows of the same number of plain cells; a doc string of plain
lines. -/
def isPlainArgument : Option Argument → Bool
  | none => true
  | some (Argument.DataTable []) => false
  | some (Argument.DataTable (first :: rows)) =>
    (first :: rows).all (fun row =>
      row.cells.length == first.cells.length && row.cells.all isPlainCell)
  | some (Argument.DocString content) =>
    (splitOnChar '\n' content.toList []).all isPlainDocStringLine
  | some (Argument.Other _) => false

/-- A step as the parser of the English dialect records it, with a plain
argument. -/
def isPlainStep (step : Step) : Bool :=
  stepKeywords.contains step.keyword && isLineText step.text && isPlainArgument step.argument

/-- A plain Scenario as the parser of the English dialect records it, with
plain steps. -/
def isPlainScenario (child : Scenario) : Bool :=
  child.type == NodeType.Scenario && child.keyword == "Scenario" && isLineText child.name &&
  isTagList child.tags && child.steps.all isPlainStep && child.examples == none

/-- A Background as the parser of the English dialect records it, with plain
steps. -/
def isPlainBackground (child : Scenario) : Bool :=
  child.type == NodeType.Background && child.keyword == "Background" && isLineText child.name &&
  child.tags == none && child.steps.all isPlainStep && child.examples == none

/-- A feature as the parser of the English dialect records it: at most one
Background, before the plain Scenarios; every step plain. -/
def isPlainFeature (feature : Feature) : Bool :=
  feature.type == "Feature" && isLineText feature.name && isTagList feature.tags &&
  (match feature.children with
    | [] => true
    | first :: rest =>
      (isPlainBackground first || isPlainScenario first) && rest.all isPlainScenario)

/-- A step argument whose text holds nothing that a writer would have to
escape: no bar, backslash or line feed in a table cell; only plain lines in a
doc string. -/
def isEscapeFree : Option Argument → Bool
  | some (Argument.DataTable rows) =>
    rows.all (fun row => row.cells.all (fun cell =>
      !cell.value.toList.contains '|' && !cell.value.toList.contains '\\' &&
      !cell.value.toList.contains '\n'))
  | some (Argument.DocString content) =>
    (splitOnChar '\n' content.toList []).all isPlainDocStringLine
  | _ => true

/-- A step argument as the parser records it: none; a data table with at least
one row, all rows of the same number of trimmed cells; a doc string. -/
def isRecordedArgument : Option Argument → Bool
  | none => true
  | some (Argument.DataTable []) => false
  | some (Argument.DataTable (first :: rows)) =>
    (first :: rows).all (fun row =>
      row.cells.length == first.cells.length &&
      row.cells.all (fun cell => isTrimmed cell.value.toList))
  | some (Argument.DocString _) => true
  | some (Argument.Other _) => false

/-- A step as the parser records it. -/
def IsRecordedStep (step : Step) : Prop :=
  stepKeywords.contains step.keyword = true ∧ isLineText step.text = true ∧
    isRecordedArgument step.argument = true

/-- A plain Scenario as the parser records it. -/
def IsRecordedScenario (child : Scenario) : Prop :=
  child.type = NodeType.Scenario ∧ child.keyword = "Scenario" ∧ isLineText child.name = true ∧
    isTagList child.tags = true ∧ (∀ step ∈ child.steps, IsRecordedStep step) ∧
    child.examples = none

/-- A Background as the parser records it. -/
def IsRecordedBackground (child : Scenario) : Prop :=
  child.type = NodeType.Background ∧ child.keyword = "Background" ∧
    isLineText child.name = true ∧ child.tags = none ∧
    (∀ step ∈ child.steps, IsRecordedStep step) ∧ child.examples = none

/-- A token as the parser records it. -/
def IsRecordedToken : GherkinToken → Prop
  | GherkinToken.tagLine tags => ∀ tag ∈ tags, isTagName tag.name = true
  | GherkinToken.featureLine name => isLineText name = true
  | GherkinToken.backgroundLine name => isLineText name = true
  | GherkinToken.scenarioLine name => isLineText name = true
  | GherkinToken.stepLine keyword text =>
    stepKeywords.contains keyword = true ∧ isLineText text = true
  | GherkinToken.tableRow cells => ∀ cell ∈ cells, isTrimmed cell.value.toList = true
  | _ => True

/-- The invariant of the parser: every part of the builder is as the parser
records it, and only the first child may be a Background. -/
def IsRecordedBuilder (builder : AstBuilder) : Prop :=
  (∀ f, builder.feature = some f →
    (∀ tag ∈ f.1, isTagName tag.name = true) ∧ isLineText f.2 = true) ∧
  (∀ tag ∈ builder.pendingTags, isTagName tag.name = true) ∧
  (∀ step, builder.step = some step → IsRecordedStep step) ∧
  (∀ child, builder.current = some child →
    IsRecordedScenario child ∨ (builder.finished = [] ∧ IsRecordedBackground child)) ∧
  (∀ child, builder.finished.head? = some child →
    IsRecordedScenario child ∨ IsRecordedBackground child) ∧
  (∀ child ∈ builder.finished.tail, IsRecordedScenario child)

/-- The lines of a tag list. -/
def tagLineList (tags : Option (List Tag)) : List (List Char) :=
  (tags.getD []).map (fun tag => tag.name.toList)

/-- The line of a table row. -/
def rowLine (row : TableRow) : List Char :=
  '|' :: row.cells.flatMap (fun cell => cell.value.toList ++ ['|'])

/-- The lines of a step. -/
def stepLineList (step : Step) : List (List Char) :=
  (step.keyword.toList ++ step.text.toList) ::
    (match step.argument with
      | some (Argument.DataTable rows) => rows.map rowLine
      | some (Argument.DocString content) =>
        ["\"\"\"".toList] ++ splitOnChar '\n' content.toList [] ++ ["\"\"\"".toList]
      | _ => [])

/-- The lines of a child without examples. -/
def childLineList (child : Scenario) : List (List Char) :=
  tagLineList child.tags ++ [child.keyword.toList ++ ": ".toList ++ child.name.toList] ++
    child.steps.flatMap stepLineList

/-- The lines of a feature whose children have no examples. -/
def featureLineList (feature : Feature) : List (List Char) :=
  tagLineList feature.tags ++ [feature.type.toList ++ ": ".toList ++ feature.name.toList] ++
    feature.children.flatMap childLineList

/-- The text made of the lines, each followed by a line feed. -/
def unlines (lines : List (List Char)) : List Char :=
  lines.flatMap (fun line => line ++ ['\n'])

/-- A line that the token scanner returns as it is: no line feed inside, no
carriage return at the end. -/
def IsScanLine (line : List Char) : Prop := '\n' ∉ line ∧ line.getLast? ≠ some '\r'

/-- The builder after the Feature line `feature`, the children `finished` and
the child `child` with all its steps. -/
def builderAt (feature : List Tag × String) (finished : List Scenario) (child : Scenario) :
    AstBuilder :=
  { feature := some feature, finished := finished,
    current := some { child with steps := child.steps.dropLast },
    step := child.steps.getLast?, docString := none, pendingTags := [] }

/-- The builder while the step `step` of the child `child` is being read, the
steps of `child` being the finished ones. -/
def openStep (feature : List Tag × String) (finished : List Scenario) (child : Scenario)
    (step : Step) (docString : Option (Nat × List (List Char))) : AstBuilder :=
  { feature := some feature, finished := finished, current := some child, step := some step,
    docString := docString, pendingTags := [] }

/-! ## Sample documents -/

/-- A two-cell table row. -/
def sampleRow (a b : String) : TableRow :=
  { cells := [{ value := a }, { value := b }] }

/-- An untagged example block with one data row. -/
def sampleBlock1 : Examples :=
  { tags := none, tableHeader := sampleRow "x" "y", tableBody := [sampleRow "1" "2"] }

/-- An example block tagged `@slow` with two data rows. -/
def sampleBlock2 : Examples :=
  { tags := some [{ name := "@slow" }], tableHeader := sampleRow "p" "q",
    tableBody := [sampleRow "3" "4", sampleRow "5" "6"] }

/-- A Background with one step. -/
def sampleBackground : Scenario :=
  { type := NodeType.Background, tags := none, keyword := "Background", name := "",
    steps := [{ keyword := "Given ", text := "a user", argument := none }], examples := none }

/-- An untagged Scenario named Login. -/
def sampleScenario : Scenario :=
  { type := NodeType.Scenario, tags := some [], keyword := "Scenario", name := "Login",
    steps := [{ keyword := "When ", text := "the user logs in", argument := none }],
    examples := none }

/-- An outline tagged `@pay` with the two sample blocks. -/
def sampleOutline : Scenario :=
  { type := NodeType.ScenarioOutline, tags := some [{ name := "@pay" }],
    keyword := "Scenario Outline", name := "Pay",
    steps := [{ keyword := "Given ", text := "an amount <x>", argument := none }],
    examples := some [sampleBlock1, sampleBlock2] }

/-- An outline whose only example block has a header and no data row. -/
def sampleEmptyOutline : Scenario :=
  { type := NodeType.ScenarioOutline, tags := some [], keyword := "Scenario Outline",
    name := "Empty", steps := [],
    examples := some [{ tags := none, tableHeader := sampleRow "x" "y", tableBody := [] }] }

/-- A feature tagged `@smoke` with a Background, a Scenario and an outline. -/
def sampleDocument : GherkinDocument :=
  { feature :=
    { type := "Feature", tags := some [{ name := "@smoke" }], keyword := "Feature", name := "Shop",
      children := [sampleBackground, sampleScenario, sampleOutline] } }

/-- A feature tagged `@smoke` whose only child is the untagged Scenario Login. -/
def sampleLoginDocument : GherkinDocument :=
  { feature :=
    { type := "Feature", tags := some [{ name := "@smoke" }], keyword := "Feature", name := "Shop",
      children := [sampleScenario] } }

/-- The document that Gherkin reads from the text
`@smoke`, `Feature: Shop`, `@smoke`, `Scenario: Login`, `When the user logs in`
(one line each): the tag line before the Scenario line belongs to the
Scenario. -/
def sampleLoginReparsed : GherkinDocument :=
  { feature :=
    { type := "Feature", tags := some [{ name := "@smoke" }], keyword := "Feature", name := "Shop",
      children :=
        [{ type := NodeType.Scenario, tags := some [{ name := "@smoke" }], keyword := "Scenario",
           name := "Login",
           steps := [{ keyword := "When ", text := "the user logs in", argument := none }],
           examples := none }] } }

/-- The feature node of a French document: the parser records the type tag
`Feature` and the keyword found in the text. -/
def sampleFrenchFeature : Feature :=
  { type := "Feature", tags := some [{ name := "@smoke" }], keyword := "Fonctionnalité",
    name := "Panier", children := [] }

/-- An untagged example block with the header `p`, `q` and one data row. -/
def sampleBlock3 : Examples :=
  { tags := none, tableHeader := sampleRow "p" "q", tableBody := [sampleRow "7" "8"] }

/-- An outline with two untagged example blocks whose headers differ. -/
def sampleUntaggedOutline : Scenario :=
  { type := NodeType.ScenarioOutline, tags := some [], keyword := "Scenario Outline",
    name := "Ship", steps := [], examples := some [sampleBlock1, sampleBlock3] }

/-- A feature whose Scenario has a step with an argument of type `Image`,
neither a DataTable nor a DocString. -/
def sampleUnrecognizedFeature : Feature :=
  { type := "Feature", tags := some [], keyword := "Feature", name := "Shop",
    children :=
      [{ type := NodeType.Scenario, tags := some [], keyword := "Scenario", name := "Upload",
         steps := [{ keyword := "Given ", text := "a picture",
                     argument := some (Argument.Other "Image") }],
         examples := none }] }

/-- A feature whose Scenario has a step with a data table, a step with a doc
string and a step without argument. -/
def sampleStepsFeature : Feature :=
  { type := "Feature", tags := some [], keyword := "Feature", name := "Shop",
    children :=
      [{ type := NodeType.Scenario, tags := some [], keyword := "Scenario", name := "Pay",
         steps :=
           [{ keyword := "Given ", text := "a table",
              argument := some (Argument.DataTable [sampleRow "a" "b", sampleRow "c" "d"]) },
            { keyword := "When ", text := "a text",
              argument := some (Argument.DocString "hello") },
            { keyword := "Then ", text := "done", argument := none }],
         examples := none }] }

/-- An untagged feature named `name` with two untagged Scenarios. -/
def sampleTwoScenarios (name : String) : GherkinDocument :=
  { feature :=
    { type := "Feature", tags := some [], keyword := "Feature", name := name,
      children :=
        [{ type := NodeType.Scenario, tags := some [], keyword := "Scenario", name := "One",
           steps := [], examples := none },
         { type := NodeType.Scenario, tags := some [], keyword := "Scenario", name := "Two",
           steps := [], examples := none }] } }

/-- A file system and a Gherkin parser for the examples (file texts abridged to
their first line). `specs` holds two features of two Scenarios each; `mixed`
holds an empty file, which parses to a document without a feature, and the
Login feature; `broken` holds a file that does not parse and the Login
feature; `dots` holds the Login feature in the file `a.feature.feature`. The
lists of `glob.sync` are sorted. Every write succeeds. -/
def sampleEnvironment : Environment :=
  { globSync := fun pattern =>
      if pattern == "specs/*.feature" then ["specs/a.feature", "specs/b.feature"]
      else if pattern == "mixed/*.feature" then ["mixed/empty.feature", "mixed/login.feature"]
      else if pattern == "broken/*.feature" then ["broken/bad.feature", "broken/login.feature"]
      else if pattern == "dots/*.feature" then ["dots/a.feature.feature"]
      else []
    readFileSync := fun path =>
      if path == "specs/a.feature" then some "Feature: A"
      else if path == "specs/b.feature" then some "Feature: B"
      else if path == "mixed/empty.feature" then some ""
      else if path == "mixed/login.feature" then some "Feature: Shop"
      else if path == "broken/login.feature" then some "Feature: Shop"
      else if path == "broken/bad.feature" then some "Scenario: no feature line"
      else if path == "dots/a.feature.feature" then some "Feature: Shop"
      else none
    tokenMatcher := fun lang => lang == "en"
    parse := fun _ text =>
      if text == "Feature: A" then some (some (sampleTwoScenarios "A"))
      else if text == "Feature: B" then some (some (sampleTwoScenarios "B"))
      else if text == "" then some none
      else if text == "Feature: Shop" then some (some sampleLoginDocument)
      else none
    writeFileSync := fun _ _ => true }

/-- The options of the examples: source directory `dir`, output directory
`tmp`, tag expression `tagExpression`, every file of the directory unless `ff`
names one, and the per-row policy off. -/
def sampleOptions (dir : String) (tagExpression : Option String) (ff : Option String) : Options :=
  { sourceSpecDirectory := some dir, tmpSpecDirectory := some "tmp",
    tagExpression := tagExpression, lang := none, ff := ff,
    splitScenarioOutLineMultipleExamples := false }

/-- A tag matcher for the examples: the empty expression matches everything and
any other expression is read as one tag name. -/
def sampleParser : TagExpressionParser :=
  { parse := fun tagExpression =>
      some (fun names => tagExpression == "" || names.contains tagExpression) }

/-- A Scenario tagged `@pay` whose steps carry a data table, a doc string of two
lines, and no argument. -/
def samplePayScenario : Scenario :=
  { type := NodeType.Scenario, tags := some [{ name := "@pay" }], keyword := "Scenario",
    name := "Pay",
    steps :=
      [{ keyword := "Given ", text := "a table",
         argument := some (Argument.DataTable [sampleRow "a" "b", sampleRow "c" "d"]) },
       { keyword := "When ", text := "a text",
         argument := some (Argument.DocString "hello\n  world") },
       { keyword := "Then ", text := "done", argument := none }],
    examples := none }

/-- A feature tagged `@smoke` with a Background and the Scenario Pay. -/
def samplePayDocument : GherkinDocument :=
  { feature :=
    { type := "Feature", tags := some [{ name := "@smoke" }], keyword := "Feature", name := "Shop",
      children := [sampleBackground, samplePayScenario] } }

/-- A feature whose Scenario has a step with a data table of one cell, the cell
holding a bar (written `a\\|b` in a feature text). -/
def sampleBarDocument : GherkinDocument :=
  { feature :=
    { type := "Feature", tags := some [], keyword := "Feature", name := "Shop",
      children :=
        [{ type := NodeType.Scenario, tags := some [], keyword := "Scenario", name := "Pay",
           steps := [{ keyword := "Given ", text := "a table",
                       argument := some (Argument.DataTable [{ cells := [{ value := "a|b" }] }]) }],
           examples := none }] } }

/-! ## Properties of the loops -/

theorem forEach_append {α σ : Type} (xs ys : List α) (cb : σ → α → Option σ) (acc : σ) :
    forEach (xs ++ ys) cb acc = (forEach xs cb acc).bind (forEach ys cb) := by
  induction xs generalizing acc with
  | nil => simp [forEach]
  | cons x xs ih =>
    simp only [List.cons_append, forEach]
    cases h : cb acc x with
    | none => simp
    | some a => simp [ih]

theorem forEach_push {α β : Type} (g : α → List β) (cb : List β → α → Option (List β))
    (xs : List α) (h : ∀ acc x, x ∈ xs → cb acc x = some (acc ++ g x)) (acc : List β) :
    forEach xs cb acc = some (acc ++ xs.flatMap g) := by
  induction xs generalizing acc with
  | nil => simp [forEach]
  | cons x xs ih =>
    simp only [forEach]
    rw [h acc x (List.mem_cons_self x xs)]
    simp only
    rw [ih (fun a y hy => h a y (List.mem_cons_of_mem x hy))]
    simp [List.flatMap_cons, List.append_assoc]

theorem forEach_affine {α β : Type} (cb : List β → α → Option (List β)) (xs : List α)
    (h : ∀ acc x, cb acc x = (cb [] x).map (fun r => acc ++ r)) (acc : List β) :
    forEach xs cb acc = (forEach xs cb []).map (fun r => acc ++ r) := by
  induction xs generalizing acc with
  | nil => simp [forEach]
  | cons x xs ih =>
    simp only [forEach]
    rw [h acc x]
    cases hx : cb [] x with
    | none => simp
    | some p =>
      simp only [Option.map_some']
      rw [ih (acc ++ p), ih p]
      cases forEach xs cb [] with
      | none => simp
      | some q => simp [List.append_assoc]

theorem flatMap_single {α β : Type} (f : α → β) (xs : List α) :
    xs.flatMap (fun x => [f x]) = xs.map f := by
  induction xs with
  | nil => rfl
  | cons x xs ih => simp [List.flatMap_cons, ih]

theorem spreadTags_some (scenarioTags : Option (List Tag)) (ftags extra : List Tag) :
    spreadTags scenarioTags (some ftags) extra = some (orEmpty scenarioTags ++ ftags ++ extra) :=
  rfl

/-- With a tag list on the template, the callback of `splitFeature` appends the
closed form `contribution` and never throws. -/
theorem splitScenario_eq_contribution (featureTemplate : GherkinDocument) (ftags : List Tag)
    (split : Bool) (tagExpression : String) (features : List GherkinDocument)
    (scenario : Scenario) (htags : featureTemplate.feature.tags = some ftags) :
    splitScenario featureTemplate split tagExpression features scenario =
      some (features ++ contribution featureTemplate ftags split tagExpression scenario) := by
  unfold splitScenario contribution
  by_cases hty : (scenario.type == NodeType.ScenarioOutline) = true
  · simp only [hty, if_true]
    cases hex : scenario.examples with
    | none => simp
    | some exs =>
      cases exs with
      | nil => simp
      | cons first others =>
        simp only
        cases split with
        | true =>
          simp only [if_true]
          by_cases hany : ((first :: others).any hasTags) = true
          · simp only [hany, if_true]
            apply forEach_push
            intro acc ex _
            rw [forEach_push (fun row => [subFeature featureTemplate
              { scenario with
                examples := some [{ ex with tableBody := [row] }]
                tags := some (orEmpty scenario.tags ++ ftags ++ orEmpty ex.tags) }])]
            · simp [flatMap_single]
            · intro a row _
              simp [splitTaggedRow, htags, spreadTags_some, pushFeature]
          · simp only [hany, Bool.false_eq_true, if_false]
            rw [forEach_push (fun row => [subFeature featureTemplate
              { scenario with
                examples := some [{ first with tableBody := [row] }]
                tags := some (orEmpty scenario.tags ++ ftags ++ []) }])]
            · simp [flatMap_single]
            · intro a row _
              simp [splitUntaggedRow, htags, spreadTags_some, pushFeature]
        | false =>
          simp [htags, spreadTags_some, pushFeature]
  · simp only [hty, Bool.false_eq_true, if_false]
    simp [htags, spreadTags_some, pushFeature]

/-- With a tag list on the template, `splitFeature` returns the concatenation of
the closed forms of the non-Background children. -/
theorem splitFeature_eq_contribution (scenarios : List Scenario)
    (featureTemplate : GherkinDocument) (ftags : List Tag) (split : Bool)
    (tagExpression : String) (htags : featureTemplate.feature.tags = some ftags) :
    splitFeature scenarios featureTemplate split tagExpression =
      some ((scenarios.filter (fun scenario => scenario.type != NodeType.Background)).flatMap
        (contribution featureTemplate ftags split tagExpression)) := by
  unfold splitFeature
  rw [forEach_push (contribution featureTemplate ftags split tagExpression)]
  · simp
  · intro acc x _
    exact splitScenario_eq_contribution featureTemplate ftags split tagExpression acc x htags

theorem length_flatMap_map {α β γ : Type} (g : α → List β) (h : α → β → γ) (xs : List α) :
    (xs.flatMap (fun x => (g x).map (h x))).length = (xs.map (fun x => (g x).length)).sum := by
  induction xs with
  | nil => rfl
  | cons x xs ih => simp [List.flatMap_cons, ih]

theorem length_flatMap_id {α β : Type} (g : α → List β) (xs : List α) :
    (xs.flatMap g).length = (xs.map (fun x => (g x).length)).sum := by
  induction xs with
  | nil => rfl
  | cons x xs ih => simp [List.flatMap_cons, ih]

theorem contribution_length_outline (featureTemplate : GherkinDocument) (ftags : List Tag)
    (tagExpression : String) (scenario : Scenario)
    (hty : scenario.type = NodeType.ScenarioOutline) :
    (contribution featureTemplate ftags true tagExpression scenario).length =
      dataRowCount scenario := by
  unfold contribution dataRowCount
  simp only [hty, beq_self_eq_true, if_true]
  cases hex : scenario.examples with
  | none => simp [orEmpty]
  | some exs =>
    cases exs with
    | nil => simp [orEmpty]
    | cons first others =>
      simp only [orEmpty]
      by_cases hany : ((first :: others).any hasTags) = true
      · simp only [hany, if_true]
        exact length_flatMap_map (fun ex => ex.tableBody) _ (first :: others)
      · simp only [hany, Bool.false_eq_true, if_false, List.length_map]
        exact length_flatMap_id (fun ex => ex.tableBody) (first :: others)

theorem contribution_length_scenario (featureTemplate : GherkinDocument) (ftags : List Tag)
    (split : Bool) (tagExpression : String) (scenario : Scenario)
    (hty : scenario.type = NodeType.Scenario) :
    (contribution featureTemplate ftags split tagExpression scenario).length = 1 := by
  unfold contribution
  simp [hty]

theorem contribution_length_sum (featureTemplate : GherkinDocument) (ftags : List Tag)
    (tagExpression : String) (scenarios : List Scenario) :
    ((scenarios.filter (fun scenario => scenario.type != NodeType.Background)).flatMap
        (contribution featureTemplate ftags true tagExpression)).length =
      (scenarios.filter (fun scenario => scenario.type == NodeType.Scenario)).length +
        ((scenarios.filter (fun scenario => scenario.type == NodeType.ScenarioOutline)).map
          dataRowCount).sum := by
  induction scenarios with
  | nil => rfl
  | cons s rest ih =>
    cases hty : s.type with
    | Background =>
      simp only [List.filter_cons, hty]
      simpa using ih
    | Scenario =>
      have h1 := contribution_length_scenario featureTemplate ftags true tagExpression s hty
      simp only [List.filter_cons, hty]
      simp [List.flatMap_cons, h1, ih]
      omega
    | ScenarioOutline =>
      have h1 := contribution_length_outline featureTemplate ftags tagExpression s hty
      simp only [List.filter_cons, hty]
      simp [List.flatMap_cons, h1, ih]
      omega

/-- C1 (cardinality under the per-row policy). For a parsed document whose
feature carries a tag list, `splitFeature` with the per-row policy on returns a
list (it does not fail) whose length is the number of plain Scenario children
plus, summed over the ScenarioOutline children, the number of data rows of all
example blocks of the outline; an outline without rows adds 0. -/
theorem splitFeature_cardinality (doc : GherkinDocument) (ftags : List Tag)
    (tagExpression : String) (htags : doc.feature.tags = some ftags) :
    ∃ features,
      splitFeature doc.feature.children (getFeatureTemplate doc) true tagExpression =
        some features ∧
      features.length =
        (doc.feature.children.filter (fun s => s.type == NodeType.Scenario)).length +
          ((doc.feature.children.filter (fun s => s.type == NodeType.ScenarioOutline)).map
            dataRowCount).sum := by
  refine ⟨_, splitFeature_eq_contribution doc.feature.children (getFeatureTemplate doc) ftags
    true tagExpression htags, ?_⟩
  exact contribution_length_sum (getFeatureTemplate doc) ftags tagExpression doc.feature.children

theorem splitFeature_cardinality_witness :
    sampleDocument.feature.tags = some [{ name := "@smoke" }] ∧
    ∃ features,
      splitFeature sampleDocument.feature.children (getFeatureTemplate sampleDocument) true "" =
        some features ∧
      features.length =
        (sampleDocument.feature.children.filter (fun s => s.type == NodeType.Scenario)).length +
          ((sampleDocument.feature.children.filter
            (fun s => s.type == NodeType.ScenarioOutline)).map dataRowCount).sum :=
  ⟨rfl, splitFeature_cardinality sampleDocument [{ name := "@smoke" }] "" rfl⟩

theorem forEach_stable {α σ : Type} (cb : σ → α → Option σ) (xs : List α)
    (h : ∀ a x r, x ∈ xs → cb a x = some r → r = a) (acc r : σ)
    (hr : forEach xs cb acc = some r) : r = acc := by
  induction xs generalizing acc with
  | nil =>
    simp only [forEach, Option.some.injEq] at hr
    exact hr.symm
  | cons x xs ih =>
    simp only [forEach] at hr
    cases hx : cb acc x with
    | none => simp [hx] at hr
    | some a =>
      simp only [hx] at hr
      have h1 := h acc x a (List.mem_cons_self x xs) hx
      have h2 := ih (fun a0 y r0 hy => h a0 y r0 (List.mem_cons_of_mem x hy)) a hr
      rw [h2, h1]

/-- Without a tag list on the template every push throws, so a call of the
callback that returns has added nothing. -/
theorem splitScenario_without_tags (featureTemplate : GherkinDocument) (split : Bool)
    (tagExpression : String) (features result : List GherkinDocument) (scenario : Scenario)
    (htags : featureTemplate.feature.tags = none)
    (hr : splitScenario featureTemplate split tagExpression features scenario = some result) :
    result = features := by
  unfold splitScenario at hr
  by_cases hty : (scenario.type == NodeType.ScenarioOutline) = true
  · simp only [hty, if_true] at hr
    cases hex : scenario.examples with
    | none => simp [hex] at hr; exact hr.symm
    | some exs =>
      cases exs with
      | nil => simp [hex] at hr; exact hr.symm
      | cons first others =>
        simp only [hex] at hr
        cases split with
        | true =>
          simp only [if_true] at hr
          by_cases hany : ((first :: others).any hasTags) = true
          · simp only [hany, if_true] at hr
            refine forEach_stable _ _ ?_ features result hr
            intro a ex r _ hrow
            refine forEach_stable _ _ ?_ a r hrow
            intro a1 row r1 _ h1
            simp [splitTaggedRow, htags, spreadTags] at h1
          · simp only [hany, Bool.false_eq_true, if_false] at hr
            refine forEach_stable _ _ ?_ features result hr
            intro a1 row r1 _ h1
            simp [splitUntaggedRow, htags, spreadTags] at h1
        | false =>
          simp [htags, spreadTags] at hr
  · simp only [hty, Bool.false_eq_true, if_false] at hr
    simp [htags, spreadTags] at hr

theorem splitFeature_without_tags (scenarios : List Scenario) (featureTemplate : GherkinDocument)
    (split : Bool) (tagExpression : String) (result : List GherkinDocument)
    (htags : featureTemplate.feature.tags = none)
    (hr : splitFeature scenarios featureTemplate split tagExpression = some result) :
    result = [] := by
  unfold splitFeature at hr
  refine forEach_stable _ _ ?_ [] result hr
  intro a x r _ h1
  exact splitScenario_without_tags featureTemplate split tagExpression a r x htags h1

theorem mergeExampleTags_eq (scenario : Scenario) (tagExpression : String) (tags : List Tag)
    (ex : Examples) :
    mergeExampleTags scenario tagExpression tags ex =
      if blockSatisfies scenario tagExpression ex then tags ++ orEmpty ex.tags else tags := by
  simp [mergeExampleTags, blockSatisfies]

/-- The loop of the intact-outline policy appends the tags of the blocks that
pass the check, in document order. -/
theorem foldl_mergeExampleTags (scenario : Scenario) (tagExpression : String)
    (exs : List Examples) (tags : List Tag) :
    exs.foldl (mergeExampleTags scenario tagExpression) tags =
      tags ++ (exs.filter (blockSatisfies scenario tagExpression)).flatMap
        (fun ex => orEmpty ex.tags) := by
  induction exs generalizing tags with
  | nil => simp
  | cons ex rest ih =>
    simp only [List.foldl_cons, ih, mergeExampleTags_eq, List.filter_cons]
    by_cases hb : blockSatisfies scenario tagExpression ex = true
    · simp [hb, List.flatMap_cons, List.append_assoc]
    · simp [hb]

/-- Every element of the closed form is the template with one more child, which
is the original child with a new tag list, and possibly new example blocks. -/
theorem mem_contribution (featureTemplate : GherkinDocument) (ftags : List Tag) (split : Bool)
    (tagExpression : String) (scenario : Scenario) (f : GherkinDocument)
    (hf : f ∈ contribution featureTemplate ftags split tagExpression scenario) :
    ∃ tags examples extra,
      f = subFeature featureTemplate { scenario with tags := some tags, examples := examples } ∧
      tags = orEmpty scenario.tags ++ ftags ++ extra := by
  unfold contribution at hf
  by_cases hty : (scenario.type == NodeType.ScenarioOutline) = true
  · simp only [hty, if_true] at hf
    cases hex : scenario.examples with
    | none => simp [hex] at hf
    | some exs =>
      cases exs with
      | nil => simp [hex] at hf
      | cons first others =>
        simp only [hex] at hf
        cases split with
        | true =>
          simp only [if_true] at hf
          by_cases hany : ((first :: others).any hasTags) = true
          · simp only [hany, if_true, List.mem_flatMap, List.mem_map] at hf
            obtain ⟨ex, _, row, _, rfl⟩ := hf
            exact ⟨_, _, orEmpty ex.tags, rfl, rfl⟩
          · simp only [hany, Bool.false_eq_true, if_false, List.mem_map] at hf
            obtain ⟨row, _, rfl⟩ := hf
            exact ⟨_, _, [], rfl, rfl⟩
        | false =>
          simp only [Bool.false_eq_true, if_false, List.mem_singleton] at hf
          refine ⟨_, scenario.examples, (List.filter (blockSatisfies scenario tagExpression)
            (first :: others)).flatMap (fun ex => orEmpty ex.tags), ?_, rfl⟩
          rw [hf, foldl_mergeExampleTags]
          simp [List.append_assoc, hex]
  · simp only [hty, Bool.false_eq_true, if_false, List.mem_singleton] at hf
    exact ⟨_, scenario.examples, [], by rw [hf], rfl⟩

/-- C2 (tag inheritance). Whatever the split policy and the tag expression,
every sub-feature returned by `splitFeature` has a child that is not a
Background, that stems from one of the original non-Background children (same
type, keyword, name and steps) and whose tag list holds every tag of the tag
list of the template feature and every tag of the tag list of that original
child. -/
theorem splitFeature_tag_inheritance (scenarios : List Scenario)
    (featureTemplate : GherkinDocument) (split : Bool) (tagExpression : String)
    (features : List GherkinDocument)
    (hsplit : splitFeature scenarios featureTemplate split tagExpression = some features) :
    ∀ f ∈ features, ∃ original ∈ scenarios, ∃ child ∈ f.feature.children, ∃ tags,
      original.type ≠ NodeType.Background ∧ child.type = original.type ∧
      child.keyword = original.keyword ∧ child.name = original.name ∧
      child.steps = original.steps ∧ child.tags = some tags ∧
      (∀ featureTags, featureTemplate.feature.tags = some featureTags →
        ∀ t ∈ featureTags, t ∈ tags) ∧
      (∀ scenarioTags, original.tags = some scenarioTags →
        ∀ t ∈ scenarioTags, t ∈ tags) := by
  intro f hf
  cases htags : featureTemplate.feature.tags with
  | none =>
    have h0 := splitFeature_without_tags scenarios featureTemplate split tagExpression features
      htags hsplit
    rw [h0] at hf
    simp at hf
  | some ftags =>
    rw [splitFeature_eq_contribution scenarios featureTemplate ftags split tagExpression htags]
      at hsplit
    simp only [Option.some.injEq] at hsplit
    rw [← hsplit, List.mem_flatMap] at hf
    obtain ⟨original, horig, hmem⟩ := hf
    rw [List.mem_filter] at horig
    obtain ⟨tags, examples, extra, hfeq, htageq⟩ :=
      mem_contribution featureTemplate ftags split tagExpression original f hmem
    refine ⟨original, horig.1, { original with tags := some tags, examples := examples }, ?_,
      tags, ?_, rfl, rfl, rfl, rfl, rfl, ?_, ?_⟩
    · rw [hfeq]
      simp [subFeature]
    · simpa using horig.2
    · intro featureTags hfeature t ht
      rw [Option.some.injEq] at hfeature
      rw [htageq, hfeature]
      simp [ht]
    · intro scenarioTags hscenario t ht
      rw [htageq, hscenario]
      simp [orEmpty, ht]

theorem splitFeature_tag_inheritance_witness :
    sampleOutline.tags = some [{ name := "@pay" }] ∧
    (getFeatureTemplate sampleDocument).feature.tags = some [{ name := "@smoke" }] ∧
    splitFeature [sampleScenario, sampleOutline] (getFeatureTemplate sampleDocument) false "" =
      some
        [{ feature :=
            { type := "Feature", tags := some [{ name := "@smoke" }], keyword := "Feature",
              name := "Shop",
              children := [sampleBackground,
                { sampleScenario with tags := some [{ name := "@smoke" }] }] } },
         { feature :=
            { type := "Feature", tags := some [{ name := "@smoke" }], keyword := "Feature",
              name := "Shop",
              children := [sampleBackground,
                { sampleOutline with
                  tags := some [{ name := "@pay" }, { name := "@smoke" }] }] } }] ∧
    ∀ features,
      splitFeature [sampleScenario, sampleOutline] (getFeatureTemplate sampleDocument) false "" =
        some features →
      ∀ f ∈ features, ∃ original ∈ [sampleScenario, sampleOutline],
        ∃ child ∈ f.feature.children, ∃ tags,
          original.type ≠ NodeType.Background ∧ child.type = original.type ∧
          child.keyword = original.keyword ∧ child.name = original.name ∧
          child.steps = original.steps ∧ child.tags = some tags ∧
          (∀ featureTags, (getFeatureTemplate sampleDocument).feature.tags = some featureTags →
            ∀ t ∈ featureTags, t ∈ tags) ∧
          (∀ scenarioTags, original.tags = some scenarioTags →
            ∀ t ∈ scenarioTags, t ∈ tags) :=
  ⟨rfl, rfl, rfl, fun features h =>
    splitFeature_tag_inheritance [sampleScenario, sampleOutline]
      (getFeatureTemplate sampleDocument) false "" features h⟩

theorem orEmpty_of_not_hasTags (ex : Examples) (h : hasTags ex = false) :
    orEmpty ex.tags = [] := by
  unfold hasTags at h
  cases htags : ex.tags with
  | none => rfl
  | some ts =>
    simp only [htags, gt_iff_lt, decide_eq_false_iff_not, not_lt, Nat.le_zero_eq,
      List.length_eq_zero] at h
    simp [orEmpty, h]

theorem filter_scenarios_append (pre post : List Scenario) (scenario : Scenario)
    (hty : scenario.type ≠ NodeType.Background) :
    (pre ++ scenario :: post).filter (fun s => s.type != NodeType.Background) =
      pre.filter (fun s => s.type != NodeType.Background) ++
        scenario :: post.filter (fun s => s.type != NodeType.Background) := by
  simp [List.filter_append, List.filter_cons, hty]

/-- C3 (tag-row coupling). With the per-row policy on, for an outline with two
example blocks, the first without tags and the second tagged, inside any
feature whose template carries a tag list: the sub-features of the outline are
one per row of the first block, each tagged with exactly the outline tags
followed by the feature tags (no example tag), and then one per row of the
second block, each tagged with the outline tags, the feature tags and all tags
of the second block. -/
theorem splitFeature_tag_row_coupling (pre post : List Scenario) (outline : Scenario)
    (b1 b2 : Examples) (featureTemplate : GherkinDocument) (ftags : List Tag)
    (tagExpression : String)
    (htags : featureTemplate.feature.tags = some ftags)
    (hty : outline.type = NodeType.ScenarioOutline)
    (hex : outline.examples = some [b1, b2])
    (h1 : hasTags b1 = false) (h2 : hasTags b2 = true) :
    ∃ before after,
      splitFeature pre featureTemplate true tagExpression = some before ∧
      splitFeature post featureTemplate true tagExpression = some after ∧
      splitFeature (pre ++ outline :: post) featureTemplate true tagExpression =
        some (before ++
          (b1.tableBody.map (fun row =>
              subFeature featureTemplate
                { outline with
                  examples := some [{ b1 with tableBody := [row] }]
                  tags := some (orEmpty outline.tags ++ ftags) }) ++
            b2.tableBody.map (fun row =>
              subFeature featureTemplate
                { outline with
                  examples := some [{ b2 with tableBody := [row] }]
                  tags := some (orEmpty outline.tags ++ ftags ++ orEmpty b2.tags) })) ++
          after) := by
  refine ⟨_, _, splitFeature_eq_contribution pre featureTemplate ftags true tagExpression htags,
    splitFeature_eq_contribution post featureTemplate ftags true tagExpression htags, ?_⟩
  rw [splitFeature_eq_contribution _ featureTemplate ftags true tagExpression htags,
    filter_scenarios_append pre post outline (by simp [hty])]
  have hc : contribution featureTemplate ftags true tagExpression outline =
      b1.tableBody.map (fun row =>
          subFeature featureTemplate
            { outline with
              examples := some [{ b1 with tableBody := [row] }]
              tags := some (orEmpty outline.tags ++ ftags) }) ++
        b2.tableBody.map (fun row =>
          subFeature featureTemplate
            { outline with
              examples := some [{ b2 with tableBody := [row] }]
              tags := some (orEmpty outline.tags ++ ftags ++ orEmpty b2.tags) }) := by
    unfold contribution
    simp [hty, hex, h1, h2, orEmpty_of_not_hasTags b1 h1, List.flatMap_cons]
  simp [List.flatMap_append, List.flatMap_cons, hc, List.append_assoc]

theorem splitFeature_tag_row_coupling_witness :
    (getFeatureTemplate sampleDocument).feature.tags = some [{ name := "@smoke" }] ∧
    sampleOutline.type = NodeType.ScenarioOutline ∧
    sampleOutline.examples = some [sampleBlock1, sampleBlock2] ∧
    hasTags sampleBlock1 = false ∧ hasTags sampleBlock2 = true ∧
    ∃ before after,
      splitFeature [sampleBackground, sampleScenario] (getFeatureTemplate sampleDocument) true "" =
        some before ∧
      splitFeature [] (getFeatureTemplate sampleDocument) true "" = some after ∧
      splitFeature ([sampleBackground, sampleScenario] ++ sampleOutline :: [])
          (getFeatureTemplate sampleDocument) true "" =
        some (before ++
          (sampleBlock1.tableBody.map (fun row =>
              subFeature (getFeatureTemplate sampleDocument)
                { sampleOutline with
                  examples := some [{ sampleBlock1 with tableBody := [row] }]
                  tags := some (orEmpty sampleOutline.tags ++ [{ name := "@smoke" }]) }) ++
            sampleBlock2.tableBody.map (fun row =>
              subFeature (getFeatureTemplate sampleDocument)
                { sampleOutline with
                  examples := some [{ sampleBlock2 with tableBody := [row] }]
                  tags := some (orEmpty sampleOutline.tags ++ [{ name := "@smoke" }] ++
                    orEmpty sampleBlock2.tags) })) ++
          after) :=
  ⟨rfl, rfl, rfl, rfl, rfl,
    splitFeature_tag_row_coupling [sampleBackground, sampleScenario] [] sampleOutline
      sampleBlock1 sampleBlock2 (getFeatureTemplate sampleDocument) [{ name := "@smoke" }] ""
      rfl rfl rfl rfl rfl⟩

/-- What the callback of `splitFeature` returns on an array `features` is
`features` followed by what it returns on the empty array. -/
theorem splitScenario_affine (featureTemplate : GherkinDocument) (split : Bool)
    (tagExpression : String) (features : List GherkinDocument) (scenario : Scenario) :
    splitScenario featureTemplate split tagExpression features scenario =
      (splitScenario featureTemplate split tagExpression [] scenario).map
        (fun r => features ++ r) := by
  unfold splitScenario
  by_cases hty : (scenario.type == NodeType.ScenarioOutline) = true
  · simp only [hty, if_true]
    cases hex : scenario.examples with
    | none => simp
    | some exs =>
      cases exs with
      | nil => simp
      | cons first others =>
        simp only
        cases split with
        | true =>
          simp only [if_true]
          by_cases hany : ((first :: others).any hasTags) = true
          · simp only [hany, if_true]
            apply forEach_affine
            intro acc ex
            apply forEach_affine
            intro a row
            unfold splitTaggedRow
            cases spreadTags scenario.tags featureTemplate.feature.tags (orEmpty ex.tags) with
            | none => rfl
            | some tags => simp [pushFeature]
          · simp only [hany, Bool.false_eq_true, if_false]
            apply forEach_affine
            intro a row
            unfold splitUntaggedRow
            cases spreadTags scenario.tags featureTemplate.feature.tags [] with
            | none => rfl
            | some tags => simp [pushFeature]
        | false =>
          simp only [Bool.false_eq_true, if_false]
          cases spreadTags scenario.tags featureTemplate.feature.tags [] with
          | none => rfl
          | some tags => simp [pushFeature]
  · simp only [hty, Bool.false_eq_true, if_false]
    cases spreadTags scenario.tags featureTemplate.feature.tags [] with
    | none => rfl
    | some tags => simp [pushFeature]

theorem forEach_concatResults {α β : Type} (cb : List β → α → Option (List β))
    (h : ∀ acc x, cb acc x = (cb [] x).map (fun r => acc ++ r)) (xs : List α) :
    forEach xs cb [] = concatResults (xs.map (fun x => forEach [x] cb [])) := by
  have hsingle : ∀ x, forEach [x] cb [] = cb [] x := by
    intro x
    simp only [forEach]
    cases cb [] x <;> rfl
  induction xs with
  | nil => rfl
  | cons x xs ih =>
    rw [List.map_cons, concatResults, ← ih, hsingle]
    simp only [forEach]
    cases hx : cb [] x with
    | none => rfl
    | some p =>
      simp only [Option.some_bind]
      exact forEach_affine cb xs h p

theorem splitFeature_singleton (featureTemplate : GherkinDocument) (split : Bool)
    (tagExpression : String) (scenario : Scenario)
    (hty : scenario.type ≠ NodeType.Background) :
    splitFeature [scenario] featureTemplate split tagExpression =
      forEach [scenario] (splitScenario featureTemplate split tagExpression) [] := by
  unfold splitFeature
  simp [List.filter_cons, hty]

theorem forall₂_map_self {α β : Type} (R : α → β → Prop) (f : α → β) (l : List α)
    (h : ∀ x, R x (f x)) : List.Forall₂ R l (l.map f) := by
  induction l with
  | nil => exact List.Forall₂.nil
  | cons x xs ih => exact List.Forall₂.cons (h x) ih

theorem forall₂_flatMap_map {α β γ : Type} (R : β → γ → Prop) (g : α → List β)
    (f : α → β → γ) (l : List α) (h : ∀ a x, R x (f a x)) :
    List.Forall₂ R (l.flatMap g) (l.flatMap (fun a => (g a).map (f a))) := by
  induction l with
  | nil => exact List.Forall₂.nil
  | cons a as ih =>
    simp only [List.flatMap_cons]
    exact List.rel_append (forall₂_map_self R (f a) (g a) (h a)) ih

/-- C4 (stable order and single-row shape). The result of `splitFeature` is the
concatenation, in document order of the non-Background children, of the
results of `splitFeature` on each such child alone (it fails when one of them
fails). With the per-row policy on and a tag list on the template, the result
for a ScenarioOutline is matched position by position (`List.Forall₂`: same
length, k-th with k-th) with the data rows taken block after block and, within a
block, row after row: the k-th sub-feature is the template followed by one
child whose `examples` is a single block whose body is exactly the k-th row. -/
theorem splitFeature_stable_order (scenarios : List Scenario)
    (featureTemplate : GherkinDocument) (split : Bool) (tagExpression : String) :
    splitFeature scenarios featureTemplate split tagExpression =
        concatResults
          ((scenarios.filter (fun scenario => scenario.type != NodeType.Background)).map
            (fun scenario => splitFeature [scenario] featureTemplate split tagExpression)) ∧
    ∀ (outline : Scenario) (exs : List Examples) (ftags : List Tag),
      outline.type = NodeType.ScenarioOutline → outline.examples = some exs →
      featureTemplate.feature.tags = some ftags →
      ∃ features,
        splitFeature [outline] featureTemplate true tagExpression = some features ∧
        List.Forall₂
          (fun row f => ∃ child block,
            f.feature.children = featureTemplate.feature.children ++ [child] ∧
            child.examples = some [block] ∧ block.tableBody = [row])
          (exs.flatMap (fun ex => ex.tableBody)) features := by
  constructor
  · have hmap : (scenarios.filter (fun scenario => scenario.type != NodeType.Background)).map
          (fun scenario => splitFeature [scenario] featureTemplate split tagExpression) =
        (scenarios.filter (fun scenario => scenario.type != NodeType.Background)).map
          (fun scenario =>
            forEach [scenario] (splitScenario featureTemplate split tagExpression) []) := by
      apply List.map_congr_left
      intro s hs
      rw [List.mem_filter] at hs
      exact splitFeature_singleton featureTemplate split tagExpression s (by simpa using hs.2)
    rw [hmap]
    exact forEach_concatResults _ (splitScenario_affine featureTemplate split tagExpression) _
  · intro outline exs ftags hty hex htags
    refine ⟨_, splitFeature_eq_contribution [outline] featureTemplate ftags true tagExpression
      htags, ?_⟩
    have hfilter : [outline].filter (fun scenario => scenario.type != NodeType.Background) =
        [outline] := by
      simp [List.filter_cons, hty]
    rw [hfilter]
    simp only [List.flatMap_cons, List.flatMap_nil, List.append_nil]
    unfold contribution
    simp only [hty, beq_self_eq_true, if_true, hex]
    cases exs with
    | nil => exact List.Forall₂.nil
    | cons first others =>
      simp only
      by_cases hany : ((first :: others).any hasTags) = true
      · simp only [hany, if_true]
        apply forall₂_flatMap_map
        intro ex row
        exact ⟨_, _, rfl, rfl, rfl⟩
      · simp only [hany, Bool.false_eq_true, if_false]
        apply forall₂_map_self
        intro row
        exact ⟨_, _, rfl, rfl, rfl⟩

theorem splitFeature_stable_order_witness :
    ∃ features,
      splitFeature [sampleOutline] (getFeatureTemplate sampleDocument) true "" = some features ∧
      List.Forall₂
        (fun row f => ∃ child block,
          f.feature.children = (getFeatureTemplate sampleDocument).feature.children ++ [child] ∧
          child.examples = some [block] ∧ block.tableBody = [row])
        ([sampleBlock1, sampleBlock2].flatMap (fun ex => ex.tableBody)) features :=
  (splitFeature_stable_order sampleDocument.feature.children (getFeatureTemplate sampleDocument)
    true "").2 sampleOutline [sampleBlock1, sampleBlock2] [{ name := "@smoke" }] rfl rfl rfl

theorem forEach_noop {α σ : Type} (cb : σ → α → Option σ) (xs : List α)
    (h : ∀ a x, x ∈ xs → cb a x = some a) (acc : σ) : forEach xs cb acc = some acc := by
  induction xs with
  | nil => rfl
  | cons x xs ih =>
    simp only [forEach]
    rw [h acc x (List.mem_cons_self x xs)]
    exact ih (fun a y hy => h a y (List.mem_cons_of_mem x hy))

theorem tableBody_nil_of_sum_zero (exs : List Examples)
    (h : (exs.map (fun ex => ex.tableBody.length)).sum = 0) :
    ∀ ex ∈ exs, ex.tableBody = [] := by
  induction exs with
  | nil => intro ex hex; simp at hex
  | cons e rest ih =>
    simp only [List.map_cons, List.sum_cons, Nat.add_eq_zero_iff, List.length_eq_zero] at h
    intro ex hex
    rcases List.mem_cons.mp hex with rfl | hmem
    · exact h.1
    · exact ih h.2 ex hmem

/-- The callback of `splitFeature` leaves the array as it is on an outline
without example blocks and, with the per-row policy on, on an outline without
data rows. -/
theorem splitScenario_skip (featureTemplate : GherkinDocument) (split : Bool)
    (tagExpression : String) (features : List GherkinDocument) (outline : Scenario)
    (hty : outline.type = NodeType.ScenarioOutline)
    (hzero : dataRowCount outline = 0)
    (hcase : split = true ∨ orEmpty outline.examples = []) :
    splitScenario featureTemplate split tagExpression features outline = some features := by
  unfold splitScenario
  simp only [hty, beq_self_eq_true, if_true]
  cases hex : outline.examples with
  | none => rfl
  | some exs =>
    cases exs with
    | nil => rfl
    | cons first others =>
      simp only
      rcases hcase with hsplit | hempty
      · have hrows : ∀ ex ∈ first :: others, ex.tableBody = [] := by
          apply tableBody_nil_of_sum_zero
          simpa [dataRowCount, hex, orEmpty] using hzero
        simp only [hsplit, if_true]
        by_cases hany : ((first :: others).any hasTags) = true
        · simp only [hany, if_true]
          apply forEach_noop
          intro a ex hmem
          rw [hrows ex hmem]
          rfl
        · simp only [hany, Bool.false_eq_true, if_false]
          have hflat : (first :: others).flatMap (fun ex => ex.tableBody) = [] := by
            rw [List.flatMap_eq_nil_iff]
            exact hrows
          rw [hflat]
          rfl
      · simp [hex, orEmpty] at hempty

/-- C5, as amended (zero-row outlines). A ScenarioOutline without data rows
adds no sub-feature, and the sub-features of the other children are those of
the feature without it, when the per-row policy is on or when the outline has
no example block at all (`examples` absent or empty). -/
theorem splitFeature_skips_outline (pre post : List Scenario) (outline : Scenario)
    (featureTemplate : GherkinDocument) (split : Bool) (tagExpression : String)
    (hty : outline.type = NodeType.ScenarioOutline)
    (hzero : dataRowCount outline = 0)
    (hcase : split = true ∨ orEmpty outline.examples = []) :
    splitFeature (pre ++ outline :: post) featureTemplate split tagExpression =
      splitFeature (pre ++ post) featureTemplate split tagExpression := by
  unfold splitFeature
  rw [filter_scenarios_append pre post outline (by simp [hty]), List.filter_append,
    forEach_append, forEach_append]
  cases forEach (pre.filter (fun s => s.type != NodeType.Background))
      (splitScenario featureTemplate split tagExpression) [] with
  | none => rfl
  | some acc =>
    simp only [Option.some_bind, forEach]
    rw [splitScenario_skip featureTemplate split tagExpression acc outline hty hzero hcase]

theorem splitFeature_skips_outline_witness :
    sampleEmptyOutline.type = NodeType.ScenarioOutline ∧
    dataRowCount sampleEmptyOutline = 0 ∧
    splitFeature ([sampleScenario] ++ sampleEmptyOutline :: [sampleOutline])
        (getFeatureTemplate sampleDocument) true "" =
      splitFeature ([sampleScenario] ++ [sampleOutline])
        (getFeatureTemplate sampleDocument) true "" :=
  ⟨rfl, rfl,
    splitFeature_skips_outline [sampleScenario] [sampleOutline] sampleEmptyOutline
      (getFeatureTemplate sampleDocument) true "" rfl rfl (Or.inl rfl)⟩

/-- C5, counterexample. With the per-row policy off, an outline whose only
example block has no data row is not skipped: it yields one sub-feature. -/
theorem zero_row_outline_kept_when_intact :
    dataRowCount sampleEmptyOutline = 0 ∧
    splitFeature [sampleEmptyOutline] (getFeatureTemplate sampleDocument) false "" =
      some [subFeature (getFeatureTemplate sampleDocument)
        { sampleEmptyOutline with tags := some [{ name := "@smoke" }] }] ∧
    splitFeature [sampleEmptyOutline] (getFeatureTemplate sampleDocument) false "" ≠
      splitFeature [] (getFeatureTemplate sampleDocument) false "" := by
  refine ⟨rfl, rfl, ?_⟩
  intro h
  have h1 : (splitFeature [sampleEmptyOutline] (getFeatureTemplate sampleDocument) false "").map
      List.length = some 1 := rfl
  rw [h] at h1
  exact absurd h1 (by decide)

/-! ## Properties of the tokenization of the tag expression -/

theorem dropWhile_head_false {α : Type} (p : α → Bool) (l : List α) (c : α) (t : List α)
    (h : l.dropWhile p = c :: t) : p c = false := by
  induction l with
  | nil => simp at h
  | cons x xs ih =>
    by_cases hx : p x = true
    · simp only [List.dropWhile_cons, hx, if_true] at h
      exact ih h
    · simp only [List.dropWhile_cons, hx, Bool.false_eq_true, if_false, List.cons.injEq] at h
      rw [← h.1]
      simpa using hx

theorem takeWhile_append_stop_list {α : Type} (p : α → Bool) (xs ys : List α) (y : α)
    (hxs : ∀ x ∈ xs, p x = true) (hy : p y = false) :
    (xs ++ y :: ys).takeWhile p = xs ∧ (xs ++ y :: ys).dropWhile p = y :: ys := by
  induction xs with
  | nil => simp [List.takeWhile, List.dropWhile, hy]
  | cons x xs ih =>
    have hx : p x = true := hxs x (List.mem_cons_self x xs)
    have h := ih (fun z hz => hxs z (List.mem_cons_of_mem x hz))
    simp only [List.cons_append, List.takeWhile_cons, List.dropWhile_cons, hx, if_true]
    exact ⟨by rw [h.1], h.2⟩

theorem drop_length_takeWhile {α : Type} (p : α → Bool) (l : List α) :
    l.drop (l.takeWhile p).length = l.dropWhile p := by
  induction l with
  | nil => rfl
  | cons x xs ih =>
    by_cases hx : p x = true
    · simp only [List.takeWhile_cons, List.dropWhile_cons, hx, if_true, List.length_cons,
        List.drop_succ_cons]
      exact ih
    · simp [List.takeWhile_cons, List.dropWhile_cons, hx]

theorem isWhiteSpace_a : isWhiteSpace 'a' = false := by decide

/-- When `matchAnd` finds a match, the input is white space, `and`, white space
and a rest that does not start with white space, and the length is that of the
separator. -/
theorem matchAnd_some (cs : List Char) (n : Nat) (h : matchAnd cs = some n) :
    ∃ w1 w2 rest, cs = w1 ++ ['a', 'n', 'd'] ++ w2 ++ rest ∧ w1 ≠ [] ∧ w2 ≠ [] ∧
      (∀ c ∈ w1, isWhiteSpace c = true) ∧ (∀ c ∈ w2, isWhiteSpace c = true) ∧
      (∀ c tail, rest = c :: tail → isWhiteSpace c = false) ∧
      n = (w1 ++ ['a', 'n', 'd'] ++ w2).length := by
  unfold matchAnd whiteSpaceRun at h
  simp only at h
  split at h
  · simp at h
  · rename_i hn1
    rw [drop_length_takeWhile] at h
    split at h
    · rename_i rest1 hdrop
      split at h
      · simp at h
      · rename_i hn2
        simp only [Option.some.injEq] at h
        refine ⟨cs.takeWhile isWhiteSpace, rest1.takeWhile isWhiteSpace,
          rest1.dropWhile isWhiteSpace, ?_, ?_, ?_, ?_, ?_, ?_, ?_⟩
        · have h1 := (List.takeWhile_append_dropWhile isWhiteSpace cs).symm
          rw [hdrop] at h1
          have h2 := (List.takeWhile_append_dropWhile isWhiteSpace rest1).symm
          calc cs = cs.takeWhile isWhiteSpace ++ 'a' :: 'n' :: 'd' :: rest1 := h1
            _ = cs.takeWhile isWhiteSpace ++ ['a', 'n', 'd'] ++
                  (rest1.takeWhile isWhiteSpace ++ rest1.dropWhile isWhiteSpace) := by
                rw [← h2]; simp
            _ = _ := by simp [List.append_assoc]
        · intro hnil
          apply hn1
          simp [hnil]
        · intro hnil
          apply hn2
          simp [hnil]
        · intro c hc
          exact (List.mem_takeWhile_imp hc)
        · intro c hc
          exact (List.mem_takeWhile_imp hc)
        · intro c tail hrest
          exact dropWhile_head_false isWhiteSpace rest1 c tail hrest
        · rw [← h]
          simp
          omega
    · simp at h

/-- When `matchAnd` finds no match, no separator stands at the head. -/
theorem matchAnd_none (cs : List Char) (h : matchAnd cs = none) : ¬ StartsWithSeparator cs := by
  rintro ⟨sep, tail, ⟨w1, w2, hsep, hw1, hw2, hall1, hall2⟩, hcs⟩
  have hcs2 : cs = w1 ++ 'a' :: ('n' :: 'd' :: (w2 ++ tail)) := by
    rw [hcs, hsep]
    simp [List.append_assoc]
  have htd := takeWhile_append_stop_list isWhiteSpace w1 ('n' :: 'd' :: (w2 ++ tail)) 'a' hall1
    isWhiteSpace_a
  rw [← hcs2] at htd
  unfold matchAnd whiteSpaceRun at h
  simp only at h
  rw [drop_length_takeWhile, htd.1, htd.2] at h
  cases w1 with
  | nil => exact hw1 rfl
  | cons a w1t =>
    cases w2 with
    | nil => exact hw2 rfl
    | cons b w2t =>
      have hb : isWhiteSpace b = true := hall2 b (List.mem_cons_self b w2t)
      simp [List.takeWhile_cons, hb] at h

theorem splitAnd_nil (skip : Nat) (cur : List Char) : splitAnd [] skip cur = [cur.reverse] := by
  cases skip <;> rfl

theorem splitAnd_succ (c : Char) (cs : List Char) (skip : Nat) (cur : List Char) :
    splitAnd (c :: cs) (skip + 1) cur = splitAnd cs skip cur := rfl

theorem splitAnd_zero (c : Char) (cs cur : List Char) :
    splitAnd (c :: cs) 0 cur =
      match matchAnd (c :: cs) with
      | some n => cur.reverse :: splitAnd cs (n - 1) []
      | none => splitAnd cs 0 (c :: cur) := rfl

theorem splitAnd_skip (xs ys cur : List Char) :
    splitAnd (xs ++ ys) xs.length cur = splitAnd ys 0 cur := by
  induction xs with
  | nil => rfl
  | cons x xs ih =>
    rw [List.cons_append, List.length_cons, splitAnd_succ]
    exact ih

theorem not_startsWithSeparator_nil : ¬ StartsWithSeparator [] := by
  rintro ⟨sep, tail, ⟨w1, w2, hsep, hw1, _, _, _⟩, hcs⟩
  have hnil : sep = [] := by
    cases sep with
    | nil => rfl
    | cons a t => simp at hcs
  rw [hnil] at hsep
  cases w1 with
  | nil => exact hw1 rfl
  | cons a t => simp at hsep

/-- `splitAnd` returns the pieces of the specification; `pre` is the part of the
current piece already read. -/
theorem splitAnd_isAndSplit (n : Nat) :
    ∀ (cs pre : List Char), cs.length ≤ n →
      (∀ q, q < pre.length → ¬ StartsWithSeparator ((pre ++ cs).drop q)) →
      IsAndSplit (pre ++ cs) (splitAnd cs 0 pre.reverse) := by
  induction n with
  | zero =>
    intro cs pre hlen hpre
    have hcs : cs = [] := List.length_eq_zero.mp (Nat.le_zero.mp hlen)
    subst hcs
    rw [splitAnd_nil, List.reverse_reverse, List.append_nil]
    apply IsAndSplit.last
    intro q
    by_cases hq : q < pre.length
    · have := hpre q hq
      simpa using this
    · rw [List.drop_eq_nil_of_le (Nat.le_of_not_lt hq)]
      exact not_startsWithSeparator_nil
  | succ n ih =>
    intro cs pre hlen hpre
    cases cs with
    | nil =>
      rw [splitAnd_nil, List.reverse_reverse, List.append_nil]
      apply IsAndSplit.last
      intro q
      by_cases hq : q < pre.length
      · have := hpre q hq
        simpa using this
      · rw [List.drop_eq_nil_of_le (Nat.le_of_not_lt hq)]
        exact not_startsWithSeparator_nil
    | cons c rest0 =>
      cases hm : matchAnd (c :: rest0) with
      | none =>
        rw [splitAnd_zero, hm]
        simp only
        have hrev : c :: pre.reverse = (pre ++ [c]).reverse := by simp
        have happ : pre ++ c :: rest0 = (pre ++ [c]) ++ rest0 := by simp
        rw [hrev, happ]
        apply ih rest0 (pre ++ [c])
        · simp only [List.length_cons] at hlen
          omega
        · intro q hq
          rw [← happ]
          by_cases hq2 : q < pre.length
          · exact hpre q hq2
          · have hqeq : q = pre.length := by
              simp only [List.length_append, List.length_singleton] at hq
              omega
            rw [hqeq, List.drop_left]
            exact matchAnd_none (c :: rest0) hm
      | some k =>
        rw [splitAnd_zero, hm]
        simp only [List.reverse_reverse]
        obtain ⟨w1, w2, rest, hcs, hw1, hw2, hall1, hall2, hgreedy, hk⟩ :=
          matchAnd_some (c :: rest0) k hm
        cases w1 with
        | nil => exact absurd rfl hw1
        | cons a w1t =>
          have hrest0 : rest0 = (w1t ++ ['a', 'n', 'd'] ++ w2) ++ rest := by
            simp only [List.cons_append, List.cons.injEq] at hcs
            rw [hcs.2]
          have hklen : k - 1 = (w1t ++ ['a', 'n', 'd'] ++ w2).length := by
            rw [hk]
            simp
          rw [hrest0, hklen, splitAnd_skip]
          have hwhole : pre ++ c :: ((w1t ++ ['a', 'n', 'd'] ++ w2) ++ rest) =
              pre ++ (a :: w1t ++ ['a', 'n', 'd'] ++ w2) ++ rest := by
            simp only [List.cons_append, List.cons.injEq] at hcs
            rw [hcs.1]
            simp [List.append_assoc]
          rw [hwhole]
          apply IsAndSplit.more pre (a :: w1t ++ ['a', 'n', 'd'] ++ w2) rest
          · exact ⟨a :: w1t, w2, rfl, hw1, hw2, hall1, hall2⟩
          · intro q hq
            rw [← hwhole, ← hrest0]
            exact hpre q hq
          · exact hgreedy
          · have hlen2 : rest.length ≤ n := by
              rw [hrest0] at hlen
              simp only [List.length_cons, List.length_append] at hlen
              omega
            have := ih rest [] hlen2 (fun q hq => by simp at hq)
            simpa using this

/-- `trim` returns the piece trimmed. -/
theorem trim_isTrimOf (cs : List Char) : IsTrimOf cs (trim cs) := by
  unfold trim
  refine ⟨cs.takeWhile isWhiteSpace,
    (((cs.dropWhile isWhiteSpace).reverse).takeWhile isWhiteSpace).reverse, ?_, ?_, ?_, ?_, ?_⟩
  · have h1 := (List.takeWhile_append_dropWhile isWhiteSpace cs).symm
    have h2 := (List.takeWhile_append_dropWhile isWhiteSpace
      (cs.dropWhile isWhiteSpace).reverse).symm
    have h3 : cs.dropWhile isWhiteSpace =
        (((cs.dropWhile isWhiteSpace).reverse).dropWhile isWhiteSpace).reverse ++
          (((cs.dropWhile isWhiteSpace).reverse).takeWhile isWhiteSpace).reverse := by
      rw [← List.reverse_append, ← h2, List.reverse_reverse]
    rw [List.append_assoc, ← h3]
    exact h1
  · intro c hc
    exact List.mem_takeWhile_imp hc
  · intro c hc
    rw [List.mem_reverse] at hc
    exact List.mem_takeWhile_imp hc
  · intro c hc
    have h2 := (List.takeWhile_append_dropWhile isWhiteSpace
      (cs.dropWhile isWhiteSpace).reverse).symm
    have h3 : cs.dropWhile isWhiteSpace =
        (((cs.dropWhile isWhiteSpace).reverse).dropWhile isWhiteSpace).reverse ++
          (((cs.dropWhile isWhiteSpace).reverse).takeWhile isWhiteSpace).reverse := by
      rw [← List.reverse_append, ← h2, List.reverse_reverse]
    cases ht : (((cs.dropWhile isWhiteSpace).reverse).dropWhile isWhiteSpace).reverse with
    | nil => simp [ht] at hc
    | cons x xs =>
      rw [ht] at hc h3
      simp only [List.head?_cons, Option.some.injEq] at hc
      rw [← hc]
      exact dropWhile_head_false isWhiteSpace cs x _ h3
  · intro c hc
    rw [List.getLast?_reverse] at hc
    cases hd : ((cs.dropWhile isWhiteSpace).reverse).dropWhile isWhiteSpace with
    | nil => simp [hd] at hc
    | cons x xs =>
      rw [hd] at hc
      simp only [List.head?_cons, Option.some.injEq] at hc
      rw [← hc]
      exact dropWhile_head_false isWhiteSpace _ x xs hd

theorem whiteSpace_prefix_unique (xs xs1 t t1 : List Char) (h : xs ++ t = xs1 ++ t1)
    (hxs : ∀ c ∈ xs, isWhiteSpace c = true) (hxs1 : ∀ c ∈ xs1, isWhiteSpace c = true)
    (ht : ∀ c r, t = c :: r → isWhiteSpace c = false)
    (ht1 : ∀ c r, t1 = c :: r → isWhiteSpace c = false) :
    xs = xs1 ∧ t = t1 := by
  induction xs generalizing xs1 with
  | nil =>
    cases xs1 with
    | nil => exact ⟨rfl, by simpa using h⟩
    | cons y ys =>
      have h1 : isWhiteSpace y = false := ht y (ys ++ t1) (by simpa using h)
      have h2 : isWhiteSpace y = true := hxs1 y (List.mem_cons_self y ys)
      rw [h1] at h2
      exact absurd h2 (by decide)
  | cons x xs ih =>
    cases xs1 with
    | nil =>
      have h1 : isWhiteSpace x = false := ht1 x (xs ++ t) (by simpa using h.symm)
      have h2 : isWhiteSpace x = true := hxs x (List.mem_cons_self x xs)
      rw [h1] at h2
      exact absurd h2 (by decide)
    | cons y ys =>
      simp only [List.cons_append, List.cons.injEq] at h
      obtain ⟨h3, h4⟩ := ih ys h.2 (fun c hc => hxs c (List.mem_cons_of_mem x hc))
        (fun c hc => hxs1 c (List.mem_cons_of_mem y hc))
      exact ⟨by rw [h.1, h3], h4⟩

theorem isAndSplit_cases (cs : List Char) (ps : List (List Char)) (h : IsAndSplit cs ps) :
    (ps = [cs] ∧ ∀ q, ¬ StartsWithSeparator (cs.drop q)) ∨
    ∃ piece sep rest pieces, cs = piece ++ sep ++ rest ∧ ps = piece :: pieces ∧
      IsAndSeparator sep ∧
      (∀ q, q < piece.length → ¬ StartsWithSeparator ((piece ++ sep ++ rest).drop q)) ∧
      (∀ c tail, rest = c :: tail → isWhiteSpace c = false) ∧ IsAndSplit rest pieces := by
  cases h with
  | last _ hno => exact Or.inl ⟨rfl, hno⟩
  | more piece sep rest pieces hsep hleft hgreedy hrest =>
    exact Or.inr ⟨piece, sep, rest, pieces, rfl, rfl, hsep, hleft, hgreedy, hrest⟩

theorem separator_unique (sep sep1 rest rest1 : List Char) (h : sep ++ rest = sep1 ++ rest1)
    (hsep : IsAndSeparator sep) (hsep1 : IsAndSeparator sep1)
    (hrest : ∀ c tail, rest = c :: tail → isWhiteSpace c = false)
    (hrest1 : ∀ c tail, rest1 = c :: tail → isWhiteSpace c = false) :
    sep = sep1 ∧ rest = rest1 := by
  obtain ⟨w1, w2, hs, _, _, ha1, ha2⟩ := hsep
  obtain ⟨v1, v2, hs1, _, _, hb1, hb2⟩ := hsep1
  have h1 : w1 ++ ('a' :: 'n' :: 'd' :: (w2 ++ rest)) =
      v1 ++ ('a' :: 'n' :: 'd' :: (v2 ++ rest1)) := by
    rw [hs, hs1] at h
    simpa [List.append_assoc] using h
  obtain ⟨hw, htail⟩ := whiteSpace_prefix_unique w1 v1 _ _ h1 ha1 hb1
    (fun c r hc => by
      simp only [List.cons.injEq] at hc
      rw [← hc.1]
      exact isWhiteSpace_a)
    (fun c r hc => by
      simp only [List.cons.injEq] at hc
      rw [← hc.1]
      exact isWhiteSpace_a)
  simp only [List.cons.injEq, true_and] at htail
  obtain ⟨hw2, hr⟩ := whiteSpace_prefix_unique w2 v2 rest rest1 htail ha2 hb2 hrest hrest1
  exact ⟨by rw [hs, hs1, hw, hw2], hr⟩

/-- The pieces of the specification are determined by the text. -/
theorem isAndSplit_unique (cs : List Char) (ps : List (List Char)) (h : IsAndSplit cs ps) :
    ∀ ps1, IsAndSplit cs ps1 → ps1 = ps := by
  induction h with
  | last cs hno =>
    intro ps1 h1
    rcases isAndSplit_cases cs ps1 h1 with ⟨hps, _⟩ | ⟨piece, sep, rest, pieces, hcs, _, hsep, _⟩
    · exact hps
    · exfalso
      apply hno piece.length
      rw [hcs, List.append_assoc, List.drop_left]
      exact ⟨sep, rest, hsep, rfl⟩
  | more piece sep rest pieces hsep hleft hgreedy hrest ih =>
    intro ps1 h1
    rcases isAndSplit_cases _ ps1 h1 with
      ⟨_, hno⟩ | ⟨piece1, sep1, rest1, pieces1, hcs, hps, hsep1, hleft1, hgreedy1, hrest1⟩
    · exfalso
      apply hno piece.length
      rw [List.append_assoc, List.drop_left]
      exact ⟨sep, rest, hsep, rfl⟩
    · have hlen : piece.length = piece1.length := by
        rcases Nat.lt_trichotomy piece.length piece1.length with hlt | heq | hgt
        · exfalso
          apply hleft1 piece.length hlt
          rw [← hcs, List.append_assoc, List.drop_left]
          exact ⟨sep, rest, hsep, rfl⟩
        · exact heq
        · exfalso
          apply hleft piece1.length hgt
          rw [hcs, List.append_assoc, List.drop_left]
          exact ⟨sep1, rest1, hsep1, rfl⟩
      rw [List.append_assoc, List.append_assoc] at hcs
      obtain ⟨hpiece, htail⟩ := List.append_inj hcs hlen
      obtain ⟨_, hresteq⟩ := separator_unique sep sep1 rest rest1 htail hsep hsep1 hgreedy
        hgreedy1
      rw [← hresteq] at hrest1
      rw [hps, ← hpiece, ih pieces1 hrest1]

/-- The trimmed token is determined by the piece. -/
theorem isTrimOf_unique (piece t t1 : List Char) (h : IsTrimOf piece t) (h1 : IsTrimOf piece t1) :
    t1 = t := by
  obtain ⟨l, r, hp, hl, hr, hhead, hlast⟩ := h
  obtain ⟨l1, r1, hp1, hl1, hr1, hhead1, hlast1⟩ := h1
  have hallws : ∀ (a b tok : List Char), piece = a ++ tok ++ b →
      (∀ c ∈ a, isWhiteSpace c = true) → (∀ c ∈ b, isWhiteSpace c = true) → tok = [] →
      ∀ c ∈ piece, isWhiteSpace c = true := by
    intro a b tok hpiece ha hb htok c hc
    rw [hpiece, htok] at hc
    simp only [List.append_nil, List.mem_append] at hc
    rcases hc with hc | hc
    · exact ha c hc
    · exact hb c hc
  have hne : ∀ (a b tok : List Char) (x : Char) (xs : List Char), piece = a ++ tok ++ b →
      tok = x :: xs → (∀ c, tok.head? = some c → isWhiteSpace c = false) →
      ¬ ∀ c ∈ piece, isWhiteSpace c = true := by
    intro a b tok x xs hpiece htok hh hall
    have hx : isWhiteSpace x = false := hh x (by rw [htok]; rfl)
    have hx2 : isWhiteSpace x = true := hall x (by rw [hpiece, htok]; simp)
    rw [hx] at hx2
    exact absurd hx2 (by decide)
  cases ht : t with
  | nil =>
    cases ht1 : t1 with
    | nil => rfl
    | cons y ys =>
      exact absurd (hallws l r t hp hl hr ht) (hne l1 r1 t1 y ys hp1 ht1 hhead1)
  | cons x xs =>
    cases ht1 : t1 with
    | nil =>
      exact absurd (hallws l1 r1 t1 hp1 hl1 hr1 ht1) (hne l r t x xs hp ht hhead)
    | cons y ys =>
      have heq : l ++ (t ++ r) = l1 ++ (t1 ++ r1) := by
        rw [← List.append_assoc, ← List.append_assoc, ← hp, ← hp1]
      obtain ⟨_, htr⟩ := whiteSpace_prefix_unique l l1 (t ++ r) (t1 ++ r1) heq hl hl1
        (fun c rr hc => by
          apply hhead c
          rw [ht] at hc ⊢
          simp only [List.cons_append, List.cons.injEq] at hc
          rw [hc.1]
          rfl)
        (fun c rr hc => by
          apply hhead1 c
          rw [ht1] at hc ⊢
          simp only [List.cons_append, List.cons.injEq] at hc
          rw [hc.1]
          rfl)
      have hrev : r.reverse ++ t.reverse = r1.reverse ++ t1.reverse := by
        rw [← List.reverse_append, ← List.reverse_append, htr]
      obtain ⟨_, htrev⟩ := whiteSpace_prefix_unique r.reverse r1.reverse t.reverse t1.reverse hrev
        (fun c hc => hr c (List.mem_reverse.mp hc))
        (fun c hc => hr1 c (List.mem_reverse.mp hc))
        (fun c rr hc => by
          apply hlast c
          have : t.reverse.head? = some c := by rw [hc]; rfl
          simpa [List.head?_reverse] using this)
        (fun c rr hc => by
          apply hlast1 c
          have : t1.reverse.head? = some c := by rw [hc]; rfl
          simpa [List.head?_reverse] using this)
      have := congrArg List.reverse htrev
      simp only [List.reverse_reverse] at this
      rw [← ht, ← ht1]
      exact this.symm

/-- The tokens of the specification are determined by the tag expression. -/
theorem isTokenization_unique (tagExpression : String) (tokens tokens1 : List String)
    (h : IsTokenization tagExpression tokens) (h1 : IsTokenization tagExpression tokens1) :
    tokens1 = tokens := by
  obtain ⟨pieces, hsplit, hall⟩ := h
  obtain ⟨pieces1, hsplit1, hall1⟩ := h1
  have hp : pieces1 = pieces := isAndSplit_unique _ pieces hsplit pieces1 hsplit1
  subst hp
  clear hsplit hsplit1
  induction hall generalizing tokens1 with
  | nil =>
    cases hall1
    rfl
  | cons hhead _ ih =>
    cases hall1 with
    | cons hhead1 htail1 =>
      have htok := isTrimOf_unique _ _ _ hhead hhead1
      have hstr := String.ext htok
      rw [hstr, ih _ htail1]

/-- The tokens that the code computes are the tokens of the specification. -/
theorem requiredTags_isTokenization (tagExpression : String) :
    IsTokenization tagExpression (requiredTags tagExpression) := by
  refine ⟨splitAnd tagExpression.toList 0 [], ?_, ?_⟩
  · have h := splitAnd_isAndSplit tagExpression.toList.length tagExpression.toList []
      (Nat.le_refl _) (fun q hq => by simp at hq)
    simpa using h
  · unfold requiredTags
    apply forall₂_map_self
    intro piece
    exact trim_isTrimOf piece

theorem orEmpty_eq_getD {α : Type} (xs : Option (List α)) : orEmpty xs = xs.getD [] := by
  cases xs <;> rfl

theorem blockSatisfies_eq (scenario : Scenario) (tagExpression : String) :
    blockSatisfies scenario tagExpression =
      fun block => (requiredTags tagExpression).all (fun token =>
        decide (token ∈ (scenario.tags.getD []).map (fun t => t.name) ∨
          token ∈ (block.tags.getD []).map (fun t => t.name))) := by
  funext block
  unfold blockSatisfies
  rw [orEmpty_eq_getD, orEmpty_eq_getD]

/-- C6 (intact-outline policy). With the per-row policy off and a tag list on
the template, an outline with at least one example block yields exactly one
sub-feature, placed between those of the children before and after it: the
template feature with one more child, which is the outline with all its
example blocks unchanged and with the tag list made of the outline tags, then
the feature tags, then the tags of exactly those example blocks, in document
order, for which every token is the name of an outline tag or of a tag of the
block. The tokens are those of the specification, which the tag expression
determines: the expression split on white space, `and`, white space, each piece
trimmed. -/
theorem splitFeature_intact_outline (pre post : List Scenario) (outline : Scenario)
    (exs : List Examples) (featureTemplate : GherkinDocument) (ftags : List Tag)
    (tagExpression : String)
    (htags : featureTemplate.feature.tags = some ftags)
    (hty : outline.type = NodeType.ScenarioOutline)
    (hex : outline.examples = some exs) (hne : exs ≠ []) :
    ∃ tokens before after,
      IsTokenization tagExpression tokens ∧
      (∀ others, IsTokenization tagExpression others → others = tokens) ∧
      splitFeature pre featureTemplate false tagExpression = some before ∧
      splitFeature post featureTemplate false tagExpression = some after ∧
      splitFeature (pre ++ outline :: post) featureTemplate false tagExpression =
        some (before ++
          [{ feature :=
              { featureTemplate.feature with
                children := featureTemplate.feature.children ++
                  [{ outline with
                     tags := some (outline.tags.getD [] ++ ftags ++
                       (exs.filter (fun block => tokens.all (fun token =>
                          decide (token ∈ (outline.tags.getD []).map (fun t => t.name) ∨
                            token ∈ (block.tags.getD []).map (fun t => t.name))))).flatMap
                         (fun block => block.tags.getD [])) }] } }] ++
          after) := by
  refine ⟨requiredTags tagExpression, _, _, requiredTags_isTokenization tagExpression,
    fun others hothers => isTokenization_unique tagExpression _ others
      (requiredTags_isTokenization tagExpression) hothers,
    splitFeature_eq_contribution pre featureTemplate ftags false tagExpression htags,
    splitFeature_eq_contribution post featureTemplate ftags false tagExpression htags, ?_⟩
  rw [splitFeature_eq_contribution _ featureTemplate ftags false tagExpression htags,
    filter_scenarios_append pre post outline (by simp [hty])]
  have hc : contribution featureTemplate ftags false tagExpression outline =
      [{ feature :=
          { featureTemplate.feature with
            children := featureTemplate.feature.children ++
              [{ outline with
                 tags := some (outline.tags.getD [] ++ ftags ++
                   (exs.filter (fun block => (requiredTags tagExpression).all (fun token =>
                      decide (token ∈ (outline.tags.getD []).map (fun t => t.name) ∨
                        token ∈ (block.tags.getD []).map (fun t => t.name))))).flatMap
                     (fun block => block.tags.getD [])) }] } }] := by
    unfold contribution
    cases exs with
    | nil => exact absurd rfl hne
    | cons first others =>
      simp only [hty, beq_self_eq_true, if_true, hex, Bool.false_eq_true, if_false,
        foldl_mergeExampleTags, List.append_nil, subFeature, blockSatisfies_eq,
        orEmpty_eq_getD]
  simp [List.flatMap_append, List.flatMap_cons, hc, List.append_assoc]

theorem splitFeature_intact_outline_witness :
    requiredTags "@pay and @slow" = ["@pay", "@slow"] ∧
    requiredTags "@pay or @slow" = ["@pay or @slow"] ∧
    requiredTags " @pay  and\t@slow and" = ["@pay", "@slow and"] ∧
    requiredTags "" = [""] ∧
    splitFeature ([sampleScenario] ++ sampleOutline :: [])
        (getFeatureTemplate sampleDocument) false "@pay and @slow" =
      some
        [{ feature :=
            { type := "Feature", tags := some [{ name := "@smoke" }], keyword := "Feature",
              name := "Shop",
              children := [sampleBackground,
                { sampleScenario with tags := some [{ name := "@smoke" }] }] } },
         { feature :=
            { type := "Feature", tags := some [{ name := "@smoke" }], keyword := "Feature",
              name := "Shop",
              children := [sampleBackground,
                { type := NodeType.ScenarioOutline,
                  tags := some [{ name := "@pay" }, { name := "@smoke" }, { name := "@slow" }],
                  keyword := "Scenario Outline", name := "Pay",
                  steps := [{ keyword := "Given ", text := "an amount <x>", argument := none }],
                  examples := some [sampleBlock1, sampleBlock2] }] } }] ∧
    (splitFeature [sampleOutline] (getFeatureTemplate sampleDocument) false "@pay or @slow").map
        (fun features => features.map (fun f =>
          f.feature.children.map (fun child => child.tags))) =
      some [[none, some [{ name := "@pay" }, { name := "@smoke" }]]] ∧
    ∃ tokens before after,
      IsTokenization "@pay and @slow" tokens ∧
      (∀ others, IsTokenization "@pay and @slow" others → others = tokens) ∧
      splitFeature [sampleScenario] (getFeatureTemplate sampleDocument) false "@pay and @slow" =
        some before ∧
      splitFeature [] (getFeatureTemplate sampleDocument) false "@pay and @slow" = some after ∧
      splitFeature ([sampleScenario] ++ sampleOutline :: [])
          (getFeatureTemplate sampleDocument) false "@pay and @slow" =
        some (before ++
          [{ feature :=
              { (getFeatureTemplate sampleDocument).feature with
                children := (getFeatureTemplate sampleDocument).feature.children ++
                  [{ sampleOutline with
                     tags := some (sampleOutline.tags.getD [] ++ [{ name := "@smoke" }] ++
                       ([sampleBlock1, sampleBlock2].filter (fun block =>
                          tokens.all (fun token =>
                            decide (token ∈ (sampleOutline.tags.getD []).map (fun t => t.name) ∨
                              token ∈ (block.tags.getD []).map (fun t => t.name))))).flatMap
                         (fun block => block.tags.getD [])) }] } }] ++
          after) :=
  ⟨by decide, by decide, by decide, by decide, rfl, rfl,
    splitFeature_intact_outline [sampleScenario] [] sampleOutline [sampleBlock1, sampleBlock2]
      (getFeatureTemplate sampleDocument) [{ name := "@smoke" }] "@pay and @slow"
      rfl rfl rfl (by simp)⟩

theorem filter_background_append (bgs : List Scenario) (child : Scenario)
    (hbgs : ∀ b ∈ bgs, b.type = NodeType.Background)
    (hchild : child.type ≠ NodeType.Background) :
    (bgs ++ [child]).filter (fun scenario => scenario.type != NodeType.Background) = [child] := by
  rw [List.filter_append]
  have h1 : bgs.filter (fun scenario => scenario.type != NodeType.Background) = [] := by
    rw [List.filter_eq_nil_iff]
    intro b hb
    simp [hbgs b hb]
  rw [h1]
  simp [List.filter_cons, hchild]

/-- Shape of what `splitFeature` returns on the children of a document and the
template made from it: the Background children of the document followed by one
child that is not a Background and carries a tag list. -/
theorem splitFeature_shape (doc : GherkinDocument) (split : Bool) (tagExpression : String)
    (features : List GherkinDocument)
    (hsplit : splitFeature doc.feature.children (getFeatureTemplate doc) split tagExpression =
      some features) :
    ∀ f ∈ features, ∃ child tags,
      f.feature.children =
        doc.feature.children.filter (fun s => s.type == NodeType.Background) ++ [child] ∧
      child.type ≠ NodeType.Background ∧ child.tags = some tags := by
  intro f hf
  cases htags : (getFeatureTemplate doc).feature.tags with
  | none =>
    have h0 := splitFeature_without_tags _ _ split tagExpression features htags hsplit
    rw [h0] at hf
    simp at hf
  | some ftags =>
    rw [splitFeature_eq_contribution _ _ ftags split tagExpression htags] at hsplit
    simp only [Option.some.injEq] at hsplit
    rw [← hsplit, List.mem_flatMap] at hf
    obtain ⟨original, horig, hmem⟩ := hf
    rw [List.mem_filter] at horig
    obtain ⟨tags, examples, extra, hfeq, _⟩ :=
      mem_contribution _ ftags split tagExpression original f hmem
    refine ⟨{ original with tags := some tags, examples := examples }, tags, ?_, ?_, rfl⟩
    · rw [hfeq]
      rfl
    · simpa using horig.2

/-- C7 (filter contract). For the sub-features that `splitFeature` returns on a
parsed document (Background children carry no tag list) and a tag expression
that the matcher parses: every sub-feature has exactly one non-Background child,
that child carries a tag list, and `filterFeaturesByTag` returns, in their
original order, exactly the sub-features on whose child the matcher evaluates
to true, given the list of the names of the tags of that child. -/
theorem filterFeaturesByTag_contract (parser : TagExpressionParser) (doc : GherkinDocument)
    (split : Bool) (splitExpression tagExpression : String) (features : List GherkinDocument)
    (expressionNode : List String → Bool)
    (hbg : ∀ c ∈ doc.feature.children, c.type = NodeType.Background → c.tags = none)
    (hsplit : splitFeature doc.feature.children (getFeatureTemplate doc) split splitExpression =
      some features)
    (hparse : parser.parse tagExpression = some expressionNode) :
    (∀ f ∈ features, ∃ child tags,
      scenarioChildren f = [child] ∧ child.tags = some tags ∧
      scenarioTagNames f = tags.map (fun tag => tag.name)) ∧
    filterFeaturesByTag parser features tagExpression =
      some (features.filter (fun f => expressionNode (scenarioTagNames f))) := by
  have hshape := splitFeature_shape doc split splitExpression features hsplit
  have hbgs : ∀ b ∈ doc.feature.children.filter (fun s => s.type == NodeType.Background),
      b.type = NodeType.Background ∧ b.tags = none := by
    intro b hb
    rw [List.mem_filter] at hb
    have hty : b.type = NodeType.Background := by simpa using hb.2
    exact ⟨hty, hbg b hb.1 hty⟩
  have hkey : ∀ f ∈ features, ∃ child tags,
      scenarioChildren f = [child] ∧ child.tags = some tags ∧
      scenarioTagNames f = tags.map (fun tag => tag.name) ∧
      f.feature.children.any (scenarioMatches expressionNode) =
        expressionNode (scenarioTagNames f) := by
    intro f hf
    obtain ⟨child, tags, hchildren, hty, hctags⟩ := hshape f hf
    have hsc : scenarioChildren f = [child] := by
      unfold scenarioChildren
      rw [hchildren]
      exact filter_background_append _ child (fun b hb => (hbgs b hb).1) hty
    have hnames : scenarioTagNames f = tags.map (fun tag => tag.name) := by
      unfold scenarioTagNames
      rw [hsc]
      simp [List.flatMap_cons, hctags, orEmpty]
    refine ⟨child, tags, hsc, hctags, hnames, ?_⟩
    rw [hchildren, List.any_append, hnames]
    have hnone : (doc.feature.children.filter (fun s => s.type == NodeType.Background)).any
        (scenarioMatches expressionNode) = false := by
      rw [List.any_eq_false]
      intro b hb
      simp [scenarioMatches, (hbgs b hb).2]
    rw [hnone]
    simp [scenarioMatches, hctags]
  constructor
  · intro f hf
    obtain ⟨child, tags, h1, h2, h3, _⟩ := hkey f hf
    exact ⟨child, tags, h1, h2, h3⟩
  · unfold filterFeaturesByTag
    rw [hparse]
    simp only [Option.some.injEq]
    apply List.filter_congr
    intro f hf
    obtain ⟨_, _, _, _, _, h4⟩ := hkey f hf
    exact h4

theorem filterFeaturesByTag_contract_witness :
    (∀ c ∈ sampleDocument.feature.children, c.type = NodeType.Background → c.tags = none) ∧
    sampleParser.parse "@slow" = some (fun names => "@slow" == "" || names.contains "@slow") ∧
    ∃ features,
      splitFeature sampleDocument.feature.children (getFeatureTemplate sampleDocument) true "@slow" =
        some features ∧
      (∀ f ∈ features, ∃ child tags,
        scenarioChildren f = [child] ∧ child.tags = some tags ∧
        scenarioTagNames f = tags.map (fun tag => tag.name)) ∧
      filterFeaturesByTag sampleParser features "@slow" =
        some (features.filter (fun f =>
          (fun names => "@slow" == "" || names.contains "@slow") (scenarioTagNames f))) :=
  ⟨by decide, rfl, _, rfl,
    filterFeaturesByTag_contract sampleParser sampleDocument true "@slow" "@slow" _ _
      (by decide) rfl rfl⟩

/-- C8 (empty tag expression). When the tag matcher reads the empty expression
as the expression that matches every list of tag names,
`filterFeaturesByTag(X, "")` returns `X` for every list `X` of sub-features
(exactly one non-Background child, with a tag list, and at most one
Background). -/
theorem filterFeaturesByTag_empty_expression (parser : TagExpressionParser)
    (features : List GherkinDocument) (expressionNode : List String → Bool)
    (hparse : parser.parse "" = some expressionNode)
    (hall : ∀ names, expressionNode names = true)
    (hshape : ∀ f ∈ features, isSubFeature f = true) :
    filterFeaturesByTag parser features "" = some features := by
  unfold filterFeaturesByTag
  rw [hparse]
  simp only [Option.some.injEq, List.filter_eq_self]
  intro f hf
  have h := hshape f hf
  unfold isSubFeature at h
  rw [Bool.and_eq_true] at h
  have h1 := h.1
  cases hsc : scenarioChildren f with
  | nil => simp [hsc] at h1
  | cons child rest =>
    cases rest with
    | cons c2 r2 => simp [hsc] at h1
    | nil =>
      simp only [hsc] at h1
      have hmem : child ∈ f.feature.children := by
        have : child ∈ scenarioChildren f := by simp [hsc]
        unfold scenarioChildren at this
        exact (List.mem_filter.mp this).1
      rw [List.any_eq_true]
      refine ⟨child, hmem, ?_⟩
      unfold scenarioMatches
      cases hct : child.tags with
      | none => simp [hct] at h1
      | some tags => exact hall _

theorem filterFeaturesByTag_empty_expression_witness :
    sampleParser.parse "" = some (fun names => "" == "" || names.contains "") ∧
    (∀ names : List String, ("" == "" || names.contains "") = true) ∧
    (∀ f ∈ [subFeature (getFeatureTemplate sampleDocument) sampleScenario],
      isSubFeature f = true) ∧
    filterFeaturesByTag sampleParser
        [subFeature (getFeatureTemplate sampleDocument) sampleScenario] "" =
      some [subFeature (getFeatureTemplate sampleDocument) sampleScenario] :=
  ⟨rfl, fun _ => rfl, by decide,
    filterFeaturesByTag_empty_expression sampleParser
      [subFeature (getFeatureTemplate sampleDocument) sampleScenario] _ rfl (fun _ => rfl)
      (by decide)⟩

/-! ## Properties of the serializer -/

theorem foldl_affine_string {α : Type} (f : String → α → String)
    (h : ∀ acc x, f acc x = acc ++ f "" x) (xs : List α) (init : String) :
    xs.foldl f init = init ++ xs.foldl f "" := by
  induction xs generalizing init with
  | nil => simp
  | cons x xs ih =>
    simp only [List.foldl_cons]
    rw [ih (f init x), ih (f "" x), h init x, String.append_assoc]

theorem writeTags_affine (acc : String) (tags : Option (List Tag)) :
    writeTags acc tags = acc ++ writeTags "" tags := by
  unfold writeTags
  cases tags with
  | none => simp
  | some ts =>
    simp only
    exact foldl_affine_string _ (fun a t => by simp) ts acc

theorem writeStep_affine (acc : String) (step : Step) :
    writeStep acc step = acc ++ writeStep "" step := by
  unfold writeStep
  cases step.argument with
  | none => simp
  | some argument =>
    cases argument with
    | DataTable rows =>
      simp only
      rw [foldl_affine_string _ (fun a t => by simp) rows
          (acc ++ (step.keyword ++ step.text ++ LINE_DELIMITER)),
        foldl_affine_string _ (fun a t => by simp) rows
          ("" ++ (step.keyword ++ step.text ++ LINE_DELIMITER))]
      simp [String.append_assoc]
    | DocString content => simp [String.append_assoc]
    | Other type => simp

theorem writeSteps_affine (acc : String) (steps : List Step) :
    steps.foldl writeStep acc = acc ++ steps.foldl writeStep "" :=
  foldl_affine_string writeStep writeStep_affine steps acc

theorem writeExamples_affine (acc : String) (examples : Option (List Examples)) :
    writeExamples acc examples = (writeExamples "" examples).map (fun r => acc ++ r) := by
  unfold writeExamples
  cases examples with
  | none => simp
  | some exs =>
    cases exs with
    | nil => rfl
    | cons ex rest =>
      simp only [Option.map_some', Option.some.injEq]
      rw [foldl_affine_string _ (fun a t => by simp) ex.tableBody
          (acc ++ ("Examples:" ++ LINE_DELIMITER) ++ writeExampleRow ex.tableHeader),
        foldl_affine_string _ (fun a t => by simp) ex.tableBody
          ("" ++ ("Examples:" ++ LINE_DELIMITER) ++ writeExampleRow ex.tableHeader)]
      simp [String.append_assoc]

theorem writeScenario_affine (acc : String) (scenario : Scenario) :
    writeScenario acc scenario = (writeScenario "" scenario).map (fun r => acc ++ r) := by
  unfold writeScenario
  rw [writeExamples_affine, writeSteps_affine, writeTags_affine acc]
  rw [writeExamples_affine ((scenario.steps.foldl writeStep
      (writeTags "" scenario.tags ++
        (scenario.keyword ++ ": " ++ scenario.name ++ LINE_DELIMITER)))),
    writeSteps_affine (writeTags "" scenario.tags ++
        (scenario.keyword ++ ": " ++ scenario.name ++ LINE_DELIMITER))]
  cases writeExamples "" scenario.examples with
  | none => rfl
  | some r => simp [String.append_assoc]

theorem forEach_affine_string {α : Type} (cb : String → α → Option String) (xs : List α)
    (h : ∀ acc x, cb acc x = (cb "" x).map (fun r => acc ++ r)) (acc : String) :
    forEach xs cb acc = (forEach xs cb "").map (fun r => acc ++ r) := by
  induction xs generalizing acc with
  | nil => simp [forEach]
  | cons x xs ih =>
    simp only [forEach]
    rw [h acc x]
    cases hx : cb "" x with
    | none => simp
    | some p =>
      simp only [Option.map_some']
      rw [ih (acc ++ p), ih p]
      cases forEach xs cb "" with
      | none => simp
      | some q => simp [String.append_assoc]

/-- C9, as amended (inherited-tag output text). For a feature tagged only
`@smoke`, named `featureName`, whose only non-Background child is an untagged
Scenario named Login: split, then filter with the expression `@smoke` (which
the matcher evaluates to true on the tag name `@smoke`), then `writeFeature`
yields exactly one text. It starts with the lines `@smoke` and
`Feature: featureName`, goes on with the text of the Background children (empty
without a Background), then writes the inherited tag `@smoke` once more on a
line of its own, and only then the line `Scenario: Login` and the steps. -/
theorem split_filter_write_inherited_tag (parser : TagExpressionParser) (doc : GherkinDocument)
    (login : Scenario) (split : Bool) (featureName backgroundText : String)
    (expressionNode : List String → Bool)
    (htype : doc.feature.type = "Feature")
    (htags : doc.feature.tags = some [{ name := "@smoke" }])
    (hname : doc.feature.name = featureName)
    (hchildren : doc.feature.children.filter (fun s => s.type != NodeType.Background) = [login])
    (hlogin : login.type = NodeType.Scenario ∧ login.keyword = "Scenario" ∧
      login.name = "Login" ∧ orEmpty login.tags = [] ∧ login.examples = none)
    (hbackground : forEach (doc.feature.children.filter (fun s => s.type == NodeType.Background))
      writeScenario "" = some backgroundText)
    (hparse : parser.parse "@smoke" = some expressionNode)
    (hmatch : expressionNode ["@smoke"] = true) :
    ∃ features f,
      splitFeature doc.feature.children (getFeatureTemplate doc) split "@smoke" = some features ∧
      filterFeaturesByTag parser features "@smoke" = some [f] ∧
      writeFeature f.feature =
        some ("@smoke\nFeature: " ++ featureName ++ "\n" ++ backgroundText ++
          "@smoke\nScenario: Login\n" ++ login.steps.foldl writeStep "") := by
  obtain ⟨hty, hkw, hnm, hut, hexs⟩ := hlogin
  have hsplit := splitFeature_eq_contribution doc.feature.children (getFeatureTemplate doc)
    [{ name := "@smoke" }] split "@smoke" htags
  rw [hchildren] at hsplit
  have hc : contribution (getFeatureTemplate doc) [{ name := "@smoke" }] split "@smoke" login =
      [subFeature (getFeatureTemplate doc) { login with tags := some [{ name := "@smoke" }] }] := by
    unfold contribution
    simp [hty, hut]
  simp only [List.flatMap_cons, List.flatMap_nil, List.append_nil, hc] at hsplit
  refine ⟨_, subFeature (getFeatureTemplate doc)
    { login with tags := some [{ name := "@smoke" }] }, hsplit, ?_, ?_⟩
  · unfold filterFeaturesByTag
    rw [hparse]
    simp [List.filter_cons, subFeature, getFeatureTemplate, scenarioMatches, hmatch]
  · unfold writeFeature
    simp only [subFeature, getFeatureTemplate, htags, htype, hname]
    rw [forEach_append, forEach_affine_string writeScenario _ writeScenario_affine, hbackground]
    simp only [Option.map_some', Option.some_bind, forEach]
    unfold writeScenario
    simp only [hexs, hkw, hnm, writeExamples]
    rw [writeSteps_affine]
    have hlit : "@smoke\n" ++ "Feature: " = "@smoke\nFeature: " := by decide
    simp [writeTags, LINE_DELIMITER, String.append_assoc]
    rw [← String.append_assoc, hlit]

theorem split_filter_write_inherited_tag_witness :
    sampleLoginDocument.feature.type = "Feature" ∧
    sampleLoginDocument.feature.tags = some [{ name := "@smoke" }] ∧
    sampleLoginDocument.feature.children.filter (fun s => s.type != NodeType.Background) =
      [sampleScenario] ∧
    sampleParser.parse "@smoke" = some (fun names => "@smoke" == "" || names.contains "@smoke") ∧
    ∃ features f,
      splitFeature sampleLoginDocument.feature.children (getFeatureTemplate sampleLoginDocument)
        true "@smoke" = some features ∧
      filterFeaturesByTag sampleParser features "@smoke" = some [f] ∧
      writeFeature f.feature =
        some ("@smoke\nFeature: " ++ "Shop" ++ "\n" ++ "" ++
          "@smoke\nScenario: Login\n" ++ sampleScenario.steps.foldl writeStep "") :=
  ⟨rfl, rfl, rfl, rfl,
    split_filter_write_inherited_tag sampleParser sampleLoginDocument sampleScenario true "Shop" ""
      (fun names => "@smoke" == "" || names.contains "@smoke")
      rfl rfl rfl rfl ⟨rfl, rfl, rfl, rfl, rfl⟩ rfl rfl (by decide)⟩

/-- C9, counterexample. For the feature `Shop` tagged `@smoke` whose only child
is the untagged Scenario Login, the single text written after split and filter
with `@smoke` has the line `@smoke` between the Feature line and the Scenario
line, so it does not begin with the Feature line directly followed by the
Scenario line. -/
theorem inherited_tag_line_precedes_scenario_line :
    splitFeature sampleLoginDocument.feature.children (getFeatureTemplate sampleLoginDocument)
        false "@smoke" =
      some [subFeature (getFeatureTemplate sampleLoginDocument)
        { sampleScenario with tags := some [{ name := "@smoke" }] }] ∧
    filterFeaturesByTag sampleParser
        [subFeature (getFeatureTemplate sampleLoginDocument)
          { sampleScenario with tags := some [{ name := "@smoke" }] }] "@smoke" =
      some [subFeature (getFeatureTemplate sampleLoginDocument)
        { sampleScenario with tags := some [{ name := "@smoke" }] }] ∧
    writeFeature (subFeature (getFeatureTemplate sampleLoginDocument)
        { sampleScenario with tags := some [{ name := "@smoke" }] }).feature =
      some "@smoke\nFeature: Shop\n@smoke\nScenario: Login\nWhen the user logs in\n" ∧
    ("@smoke\nFeature: Shop\nScenario: Login\n".toList).isPrefixOf
      ("@smoke\nFeature: Shop\n@smoke\nScenario: Login\nWhen the user logs in\n".toList) =
        false :=
  ⟨rfl, rfl, rfl, rfl⟩

/-- C10, failing input. On the feature node of a French document (type tag
`Feature`, keyword `Fonctionnalité`) `writeFeature` writes the tag lines and
then the line `Feature: Panier`: the header line is built from the type tag of
the node, not from its keyword. -/
theorem writeFeature_header_uses_type_tag :
    sampleFrenchFeature.keyword = "Fonctionnalité" ∧
    writeFeature sampleFrenchFeature = some "@smoke\nFeature: Panier\n" ∧
    writeFeature sampleFrenchFeature ≠ some "@smoke\nFonctionnalité: Panier\n" :=
  ⟨rfl, rfl, by decide⟩

theorem foldl_append_eq_join {α : Type} (g : α → String) (xs : List α) (init : String) :
    xs.foldl (fun acc x => acc ++ g x) init = init ++ String.join (xs.map g) := by
  have h := foldl_affine_string (fun (acc : String) (x : String) => acc ++ x)
    (fun a x => by simp) (xs.map g) init
  rw [List.foldl_map] at h
  rw [h]
  rfl

theorem writeDataTableRow_eq (row : TableRow) :
    writeDataTableRow row = "|" ++ String.join (row.cells.map (fun cell => cell.value ++ "|")) :=
  foldl_append_eq_join (fun (cell : TableCell) => cell.value ++ "|") row.cells "|"

theorem docStringDelimiter_eq : DOC_STRING_DELIMITER = "\"\"\"" := by decide

theorem writeStep_eq_stepLines (acc : String) (step : Step) :
    writeStep acc step = acc ++ stepLines step := by
  unfold writeStep stepLines
  cases step.argument with
  | none => simp [LINE_DELIMITER, String.append_assoc]
  | some argument =>
    cases argument with
    | DataTable rows =>
      simp only
      rw [foldl_append_eq_join (fun row => writeDataTableRow row ++ LINE_DELIMITER) rows]
      simp [dataTableLines, writeDataTableRow_eq, LINE_DELIMITER, String.append_assoc]
    | DocString content =>
      simp only [docStringDelimiter_eq]
      simp [LINE_DELIMITER, String.append_assoc]
    | Other type => simp [LINE_DELIMITER, String.append_assoc]

theorem writeSteps_eq_join (acc : String) (steps : List Step) :
    steps.foldl writeStep acc = acc ++ String.join (steps.map stepLines) := by
  have h : writeStep = fun acc step => acc ++ stepLines step := by
    funext a st
    exact writeStep_eq_stepLines a st
  rw [h]
  exact foldl_append_eq_join stepLines steps acc

theorem string_join_cons (x : String) (xs : List String) :
    String.join (x :: xs) = x ++ String.join xs := by
  have h := foldl_append_eq_join (fun (y : String) => y) xs x
  simp only [List.map_id'] at h
  have h2 : String.join (x :: xs) = xs.foldl (fun acc y => acc ++ y) ("" ++ x) := rfl
  rw [h2, String.empty_append]
  exact h

theorem writeTags_eq_tagLines (acc : String) (tags : Option (List Tag)) :
    writeTags acc tags = acc ++ tagLines tags := by
  unfold writeTags tagLines
  cases tags with
  | none => simp [String.join]
  | some ts =>
    simp only [Option.getD_some]
    exact foldl_append_eq_join (fun (tag : Tag) => tag.name ++ LINE_DELIMITER) ts acc

theorem writeExamples_eq_examplesLines (acc : String) (examples : Option (List Examples)) :
    writeExamples acc examples =
      if examples = some [] then none else some (acc ++ examplesLines examples) := by
  unfold writeExamples examplesLines
  cases examples with
  | none => simp
  | some exs =>
    cases exs with
    | nil => simp
    | cons ex rest =>
      simp only [Option.some.injEq, List.cons_ne_nil, reduceCtorEq, if_false]
      rw [foldl_append_eq_join writeExampleRow ex.tableBody]
      have hrow : writeExampleRow = tableRowLine := by
        funext row
        rfl
      rw [hrow]
      simp [LINE_DELIMITER, String.append_assoc]

theorem writeScenario_eq_childLines (acc : String) (child : Scenario) :
    writeScenario acc child =
      if child.examples = some [] then none else some (acc ++ childLines child) := by
  unfold writeScenario childLines
  rw [writeExamples_eq_examplesLines, writeSteps_eq_join, writeTags_eq_tagLines]
  split
  · rfl
  · simp [LINE_DELIMITER, String.append_assoc]

theorem forEach_guarded {α : Type} (cb : String → α → Option String) (bad : α → Bool)
    (g : α → String)
    (h : ∀ acc x, cb acc x = if bad x = true then none else some (acc ++ g x))
    (xs : List α) (acc : String) :
    forEach xs cb acc =
      if xs.all (fun x => !bad x) = true then some (acc ++ String.join (xs.map g)) else none := by
  induction xs generalizing acc with
  | nil => simp [forEach, String.join]
  | cons x xs ih =>
    simp only [forEach, h acc x]
    by_cases hx : bad x = true
    · simp [hx]
    · simp only [hx, Bool.false_eq_true, if_false, ih]
      have hx2 : bad x = false := by simpa using hx
      simp only [List.all_cons, hx2, Bool.not_false, Bool.true_and, List.map_cons,
        string_join_cons, String.append_assoc]

theorem writeFeature_eq_featureLayout (feature : Feature) :
    writeFeature feature =
      if feature.children.all (fun child => !decide (child.examples = some [])) = true
      then some (featureLayout feature) else none := by
  unfold writeFeature featureLayout
  rw [forEach_guarded writeScenario (fun child => decide (child.examples = some [])) childLines
    (fun acc x => by rw [writeScenario_eq_childLines]; simp)]
  rw [writeTags_eq_tagLines]
  simp [LINE_DELIMITER, String.append_assoc]

/-- C11 (step rendering). The body of the loop over the steps adds to the text
exactly the text of the step: the line `<keyword><text>`, then for a DataTable
argument one line per row (`|`, then each cell value followed by `|`), for a
DocString argument a line of three double quotes, the content and a closing
line of three double quotes, and nothing else. `writeFeature` returns the
layout of the feature, in which every child contributes the texts of its steps
in their original order, between its header line and its examples; it returns
no text only when a child has an empty `examples` array. -/
theorem writeFeature_step_rendering (feature : Feature) :
    (∀ featureString step, writeStep featureString step = featureString ++ stepLines step) ∧
    writeFeature feature =
      if feature.children.all (fun child => !decide (child.examples = some [])) = true
      then some (featureLayout feature) else none := by
  exact ⟨writeStep_eq_stepLines, writeFeature_eq_featureLayout feature⟩

theorem writeFeature_step_rendering_witness :
    writeFeature sampleStepsFeature =
      some "Feature: Shop\nScenario: Pay\nGiven a table\n|a|b|\n|c|d|\nWhen a text\n\"\"\"\nhello\n\"\"\"\nThen done\n" ∧
    featureLayout sampleStepsFeature =
      "Feature: Shop\nScenario: Pay\nGiven a table\n|a|b|\n|c|d|\nWhen a text\n\"\"\"\nhello\n\"\"\"\nThen done\n" ∧
    writeFeature sampleStepsFeature =
      if sampleStepsFeature.children.all (fun child => !decide (child.examples = some [])) = true
      then some (featureLayout sampleStepsFeature) else none :=
  ⟨rfl, rfl, (writeFeature_step_rendering sampleStepsFeature).2⟩

theorem forEach_map {α β σ : Type} (f : α → β) (cb : σ → β → Option σ) (xs : List α) (acc : σ) :
    forEach (xs.map f) cb acc = forEach xs (fun a x => cb a (f x)) acc := by
  induction xs generalizing acc with
  | nil => rfl
  | cons x xs ih =>
    simp only [List.map_cons, forEach]
    cases cb acc (f x) with
    | none => rfl
    | some a => exact ih a

theorem writeStep_dropUnrecognizedArgument (acc : String) (step : Step) :
    writeStep acc (dropUnrecognizedArgument step) = writeStep acc step := by
  unfold dropUnrecognizedArgument
  cases harg : step.argument with
  | none => rfl
  | some argument =>
    cases argument with
    | DataTable rows => rfl
    | DocString content => rfl
    | Other type => simp [writeStep, harg]

/-- C12, as amended (unrecognized step argument). For a step whose argument is
present and is neither a DataTable nor a DocString, `writeFeature` writes the
line `<keyword><text>` of the step and nothing for the argument, without any
error: it returns what it returns for the same feature with these arguments
removed. -/
theorem writeFeature_drops_unrecognized_argument (feature : Feature) :
    (∀ featureString step type, step.argument = some (Argument.Other type) →
      writeStep featureString step = featureString ++ (step.keyword ++ step.text ++ "\n")) ∧
    writeFeature feature = writeFeature (dropUnrecognizedArguments feature) := by
  constructor
  · intro acc step type harg
    simp [writeStep, harg, LINE_DELIMITER]
  · unfold writeFeature dropUnrecognizedArguments
    simp only
    rw [forEach_map]
    have h : (fun a (x : Scenario) =>
        writeScenario a { x with steps := x.steps.map dropUnrecognizedArgument }) =
        writeScenario := by
      funext a sc
      unfold writeScenario
      simp only
      rw [List.foldl_map]
      have hstep : (fun x y => writeStep x (dropUnrecognizedArgument y)) = writeStep := by
        funext x y
        exact writeStep_dropUnrecognizedArgument x y
      rw [hstep]
    rw [h]

theorem writeFeature_drops_unrecognized_argument_witness :
    sampleUnrecognizedFeature.children.any (fun scenario => scenario.steps.any (fun step =>
      step.argument == some (Argument.Other "Image"))) = true ∧
    writeFeature sampleUnrecognizedFeature =
      writeFeature (dropUnrecognizedArguments sampleUnrecognizedFeature) :=
  ⟨by decide, (writeFeature_drops_unrecognized_argument sampleUnrecognizedFeature).2⟩

/-- C12, counterexample. On a feature with a step whose argument has the
unrecognized type `Image`, `writeFeature` returns a text, and the text holds the
line of the step without anything for the argument. -/
theorem unrecognized_argument_is_silently_dropped :
    sampleUnrecognizedFeature.children.map (fun scenario =>
        scenario.steps.map (fun step => step.argument)) =
      [[some (Argument.Other "Image")]] ∧
    writeFeature sampleUnrecognizedFeature =
      some "Feature: Shop\nScenario: Upload\nGiven a picture\n" :=
  ⟨rfl, rfl⟩

/-- C16 (sub-feature shape). For a document with at most one Background child,
every sub-feature that `splitFeature` returns with the template of
`getFeatureTemplate` has as children the Background children of the document
(at most one) followed by exactly one child that is not a Background, and has
the tag list, the name, the type and the keyword of the original feature. -/
theorem subFeature_shape_invariant (doc : GherkinDocument) (split : Bool)
    (tagExpression : String) (features : List GherkinDocument)
    (hbackground : (doc.feature.children.filter
      (fun s => s.type == NodeType.Background)).length ≤ 1)
    (hsplit : splitFeature doc.feature.children (getFeatureTemplate doc) split tagExpression =
      some features) :
    ∀ f ∈ features, ∃ child,
      f.feature.children =
        doc.feature.children.filter (fun s => s.type == NodeType.Background) ++ [child] ∧
      (doc.feature.children.filter (fun s => s.type == NodeType.Background)).length ≤ 1 ∧
      child.type ≠ NodeType.Background ∧
      scenarioChildren f = [child] ∧
      f.feature.tags = doc.feature.tags ∧ f.feature.name = doc.feature.name ∧
      f.feature.type = doc.feature.type ∧ f.feature.keyword = doc.feature.keyword := by
  intro f hf
  cases htags : (getFeatureTemplate doc).feature.tags with
  | none =>
    have h0 := splitFeature_without_tags _ _ split tagExpression features htags hsplit
    rw [h0] at hf
    simp at hf
  | some ftags =>
    rw [splitFeature_eq_contribution _ _ ftags split tagExpression htags] at hsplit
    simp only [Option.some.injEq] at hsplit
    rw [← hsplit, List.mem_flatMap] at hf
    obtain ⟨original, horig, hmem⟩ := hf
    rw [List.mem_filter] at horig
    obtain ⟨tags, examples, extra, hfeq, _⟩ :=
      mem_contribution _ ftags split tagExpression original f hmem
    have hty : original.type ≠ NodeType.Background := by simpa using horig.2
    have hchildren : f.feature.children =
        doc.feature.children.filter (fun s => s.type == NodeType.Background) ++
          [{ original with tags := some tags, examples := examples }] := by
      rw [hfeq]
      rfl
    refine ⟨{ original with tags := some tags, examples := examples }, hchildren, hbackground,
      hty, ?_, ?_, ?_, ?_, ?_⟩
    · unfold scenarioChildren
      rw [hchildren]
      apply filter_background_append
      · intro b hb
        simpa using (List.mem_filter.mp hb).2
      · exact hty
    · rw [hfeq]; rfl
    · rw [hfeq]; rfl
    · rw [hfeq]; rfl
    · rw [hfeq]; rfl

theorem subFeature_shape_invariant_witness :
    (sampleDocument.feature.children.filter
      (fun s => s.type == NodeType.Background)).length ≤ 1 ∧
    ∃ features,
      splitFeature sampleDocument.feature.children (getFeatureTemplate sampleDocument) true "" =
        some features ∧
      features.length = 4 ∧
      ∀ f ∈ features, ∃ child,
        f.feature.children =
          sampleDocument.feature.children.filter (fun s => s.type == NodeType.Background) ++
            [child] ∧
        (sampleDocument.feature.children.filter
          (fun s => s.type == NodeType.Background)).length ≤ 1 ∧
        child.type ≠ NodeType.Background ∧
        scenarioChildren f = [child] ∧
        f.feature.tags = sampleDocument.feature.tags ∧
        f.feature.name = sampleDocument.feature.name ∧
        f.feature.type = sampleDocument.feature.type ∧
        f.feature.keyword = sampleDocument.feature.keyword :=
  ⟨by decide, _, rfl, rfl,
    subFeature_shape_invariant sampleDocument true "" _ (by decide) rfl⟩

/-- C18 (filter idempotence). Filtering what `filterFeaturesByTag(X, e)` returned
with the same expression gives back what it returned, for every list `X` and
every expression `e`; when the expression does not parse both calls return
`undefined`. -/
theorem filterFeaturesByTag_idempotent (parser : TagExpressionParser)
    (features : List GherkinDocument) (tagExpression : String) :
    (filterFeaturesByTag parser features tagExpression).bind
        (fun filtered => filterFeaturesByTag parser filtered tagExpression) =
      filterFeaturesByTag parser features tagExpression := by
  unfold filterFeaturesByTag
  cases parser.parse tagExpression with
  | none => rfl
  | some expressionNode => simp [List.filter_filter]

/-- C19 (header provenance in untagged per-row splitting). With the per-row
policy on, a tag list on the template and an outline none of whose example
blocks carries tags, the sub-features of the outline are one per data row of
all blocks, and the single example block of each is the FIRST block of the
outline with its body replaced by that row: its header is the header of the
first block also when the row comes from a later block. -/
theorem splitFeature_untagged_rows_keep_first_block (pre post : List Scenario)
    (outline : Scenario) (first : Examples) (others : List Examples)
    (featureTemplate : GherkinDocument) (ftags : List Tag) (tagExpression : String)
    (htags : featureTemplate.feature.tags = some ftags)
    (hty : outline.type = NodeType.ScenarioOutline)
    (hex : outline.examples = some (first :: others))
    (huntagged : (first :: others).any hasTags = false) :
    ∃ before after,
      splitFeature pre featureTemplate true tagExpression = some before ∧
      splitFeature post featureTemplate true tagExpression = some after ∧
      splitFeature (pre ++ outline :: post) featureTemplate true tagExpression =
        some (before ++
          ((first :: others).flatMap (fun ex => ex.tableBody)).map (fun row =>
            subFeature featureTemplate
              { outline with
                examples := some [{ tags := first.tags, tableHeader := first.tableHeader,
                                    tableBody := [row] }]
                tags := some (orEmpty outline.tags ++ ftags) }) ++
          after) := by
  refine ⟨_, _, splitFeature_eq_contribution pre featureTemplate ftags true tagExpression htags,
    splitFeature_eq_contribution post featureTemplate ftags true tagExpression htags, ?_⟩
  rw [splitFeature_eq_contribution _ featureTemplate ftags true tagExpression htags,
    filter_scenarios_append pre post outline (by simp [hty])]
  have hc : contribution featureTemplate ftags true tagExpression outline =
      ((first :: others).flatMap (fun ex => ex.tableBody)).map (fun row =>
        subFeature featureTemplate
          { outline with
            examples := some [{ tags := first.tags, tableHeader := first.tableHeader,
                                tableBody := [row] }]
            tags := some (orEmpty outline.tags ++ ftags) }) := by
    unfold contribution
    simp only [hty, beq_self_eq_true, if_true, hex, huntagged, Bool.false_eq_true, if_false,
      List.append_nil]
  simp only [List.flatMap_append, List.flatMap_cons, hc, List.append_assoc]

theorem splitFeature_untagged_rows_keep_first_block_witness :
    (getFeatureTemplate sampleDocument).feature.tags = some [{ name := "@smoke" }] ∧
    sampleUntaggedOutline.examples = some (sampleBlock1 :: [sampleBlock3]) ∧
    (sampleBlock1 :: [sampleBlock3]).any hasTags = false ∧
    sampleBlock3.tableHeader ≠ sampleBlock1.tableHeader ∧
    ∃ before after,
      splitFeature [] (getFeatureTemplate sampleDocument) true "" = some before ∧
      splitFeature [] (getFeatureTemplate sampleDocument) true "" = some after ∧
      splitFeature ([] ++ sampleUntaggedOutline :: []) (getFeatureTemplate sampleDocument)
          true "" =
        some (before ++
          ((sampleBlock1 :: [sampleBlock3]).flatMap (fun ex => ex.tableBody)).map (fun row =>
            subFeature (getFeatureTemplate sampleDocument)
              { sampleUntaggedOutline with
                examples := some [{ tags := sampleBlock1.tags,
                                    tableHeader := sampleBlock1.tableHeader,
                                    tableBody := [row] }]
                tags := some (orEmpty sampleUntaggedOutline.tags ++ [{ name := "@smoke" }]) }) ++
          after) :=
  ⟨rfl, rfl, rfl, by decide,
    splitFeature_untagged_rows_keep_first_block [] [] sampleUntaggedOutline sampleBlock1
      [sampleBlock3] (getFeatureTemplate sampleDocument) [{ name := "@smoke" }] ""
      rfl rfl rfl rfl⟩

theorem writeExamples_take_one (acc : String) (examples : Option (List Examples)) :
    writeExamples acc (examples.map (fun exs => exs.take 1)) = writeExamples acc examples := by
  cases examples with
  | none => rfl
  | some exs =>
    cases exs with
    | nil => rfl
    | cons ex rest => rfl

theorem writeFeature_keepFirstBlocks (feature : Feature) :
    writeFeature feature = writeFeature (keepFirstBlocks feature) := by
  unfold writeFeature keepFirstBlocks
  simp only
  rw [forEach_map]
  have h : (fun a (x : Scenario) => writeScenario a (keepFirstBlock x)) = writeScenario := by
    funext a sc
    unfold writeScenario keepFirstBlock
    simp only
    exact writeExamples_take_one _ sc.examples
  rw [h]

/-- C20 (only the first example block is rendered). What `writeFeature` returns
for a feature is what it returns for the same feature with, on every child,
every example block after the first removed. Hence, with the per-row policy
off and a tag list on the template, the one sub-feature of an outline with
several example blocks keeps them all, and its text is the text of the same
sub-feature keeping only the first block: the headers and the data rows of the
later blocks are not written. -/
theorem writeFeature_first_block_only (feature : Feature) :
    writeFeature feature = writeFeature (keepFirstBlocks feature) ∧
    ∀ (outline : Scenario) (first : Examples) (others : List Examples)
      (featureTemplate : GherkinDocument) (ftags : List Tag) (tagExpression : String),
      featureTemplate.feature.tags = some ftags →
      outline.type = NodeType.ScenarioOutline →
      outline.examples = some (first :: others) →
      ∃ child,
        splitFeature [outline] featureTemplate false tagExpression =
          some [subFeature featureTemplate child] ∧
        child.examples = some (first :: others) ∧
        writeFeature (subFeature featureTemplate child).feature =
          writeFeature (subFeature featureTemplate
            { child with examples := some [first] }).feature := by
  refine ⟨writeFeature_keepFirstBlocks feature, ?_⟩
  intro outline first others featureTemplate ftags tagExpression htags hty hex
  refine ⟨{ outline with
      tags := some ((first :: others).foldl (mergeExampleTags outline tagExpression)
        (orEmpty outline.tags ++ ftags ++ [])) }, ?_, hex, ?_⟩
  · rw [splitFeature_eq_contribution _ featureTemplate ftags false tagExpression htags]
    have hfilter : [outline].filter (fun scenario => scenario.type != NodeType.Background) =
        [outline] := by
      simp [List.filter_cons, hty]
    rw [hfilter]
    simp only [List.flatMap_cons, List.flatMap_nil, List.append_nil]
    unfold contribution
    simp only [hty, beq_self_eq_true, if_true, hex, Bool.false_eq_true, if_false,
      List.append_nil]
  · rw [writeFeature_keepFirstBlocks (subFeature featureTemplate _).feature,
      writeFeature_keepFirstBlocks (subFeature featureTemplate
        { type := outline.type,
          tags := some ((first :: others).foldl (mergeExampleTags outline tagExpression)
            (orEmpty outline.tags ++ ftags ++ [])),
          keyword := outline.keyword, name := outline.name, steps := outline.steps,
          examples := some [first] }).feature]
    simp [keepFirstBlocks, keepFirstBlock, subFeature, hex]

theorem writeFeature_first_block_only_witness :
    (getFeatureTemplate sampleDocument).feature.tags = some [{ name := "@smoke" }] ∧
    sampleOutline.examples = some (sampleBlock1 :: [sampleBlock2]) ∧
    ∃ child,
      splitFeature [sampleOutline] (getFeatureTemplate sampleDocument) false "" =
        some [subFeature (getFeatureTemplate sampleDocument) child] ∧
      child.examples = some (sampleBlock1 :: [sampleBlock2]) ∧
      writeFeature (subFeature (getFeatureTemplate sampleDocument) child).feature =
        writeFeature (subFeature (getFeatureTemplate sampleDocument)
          { child with examples := some [sampleBlock1] }).feature :=
  ⟨rfl, rfl,
    (writeFeature_first_block_only sampleDocument.feature).2 sampleOutline sampleBlock1
      [sampleBlock2] (getFeatureTemplate sampleDocument) [{ name := "@smoke" }] "" rfl rfl rfl⟩

/-! ## Properties of compile -/

theorem forEachThrow_invariant {α σ : Type} (Inv Err : σ → Prop) (cb : σ → α → Except σ σ)
    (hok : ∀ st x s, Inv st → cb st x = Except.ok s → Inv s)
    (herr : ∀ st x s, Inv st → cb st x = Except.error s → Err s)
    (xs : List α) (st : σ) (hst : Inv st) :
    (∀ s, forEachThrow xs cb st = Except.ok s → Inv s) ∧
    (∀ s, forEachThrow xs cb st = Except.error s → Err s) := by
  induction xs generalizing st with
  | nil =>
    constructor
    · intro s h
      simp only [forEachThrow, Except.ok.injEq] at h
      rw [← h]
      exact hst
    · intro s h
      simp [forEachThrow] at h
  | cons x rest ih =>
    simp only [forEachThrow]
    cases hx : cb st x with
    | error s1 =>
      constructor
      · intro s h
        simp at h
      · intro s h
        simp only [Except.error.injEq] at h
        rw [← h]
        exact herr st x s1 hst hx
    | ok s1 => exact ih s1 (hok st x s1 hst hx)

theorem isNumbered_nil (filePaths : List String) : isNumbered filePaths [] := by
  intro k w h
  simp at h

theorem isNumbered_append (filePaths : List String) (written : List WrittenFile)
    (w : WrittenFile) (path : String) (hnum : isNumbered filePaths written)
    (hpath : path ∈ filePaths)
    (hname : w.fileName = parentFileName path ++ toString (written.length + 1) ++ ".feature") :
    isNumbered filePaths (written ++ [w]) := by
  intro k w1 h
  by_cases hk : k < written.length
  · rw [List.getElem?_append_left hk] at h
    exact hnum k w1 h
  · have hle : written.length ≤ k := Nat.le_of_not_lt hk
    rw [List.getElem?_append_right hle] at h
    have hzero : k - written.length = 0 := by
      by_contra hne
      have : ([w] : List WrittenFile)[k - written.length]? = none := by
        apply List.getElem?_eq_none
        simp
        omega
      rw [this] at h
      simp at h
    rw [hzero] at h
    simp only [List.getElem?_cons_zero, Option.some.injEq] at h
    have hkeq : k = written.length := by omega
    rw [← h, hkeq]
    exact ⟨path, hpath, hname⟩

theorem writeSplitFeature_ok (env : Environment) (tmpSpecDirectory : String)
    (filePaths : List String) (st s : CompileState) (f : GherkinDocument)
    (hinv : isNumbered filePaths st.written ∧ st.i = st.written.length + 1)
    (h : writeSplitFeature env tmpSpecDirectory filePaths st f = Except.ok s) :
    isNumbered filePaths s.written ∧ s.i = s.written.length + 1 := by
  unfold writeSplitFeature at h
  cases hp : filePaths[st.fileSequence]? with
  | none => simp [hp] at h
  | some filePath =>
    simp only [hp] at h
    split at h
    · simp only [Except.ok.injEq] at h
      rw [← h]
      constructor
      · apply isNumbered_append filePaths st.written _ filePath hinv.1 (List.getElem?_mem hp)
        simp only
        rw [hinv.2]
      · simp [hinv.2]
    · simp at h

theorem writeSplitFeature_error (env : Environment) (tmpSpecDirectory : String)
    (filePaths : List String) (st s : CompileState) (f : GherkinDocument)
    (hinv : isNumbered filePaths st.written ∧ st.i = st.written.length + 1)
    (h : writeSplitFeature env tmpSpecDirectory filePaths st f = Except.error s) :
    isNumbered filePaths s.written := by
  unfold writeSplitFeature at h
  cases hp : filePaths[st.fileSequence]? with
  | none =>
    simp only [hp, Except.error.injEq] at h
    rw [← h]
    exact hinv.1
  | some filePath =>
    simp only [hp] at h
    split at h
    · simp at h
    · simp only [Except.error.injEq] at h
      rw [← h]
      exact hinv.1

theorem compileAst_invariant (parser : TagExpressionParser) (env : Environment)
    (tmpSpecDirectory : String) (filePaths : List String) (split : Bool)
    (tagExpression : String) (st : CompileState) (ast : Option GherkinDocument)
    (hinv : isNumbered filePaths st.written ∧ st.i = st.written.length + 1) :
    (∀ s, compileAst parser env tmpSpecDirectory filePaths split tagExpression st ast =
        Except.ok s → isNumbered filePaths s.written ∧ s.i = s.written.length + 1) ∧
    (∀ s, compileAst parser env tmpSpecDirectory filePaths split tagExpression st ast =
        Except.error s → isNumbered filePaths s.written) := by
  unfold compileAst
  cases ast with
  | none =>
    constructor
    · intro s h
      simp only [Except.ok.injEq] at h
      rw [← h]
      exact hinv
    · intro s h
      simp at h
  | some doc =>
    simp only
    cases splitFeature doc.feature.children (getFeatureTemplate doc) split tagExpression with
    | none =>
      constructor
      · intro s h
        simp at h
      · intro s h
        simp only [Except.error.injEq] at h
        rw [← h]
        exact hinv.1
    | some features =>
      simp only
      cases filterFeaturesByTag parser features tagExpression with
      | none =>
        constructor
        · intro s h
          simp at h
        · intro s h
          simp only [Except.error.injEq] at h
          rw [← h]
          exact hinv.1
      | some filtered =>
        simp only
        have hinv1 : isNumbered filePaths
              (if filtered.length > 0 then { st with scenariosWithTagFound := true }
                else st).written ∧
            (if filtered.length > 0 then { st with scenariosWithTagFound := true } else st).i =
              (if filtered.length > 0 then { st with scenariosWithTagFound := true }
                else st).written.length + 1 := by
          split <;> exact hinv
        have hloop := forEachThrow_invariant
          (fun s => isNumbered filePaths s.written ∧ s.i = s.written.length + 1)
          (fun s => isNumbered filePaths s.written)
          (writeSplitFeature env tmpSpecDirectory filePaths)
          (fun st0 x s h0 h1 => writeSplitFeature_ok env tmpSpecDirectory filePaths st0 s x h0 h1)
          (fun st0 x s h0 h1 =>
            writeSplitFeature_error env tmpSpecDirectory filePaths st0 s x h0 h1)
          filtered _ hinv1
        cases hres : forEachThrow filtered (writeSplitFeature env tmpSpecDirectory filePaths)
            (if filtered.length > 0 then { st with scenariosWithTagFound := true } else st) with
        | error s2 =>
          constructor
          · intro s h
            simp at h
          · intro s h
            simp only [Except.error.injEq] at h
            rw [← h]
            exact hloop.2 s2 hres
        | ok s2 =>
          constructor
          · intro s h
            simp only [Except.ok.injEq] at h
            rw [← h]
            exact hloop.1 s2 hres
          · intro s h
            simp at h

/-- The files written by `compile` are numbered 1, 2, 3, ... in the order in
which they are written, each after one of the source files. -/
theorem compile_isNumbered (parser : TagExpressionParser) (env : Environment)
    (options : Options) (sourceSpecDirectory : String)
    (hsource : options.sourceSpecDirectory = some sourceSpecDirectory) :
    isNumbered (resolveFilePaths env sourceSpecDirectory options.ff)
      (compile parser env options).written := by
  unfold compile
  simp only [hsource]
  split
  · exact isNumbered_nil _
  · cases options.tmpSpecDirectory with
    | none => exact isNumbered_nil _
    | some tmpSpecDirectory =>
      simp only
      split
      · exact isNumbered_nil _
      · cases parseGherkinFiles env
            (readFiles env (resolveFilePaths env sourceSpecDirectory options.ff))
            (orDefault options.lang "en") with
        | none => exact isNumbered_nil _
        | some asts =>
          simp only
          have hloop := forEachThrow_invariant
            (fun s => isNumbered (resolveFilePaths env sourceSpecDirectory options.ff) s.written ∧
              s.i = s.written.length + 1)
            (fun s => isNumbered (resolveFilePaths env sourceSpecDirectory options.ff) s.written)
            (compileAst parser env tmpSpecDirectory
              (resolveFilePaths env sourceSpecDirectory options.ff)
              options.splitScenarioOutLineMultipleExamples (orDefault options.tagExpression ""))
            (fun st0 x s h0 h1 => (compileAst_invariant parser env tmpSpecDirectory _ _ _ st0 x
              h0).1 s h1)
            (fun st0 x s h0 h1 => (compileAst_invariant parser env tmpSpecDirectory _ _ _ st0 x
              h0).2 s h1)
            asts { i := 1, fileSequence := 0, scenariosWithTagFound := false, written := [] }
            ⟨isNumbered_nil _, rfl⟩
          cases hres : forEachThrow asts
              (compileAst parser env tmpSpecDirectory
                (resolveFilePaths env sourceSpecDirectory options.ff)
                options.splitScenarioOutLineMultipleExamples
                (orDefault options.tagExpression ""))
              { i := 1, fileSequence := 0, scenariosWithTagFound := false, written := [] } with
          | error s => exact hloop.2 s hres
          | ok s => exact (hloop.1 s hres).1

theorem takeWhile_append_stop {α : Type} (p : α → Bool) (xs ys : List α) (y : α)
    (hxs : ∀ x ∈ xs, p x = true) (hy : p y = false) :
    (xs ++ y :: ys).takeWhile p = xs := by
  induction xs with
  | nil => simp [List.takeWhile, hy]
  | cons x xs ih =>
    have hx : p x = true := hxs x (List.mem_cons_self x xs)
    simp only [List.cons_append, List.takeWhile_cons, hx, if_true]
    rw [ih (fun z hz => hxs z (List.mem_cons_of_mem x hz))]

theorem lastSegment_append (dir name : List Char) (hname : '/' ∉ name) :
    lastSegment (dir ++ '/' :: name) = name := by
  unfold lastSegment
  rw [List.reverse_append, List.reverse_cons, List.append_assoc]
  simp only [List.singleton_append]
  rw [takeWhile_append_stop]
  · simp
  · intro x hx
    rw [List.mem_reverse] at hx
    have hne : x ≠ '/' := fun h => hname (h ▸ hx)
    simpa using hne
  · simp

theorem replaceFirst_plain (stem : List Char) (hdot : '.' ∉ stem) :
    replaceFirst ".feature".toList "_".toList (stem ++ ".feature".toList) =
      stem ++ "_".toList := by
  induction stem with
  | nil => decide
  | cons c rest ih =>
    have hc : c ≠ '.' := fun h => hdot (h ▸ List.mem_cons_self c rest)
    have hrest : '.' ∉ rest := fun h => hdot (List.mem_cons_of_mem c h)
    have hpat : ".feature".toList = '.' :: "feature".toList := by decide
    have hpre : (".feature".toList).isPrefixOf (c :: (rest ++ ".feature".toList)) = false := by
      rw [hpat]
      simp [List.isPrefixOf, Ne.symm hc]
    simp only [List.cons_append, replaceFirst, List.append_eq, hpre, Bool.false_eq_true,
      if_false]
    rw [ih hrest]

/-- For a source file `dir/stem.feature` whose stem has neither a slash nor a
dot, `parentFileName` is the stem followed by an underscore. -/
theorem parentFileName_plain (dir stem : String) (hslash : '/' ∉ stem.toList)
    (hdot : '.' ∉ stem.toList) :
    parentFileName (dir ++ "/" ++ stem ++ ".feature") = stem ++ "_" := by
  unfold parentFileName
  have hlist : (dir ++ "/" ++ stem ++ ".feature").toList =
      dir.toList ++ '/' :: (stem.toList ++ ".feature".toList) := by
    simp [String.toList, String.data_append]
  rw [hlist, lastSegment_append, replaceFirst_plain stem.toList hdot]
  · apply String.ext
    simp [String.toList, String.data_append]
  · intro h
    rcases List.mem_append.mp h with h1 | h2
    · exact hslash h1
    · revert h2
      decide

/-- The numbering of the files written by one call of `compile` on a source
directory: the k-th file written, k counted from 1 over all source files, is
named with what `parentFileName` makes of one of the source paths, then the
number k, then `.feature`. When every source path is `dir/stem.feature` with a
stem free of slashes and dots, that name is `stem_k.feature`. -/
theorem compile_sequence_numbering (parser : TagExpressionParser) (env : Environment)
    (options : Options) (sourceSpecDirectory : String)
    (hsource : options.sourceSpecDirectory = some sourceSpecDirectory) :
    (∀ k w, (compile parser env options).written[k]? = some w →
      ∃ path ∈ resolveFilePaths env sourceSpecDirectory options.ff,
        w.fileName = parentFileName path ++ toString (k + 1) ++ ".feature") ∧
    ((∀ path ∈ resolveFilePaths env sourceSpecDirectory options.ff,
        ∃ dir stem, path = dir ++ "/" ++ stem ++ ".feature" ∧
          '/' ∉ stem.toList ∧ '.' ∉ stem.toList) →
      ∀ k w, (compile parser env options).written[k]? = some w →
        ∃ stem, w.fileName = stem ++ "_" ++ toString (k + 1) ++ ".feature") := by
  have hnum := compile_isNumbered parser env options sourceSpecDirectory hsource
  refine ⟨hnum, ?_⟩
  intro hplain k w hw
  obtain ⟨path, hpath, hname⟩ := hnum k w hw
  obtain ⟨dir, stem, hpatheq, hslash, hdot⟩ := hplain path hpath
  refine ⟨stem, ?_⟩
  rw [hname, hpatheq, parentFileName_plain dir stem hslash hdot]

theorem compile_sequence_numbering_witness :
    (sampleOptions "specs" none none).sourceSpecDirectory = some "specs" ∧
    (compile sampleParser sampleEnvironment (sampleOptions "specs" none none)).written.map
        (fun w => w.fileName) =
      ["a_1.feature", "a_2.feature", "b_3.feature", "b_4.feature"] ∧
    ∀ k w, (compile sampleParser sampleEnvironment
        (sampleOptions "specs" none none)).written[k]? = some w →
      ∃ path ∈ resolveFilePaths sampleEnvironment "specs" (sampleOptions "specs" none none).ff,
        w.fileName = parentFileName path ++ toString (k + 1) ++ ".feature" :=
  ⟨rfl, rfl,
    (compile_sequence_numbering sampleParser sampleEnvironment (sampleOptions "specs" none none)
      "specs" rfl).1⟩

/-- C14, failing input. The directory `dots` holds the one file
`a.feature.feature`. The file that `compile` writes for its Scenario is named
`a_.feature1.feature`: `replace(".feature", "_")` puts the underscore at the
first `.feature` of the base name, so the number 1 does not follow an
underscore and the name does not end in `_1.feature`. In the directory `specs`
(files `a.feature` and `b.feature`) the numbers run 1, 2, 3, 4 across the two
files. -/
theorem compile_underscore_at_first_feature_occurrence :
    resolveFilePaths sampleEnvironment "dots" none = ["dots/a.feature.feature"] ∧
    (compile sampleParser sampleEnvironment (sampleOptions "dots" none none)).written =
      [{ directory := "tmp", fileName := "a_.feature1.feature",
         data := some "@smoke\nFeature: Shop\n@smoke\nScenario: Login\nWhen the user logs in\n" }] ∧
    ("_1.feature".toList.reverse).isPrefixOf ("a_.feature1.feature".toList.reverse) = false ∧
    (compile sampleParser sampleEnvironment (sampleOptions "specs" none none)).written.map
        (fun w => w.fileName) =
      ["a_1.feature", "a_2.feature", "b_3.feature", "b_4.feature"] :=
  ⟨rfl, rfl, rfl, rfl⟩

/-- C13, failing input. The directory `mixed` holds `empty.feature`, which
parses to a document without a feature, and `login.feature`. The one file that
`compile` writes holds the Scenario of `login.feature` and is named
`empty_1.feature`: `fileSequence` stays at 0 for the skipped document, so the
name is taken from the wrong source path. -/
theorem compile_names_file_after_skipped_source :
    resolveFilePaths sampleEnvironment "mixed" none =
      ["mixed/empty.feature", "mixed/login.feature"] ∧
    readFiles sampleEnvironment ["mixed/empty.feature", "mixed/login.feature"] =
      some ["", "Feature: Shop"] ∧
    parseGherkinFiles sampleEnvironment (some ["", "Feature: Shop"]) "en" =
      some [none, some sampleLoginDocument] ∧
    compile sampleParser sampleEnvironment (sampleOptions "mixed" (some "@smoke") none) =
      { written :=
          [{ directory := "tmp", fileName := "empty_1.feature",
             data := some "@smoke\nFeature: Shop\n@smoke\nScenario: Login\nWhen the user logs in\n" }],
        noFeatureNotice := false } :=
  ⟨rfl, rfl, rfl, rfl⟩

theorem mapThrow_mem {α β : Type} (f : α → Option β) (xs : List α) (ys : List β) (x : α)
    (h : mapThrow f xs = some ys) (hx : x ∈ xs) : ∃ y ∈ ys, f x = some y := by
  induction xs generalizing ys with
  | nil => simp at hx
  | cons a rest ih =>
    simp only [mapThrow] at h
    cases ha : f a with
    | none => simp [ha] at h
    | some b =>
      simp only [ha] at h
      cases hrest : mapThrow f rest with
      | none => simp [hrest] at h
      | some bs =>
        simp only [hrest, Option.some.injEq] at h
        rw [← h]
        rcases List.mem_cons.mp hx with rfl | hmem
        · exact ⟨b, List.mem_cons_self b bs, ha⟩
        · obtain ⟨y, hy, hfy⟩ := ih bs hrest hmem
          exact ⟨y, List.mem_cons_of_mem b hy, hfy⟩

theorem mapThrow_none {α β : Type} (f : α → Option β) (xs : List α) (x : α)
    (hx : x ∈ xs) (hfx : f x = none) : mapThrow f xs = none := by
  cases h : mapThrow f xs with
  | none => rfl
  | some ys =>
    obtain ⟨y, _, hy⟩ := mapThrow_mem f xs ys x h hx
    rw [hfx] at hy
    simp at hy

/-- C15, as amended (parse failure). When one of the source files is read and
its text fails to parse, `parseGherkinFiles` returns `undefined` for the whole
list and `compile` ends without writing any file, for any source file; the
notice about the tag expression is not printed either. -/
theorem compile_parse_failure_writes_nothing (parser : TagExpressionParser)
    (env : Environment) (options : Options) (sourceSpecDirectory path text : String)
    (hsource : options.sourceSpecDirectory = some sourceSpecDirectory)
    (hpath : path ∈ resolveFilePaths env sourceSpecDirectory options.ff)
    (hread : env.readFileSync path = some text)
    (hparse : env.parse (orDefault options.lang "en") text = none) :
    compile parser env options = { written := [], noFeatureNotice := false } := by
  have hnone : parseGherkinFiles env
      (readFiles env (resolveFilePaths env sourceSpecDirectory options.ff))
      (orDefault options.lang "en") = none := by
    unfold parseGherkinFiles
    split
    · cases htexts : readFiles env (resolveFilePaths env sourceSpecDirectory options.ff) with
      | none => rfl
      | some texts =>
        simp only
        obtain ⟨t, ht, hreadt⟩ := mapThrow_mem env.readFileSync _ texts path htexts hpath
        rw [hread, Option.some.injEq] at hreadt
        apply mapThrow_none _ texts t ht
        rw [← hreadt]
        exact hparse
    · rfl
  unfold compile
  simp only [hsource]
  split
  · rfl
  · cases options.tmpSpecDirectory with
    | none => rfl
    | some tmpSpecDirectory =>
      simp only
      split
      · rfl
      · rw [hnone]

theorem compile_parse_failure_writes_nothing_witness :
    (sampleOptions "broken" none none).sourceSpecDirectory = some "broken" ∧
    "broken/bad.feature" ∈
      resolveFilePaths sampleEnvironment "broken" (sampleOptions "broken" none none).ff ∧
    sampleEnvironment.readFileSync "broken/bad.feature" = some "Scenario: no feature line" ∧
    sampleEnvironment.parse (orDefault (sampleOptions "broken" none none).lang "en")
      "Scenario: no feature line" = none ∧
    compile sampleParser sampleEnvironment (sampleOptions "broken" none none) =
      { written := [], noFeatureNotice := false } :=
  ⟨rfl, by decide, rfl, rfl,
    compile_parse_failure_writes_nothing sampleParser sampleEnvironment
      (sampleOptions "broken" none none) "broken" "broken/bad.feature"
      "Scenario: no feature line" rfl (by decide) rfl rfl⟩

/-- C15, counterexample. The directory `broken` holds `bad.feature`, which does
not parse, and `login.feature`, which parses. Run on `login.feature` alone,
`compile` writes `login_1.feature`; run on the directory, it writes nothing:
the file that parses gets no output file. -/
theorem parse_failure_stops_every_file :
    resolveFilePaths sampleEnvironment "broken" none =
      ["broken/bad.feature", "broken/login.feature"] ∧
    sampleEnvironment.parse "en" "Feature: Shop" = some (some sampleLoginDocument) ∧
    sampleEnvironment.parse "en" "Scenario: no feature line" = none ∧
    (compile sampleParser sampleEnvironment (sampleOptions "broken" none (some "login"))).written =
      [{ directory := "tmp", fileName := "login_1.feature",
         data := some "@smoke\nFeature: Shop\n@smoke\nScenario: Login\nWhen the user logs in\n" }] ∧
    (compile sampleParser sampleEnvironment (sampleOptions "broken" none none)).written = [] :=
  ⟨rfl, rfl, rfl, rfl, rfl⟩

/-! ## Round trip through the parser: the text as a list of lines -/

theorem string_toList_append (s t : String) : (s ++ t).toList = s.toList ++ t.toList := by
  simp [String.toList]

theorem string_toList_join (l : List String) :
    (String.join l).toList = l.flatMap String.toList := by
  induction l with
  | nil => rfl
  | cons a l ih => rw [string_join_cons, string_toList_append, ih]; rfl

theorem unlines_append (a b : List (List Char)) : unlines (a ++ b) = unlines a ++ unlines b := by
  simp [unlines]

theorem unlines_cons (l : List Char) (ls : List (List Char)) :
    unlines (l :: ls) = l ++ '\n' :: unlines ls := by
  simp [unlines]

theorem unlines_nil : unlines [] = [] := rfl

theorem unlines_splitOnChar (l cur : List Char) :
    unlines (splitOnChar '\n' l cur) = cur.reverse ++ l ++ ['\n'] := by
  induction l generalizing cur with
  | nil => simp [splitOnChar, unlines]
  | cons c cs ih =>
    unfold splitOnChar
    by_cases hc : c = '\n'
    · subst hc
      simp only [beq_self_eq_true, if_true, unlines_cons, ih]
      simp
    · have hc2 : (c == '\n') = false := by simpa using hc
      simp only [hc2, Bool.false_eq_true, if_false, ih]
      simp

theorem splitOnChar_ne_nil (sep : Char) (l cur : List Char) : splitOnChar sep l cur ≠ [] := by
  induction l generalizing cur with
  | nil => simp [splitOnChar]
  | cons c cs ih =>
    unfold splitOnChar
    split
    · simp
    · exact ih _

theorem unlines_eq_intercalate (ls : List (List Char)) (h : ls ≠ []) :
    unlines ls = List.intercalate ['\n'] ls ++ ['\n'] := by
  induction ls with
  | nil => exact absurd rfl h
  | cons l ls ih =>
    cases ls with
    | nil => simp [unlines, List.intercalate]
    | cons m ms =>
      rw [unlines_cons, ih (by simp)]
      simp [List.intercalate]

theorem intercalate_splitOnChar (l : List Char) :
    List.intercalate ['\n'] (splitOnChar '\n' l []) = l := by
  have h1 := unlines_eq_intercalate (splitOnChar '\n' l []) (splitOnChar_ne_nil _ _ _)
  rw [unlines_splitOnChar] at h1
  simp only [List.reverse_nil, List.nil_append] at h1
  exact (List.append_cancel_right h1).symm

theorem flatMap_eq_unlines {α : Type} (f : α → List Char) (g : α → List (List Char))
    (xs : List α) (h : ∀ x ∈ xs, f x = unlines (g x)) :
    xs.flatMap f = unlines (xs.flatMap g) := by
  induction xs with
  | nil => rfl
  | cons x xs ih =>
    simp only [List.flatMap_cons, unlines_append]
    rw [ih (fun y hy => h y (List.mem_cons_of_mem x hy)), h x (List.mem_cons_self x xs)]

theorem tagLines_toList (tags : Option (List Tag)) :
    (tagLines tags).toList = unlines (tagLineList tags) := by
  unfold tagLines tagLineList unlines
  rw [string_toList_join]
  simp only [List.flatMap_map]
  congr 1

theorem dataTableLines_toList (rows : List TableRow) :
    (dataTableLines rows).toList = unlines (rows.map rowLine) := by
  unfold dataTableLines unlines
  rw [string_toList_join]
  simp only [List.flatMap_map]
  congr 1
  funext row
  simp only [string_toList_append, string_toList_join, List.flatMap_map, rowLine]
  rfl

theorem stepLines_toList (step : Step) :
    (stepLines step).toList = unlines (stepLineList step) := by
  unfold stepLines stepLineList
  rw [unlines_cons, string_toList_append, string_toList_append, string_toList_append]
  have hnl : "\n".toList = ['\n'] := rfl
  cases harg : step.argument with
  | none => simp [unlines, hnl]
  | some arg =>
    cases arg with
    | DataTable rows =>
      rw [dataTableLines_toList, hnl]
      simp
    | DocString content =>
      simp only [string_toList_append, unlines_append, unlines_cons, unlines_nil,
        unlines_splitOnChar, hnl]
      simp
    | Other type => simp [unlines, hnl]

theorem childLines_toList (child : Scenario) (h : child.examples = none) :
    (childLines child).toList = unlines (childLineList child) := by
  unfold childLines childLineList
  simp only [string_toList_append, string_toList_join, tagLines_toList, h, examplesLines,
    unlines_append, unlines_cons, unlines_nil, List.flatMap_map]
  have hs : child.steps.flatMap (fun a => (stepLines a).toList) =
      unlines (child.steps.flatMap stepLineList) :=
    flatMap_eq_unlines _ _ _ (fun x _ => stepLines_toList x)
  have hnl : "\n".toList = ['\n'] := rfl
  have he : "".toList = [] := rfl
  rw [hs, hnl, he]
  simp

theorem featureLayout_toList (feature : Feature)
    (h : ∀ child ∈ feature.children, child.examples = none) :
    (featureLayout feature).toList = unlines (featureLineList feature) := by
  unfold featureLayout featureLineList
  simp only [string_toList_append, string_toList_join, tagLines_toList,
    unlines_append, unlines_cons, unlines_nil, List.flatMap_map]
  have hs : feature.children.flatMap (fun a => (childLines a).toList) =
      unlines (feature.children.flatMap childLineList) :=
    flatMap_eq_unlines _ _ _ (fun x hx => childLines_toList x (h x hx))
  have hnl : "\n".toList = ['\n'] := rfl
  rw [hs, hnl]

/-! ## Round trip: the token scanner -/

theorem splitLines_line (l rest cur : List Char) (h : '\n' ∉ l) :
    splitLines (l ++ '\n' :: rest) cur =
      (if (l.reverse ++ cur).head? == some '\r' then (l.reverse ++ cur).tail.reverse
        else (l.reverse ++ cur).reverse) :: splitLines rest [] := by
  induction l generalizing cur with
  | nil => simp [splitLines]
  | cons c cs ih =>
    have hc : (c == '\n') = false := by
      have : c ≠ '\n' := fun e => h (by simp [e])
      simpa using this
    have hcs : '\n' ∉ cs := fun e => h (List.mem_cons_of_mem c e)
    rw [List.cons_append, splitLines]
    simp only [hc, Bool.false_eq_true, if_false]
    rw [ih _ hcs]
    simp only [List.reverse_cons, List.append_assoc, List.singleton_append]

theorem splitLines_unlines (ls : List (List Char)) (h : ∀ l ∈ ls, IsScanLine l) :
    splitLines (unlines ls) [] = ls ++ [[]] := by
  induction ls with
  | nil => rfl
  | cons l ls ih =>
    have hl := h l (List.mem_cons_self l ls)
    rw [unlines_cons, splitLines_line l _ [] hl.1, ih (fun x hx => h x (List.mem_cons_of_mem l hx))]
    have h2 : ((l.reverse ++ []).head? == some '\r') = false := by
      simp only [List.append_nil, List.head?_reverse]
      simpa using hl.2
    rw [h2]
    simp

theorem scanLines_unlines (ls : List (List Char)) (h : ∀ l ∈ ls, IsScanLine l) :
    scanLines (unlines ls) = ls := by
  unfold scanLines
  rw [splitLines_unlines ls h]
  simp [trim]

/-! ## Round trip: the token matcher -/

theorem isTrimmed_head (l : List Char) (h : isTrimmed l = true) (c : Char)
    (hc : l.head? = some c) : isWhiteSpace c = false := by
  unfold isTrimmed at h
  rw [hc] at h
  simp only [Bool.and_eq_true, Bool.not_eq_true'] at h
  exact h.1

theorem isTrimmed_last (l : List Char) (h : isTrimmed l = true) (c : Char)
    (hc : l.getLast? = some c) : isWhiteSpace c = false := by
  unfold isTrimmed at h
  rw [hc] at h
  simp only [Bool.and_eq_true, Bool.not_eq_true'] at h
  exact h.2

theorem dropWhile_of_head (l : List Char)
    (h : ∀ c, l.head? = some c → isWhiteSpace c = false) :
    l.dropWhile isWhiteSpace = l := by
  cases l with
  | nil => rfl
  | cons c cs =>
    have hc := h c rfl
    simp [List.dropWhile, hc]

theorem trim_of_isTrimmed (l : List Char) (h : isTrimmed l = true) : trim l = l := by
  unfold trim
  rw [dropWhile_of_head l (isTrimmed_head l h)]
  rw [dropWhile_of_head l.reverse (by
    intro c hc
    rw [List.head?_reverse] at hc
    exact isTrimmed_last l h c hc)]
  exact List.reverse_reverse l

theorem trim_cons_whiteSpace (c : Char) (l : List Char) (h : isWhiteSpace c = true) :
    trim (c :: l) = trim l := by
  unfold trim
  rw [List.dropWhile_cons_of_pos h]

theorem isTrimmed_cons (c : Char) (l : List Char) (hc : isWhiteSpace c = false)
    (h : isTrimmed l = true) : isTrimmed (c :: l) = true := by
  unfold isTrimmed
  simp only [List.head?_cons, hc, Bool.not_false, Bool.true_and]
  cases l with
  | nil => simp [hc]
  | cons d ds =>
    rw [List.getLast?_cons_cons]
    cases hl : (d :: ds).getLast? with
    | none => rfl
    | some e => simp [isTrimmed_last _ h e hl]

theorem isPrefixOf_append_of_le {q p : List Char} (text : List Char) (h : q.length ≤ p.length) :
    q.isPrefixOf (p ++ text) = q.isPrefixOf p := by
  induction q generalizing p with
  | nil => simp
  | cons a q ih =>
    cases p with
    | nil => simp at h
    | cons b p =>
      simp only [List.cons_append, List.isPrefixOf, List.append_eq]
      rw [ih (by simpa using h)]

theorem isPrefixOf_append_of_diverge {q p : List Char} (text : List Char)
    (h : (q.take p.length).isPrefixOf p = false) :
    q.isPrefixOf (p ++ text) = false := by
  induction q generalizing p with
  | nil => cases p <;> simp at h
  | cons a q ih =>
    cases p with
    | nil => simp at h
    | cons b p =>
      simp only [List.cons_append, List.isPrefixOf, List.length_cons, List.take_succ_cons] at h ⊢
      cases hab : (a == b) with
      | false => simp
      | true =>
        rw [hab] at h
        simp only [Bool.true_and] at h ⊢
        exact ih h

/-- Whether a closed pattern is a prefix of a line that starts with the closed
characters `p` is settled by `p` alone, when the pattern is no longer than `p`
or differs from `p` within the length of `p`. -/
theorem isPrefixOf_append_closed (q p text : List Char) (b : Bool)
    (h : (q.length ≤ p.length ∨ (q.take p.length).isPrefixOf p = false) ∧ q.isPrefixOf p = b) :
    q.isPrefixOf (p ++ text) = b := by
  obtain ⟨h1, h2⟩ := h
  rcases h1 with h1 | h1
  · rw [isPrefixOf_append_of_le text h1, h2]
  · rw [isPrefixOf_append_of_diverge text h1]
    cases b with
    | false => rfl
    | true =>
      exfalso
      have h3 : q.take p.length = q := by
        have := List.IsPrefix.length_le (List.isPrefixOf_iff_prefix.mp h2)
        exact List.take_of_length_le this
      rw [h3, h2] at h1
      exact Bool.noConfusion h1

theorem dropWhile_append_of_head (p text : List Char) (c : Char) (hp : p.head? = some c)
    (hc : isWhiteSpace c = false) :
    (p ++ text).dropWhile isWhiteSpace = p ++ text := by
  apply dropWhile_of_head
  intro d hd
  cases p with
  | nil => simp at hp
  | cons e es =>
    simp only [List.cons_append, List.head?_cons, Option.some.injEq] at hd hp
    rw [← hd, hp]
    exact hc

theorem string_mk_toList (s : String) : String.mk s.toList = s := rfl

theorem matchToken_feature (name : String) (h : isLineText name = true) :
    matchToken ("Feature".toList ++ ": ".toList ++ name.toList) =
      GherkinToken.featureLine name := by
  have hp : "Feature".toList ++ ": ".toList = "Feature: ".toList := by decide
  have hd := dropWhile_append_of_head "Feature: ".toList name.toList 'F' (by decide) (by decide)
  have hdrop : List.drop 8 ("Feature: ".toList ++ name.toList) = ' ' :: name.toList := rfl
  have ht : isTrimmed name.toList = true := by
    unfold isLineText at h
    simp only [Bool.and_eq_true] at h
    exact h.2
  unfold matchToken
  rw [hp]
  simp only [hd]
  rw [if_neg (by simp)]
  repeat (first
    | rw [isPrefixOf_append_closed _ _ _ false (by decide)]
    | rw [isPrefixOf_append_closed _ _ _ true (by decide)])
  simp only [Bool.false_eq_true, if_false, if_true, getRestTrimmed, hdrop]
  rw [trim_cons_whiteSpace _ _ (by decide), trim_of_isTrimmed _ ht]
  rfl

theorem not_mem_of_contains (l : List Char) (c : Char) (h : l.contains c = false) : c ∉ l := by
  intro hm
  have h2 : l.contains c = true := by simpa using hm
  rw [h] at h2
  exact Bool.noConfusion h2

theorem getTableCells_bar (cs cell : List Char) :
    getTableCells ('|' :: cs) cell false =
      { value := String.mk (trim cell.reverse) } :: getTableCells cs [] false := by
  rw [getTableCells.eq_def]
  simp

theorem getTableCells_first (cs cell : List Char) :
    getTableCells ('|' :: cs) cell true = getTableCells cs [] false := by
  rw [getTableCells.eq_def]
  simp

theorem getTableCells_plain (c : Char) (cs cell : List Char) (firstCell : Bool)
    (h1 : (c == '|') = false) (h2 : (c == '\\') = false) :
    getTableCells (c :: cs) cell firstCell = getTableCells cs (c :: cell) firstCell := by
  rw [getTableCells.eq_def]
  simp only [h1, h2, Bool.false_eq_true, if_false]

theorem isLineText_isTrimmed (s : String) (h : isLineText s = true) :
    isTrimmed s.toList = true := by
  unfold isLineText at h
  simp only [Bool.and_eq_true] at h
  exact h.2

theorem isLineText_not_mem (s : String) (h : isLineText s = true) : '\n' ∉ s.toList := by
  unfold isLineText at h
  simp only [Bool.and_eq_true, Bool.not_eq_true'] at h
  exact not_mem_of_contains _ _ h.1

theorem matchToken_background (name : String) (h : isLineText name = true) :
    matchToken ("Background".toList ++ ": ".toList ++ name.toList) =
      GherkinToken.backgroundLine name := by
  have hp : "Background".toList ++ ": ".toList = "Background: ".toList := by decide
  have hd := dropWhile_append_of_head "Background: ".toList name.toList 'B' (by decide)
    (by decide)
  have hdrop : List.drop 11 ("Background: ".toList ++ name.toList) = ' ' :: name.toList := rfl
  unfold matchToken
  rw [hp]
  simp only [hd]
  rw [if_neg (by simp)]
  repeat (first
    | rw [isPrefixOf_append_closed _ _ _ false (by decide)]
    | rw [isPrefixOf_append_closed _ _ _ true (by decide)])
  simp only [Bool.false_eq_true, if_false, if_true, getRestTrimmed, hdrop]
  rw [trim_cons_whiteSpace _ _ (by decide), trim_of_isTrimmed _ (isLineText_isTrimmed _ h)]
  rfl

theorem matchToken_scenario (name : String) (h : isLineText name = true) :
    matchToken ("Scenario".toList ++ ": ".toList ++ name.toList) =
      GherkinToken.scenarioLine name := by
  have hp : "Scenario".toList ++ ": ".toList = "Scenario: ".toList := by decide
  have hd := dropWhile_append_of_head "Scenario: ".toList name.toList 'S' (by decide)
    (by decide)
  have hdrop : List.drop 9 ("Scenario: ".toList ++ name.toList) = ' ' :: name.toList := rfl
  unfold matchToken
  rw [hp]
  simp only [hd]
  rw [if_neg (by simp)]
  repeat (first
    | rw [isPrefixOf_append_closed _ _ _ false (by decide)]
    | rw [isPrefixOf_append_closed _ _ _ true (by decide)])
  simp only [Bool.false_eq_true, if_false, if_true, getRestTrimmed, hdrop]
  rw [trim_cons_whiteSpace _ _ (by decide), trim_of_isTrimmed _ (isLineText_isTrimmed _ h)]
  rfl

theorem matchToken_step (keyword text : String) (hk : stepKeywords.contains keyword = true)
    (h : isLineText text = true) :
    matchToken (keyword.toList ++ text.toList) = GherkinToken.stepLine keyword text := by
  have hmem : keyword ∈ stepKeywords := by simpa using hk
  simp only [stepKeywords, List.mem_cons, List.mem_singleton, List.not_mem_nil, or_false] at hmem
  have ht := trim_of_isTrimmed _ (isLineText_isTrimmed _ h)
  rcases hmem with rfl | rfl | rfl | rfl | rfl | rfl
  · have hd := dropWhile_append_of_head "* ".toList text.toList '*' (by decide) (by decide)
    have hdrop : List.drop "* ".length ("* ".toList ++ text.toList) = text.toList := rfl
    unfold matchToken
    simp only [hd]
    rw [if_neg (by simp)]
    simp only [stepKeywords, List.find?]
    repeat (first
      | rw [isPrefixOf_append_closed _ _ _ false (by decide)]
      | rw [isPrefixOf_append_closed _ _ _ true (by decide)])
    simp only [Bool.false_eq_true, if_false, if_true, getRestTrimmed, hdrop, ht]
    rfl
  · have hd := dropWhile_append_of_head "Given ".toList text.toList 'G' (by decide) (by decide)
    have hdrop : List.drop "Given ".length ("Given ".toList ++ text.toList) = text.toList := rfl
    unfold matchToken
    simp only [hd]
    rw [if_neg (by simp)]
    simp only [stepKeywords, List.find?]
    repeat (first
      | rw [isPrefixOf_append_closed _ _ _ false (by decide)]
      | rw [isPrefixOf_append_closed _ _ _ true (by decide)])
    simp only [Bool.false_eq_true, if_false, if_true, getRestTrimmed, hdrop, ht]
    rfl
  · have hd := dropWhile_append_of_head "When ".toList text.toList 'W' (by decide) (by decide)
    have hdrop : List.drop "When ".length ("When ".toList ++ text.toList) = text.toList := rfl
    unfold matchToken
    simp only [hd]
    rw [if_neg (by simp)]
    simp only [stepKeywords, List.find?]
    repeat (first
      | rw [isPrefixOf_append_closed _ _ _ false (by decide)]
      | rw [isPrefixOf_append_closed _ _ _ true (by decide)])
    simp only [Bool.false_eq_true, if_false, if_true, getRestTrimmed, hdrop, ht]
    rfl
  · have hd := dropWhile_append_of_head "Then ".toList text.toList 'T' (by decide) (by decide)
    have hdrop : List.drop "Then ".length ("Then ".toList ++ text.toList) = text.toList := rfl
    unfold matchToken
    simp only [hd]
    rw [if_neg (by simp)]
    simp only [stepKeywords, List.find?]
    repeat (first
      | rw [isPrefixOf_append_closed _ _ _ false (by decide)]
      | rw [isPrefixOf_append_closed _ _ _ true (by decide)])
    simp only [Bool.false_eq_true, if_false, if_true, getRestTrimmed, hdrop, ht]
    rfl
  · have hd := dropWhile_append_of_head "And ".toList text.toList 'A' (by decide) (by decide)
    have hdrop : List.drop "And ".length ("And ".toList ++ text.toList) = text.toList := rfl
    unfold matchToken
    simp only [hd]
    rw [if_neg (by simp)]
    simp only [stepKeywords, List.find?]
    repeat (first
      | rw [isPrefixOf_append_closed _ _ _ false (by decide)]
      | rw [isPrefixOf_append_closed _ _ _ true (by decide)])
    simp only [Bool.false_eq_true, if_false, if_true, getRestTrimmed, hdrop, ht]
    rfl
  · have hd := dropWhile_append_of_head "But ".toList text.toList 'B' (by decide) (by decide)
    have hdrop : List.drop "But ".length ("But ".toList ++ text.toList) = text.toList := rfl
    unfold matchToken
    simp only [hd]
    rw [if_neg (by simp)]
    simp only [stepKeywords, List.find?]
    repeat (first
      | rw [isPrefixOf_append_closed _ _ _ false (by decide)]
      | rw [isPrefixOf_append_closed _ _ _ true (by decide)])
    simp only [Bool.false_eq_true, if_false, if_true, getRestTrimmed, hdrop, ht]
    rfl

theorem splitOnChar_of_not_mem (sep : Char) (l cur : List Char) (h : sep ∉ l) :
    splitOnChar sep l cur = [cur.reverse ++ l] := by
  induction l generalizing cur with
  | nil => simp [splitOnChar]
  | cons c cs ih =>
    have hc : (c == sep) = false := by
      have : c ≠ sep := fun e => h (by simp [e])
      simpa using this
    rw [splitOnChar]
    simp only [hc, Bool.false_eq_true, if_false]
    rw [ih _ (fun e => h (List.mem_cons_of_mem c e))]
    simp

theorem isTagName_cases (name : String) (h : isTagName name = true) :
    ∃ rest, name.toList = '@' :: rest ∧ '@' ∉ rest ∧ '\n' ∉ rest ∧ isTrimmed rest = true := by
  unfold isTagName at h
  cases hl : name.toList with
  | nil => rw [hl] at h; exact Bool.noConfusion h
  | cons c rest =>
    rw [hl] at h
    simp only [Bool.and_eq_true, beq_iff_eq, Bool.not_eq_true'] at h
    obtain ⟨⟨⟨h1, h2⟩, h3⟩, h4⟩ := h
    exact ⟨rest, by rw [h1], not_mem_of_contains _ _ h2, not_mem_of_contains _ _ h3, h4⟩

theorem matchToken_tag (name : String) (h : isTagName name = true) :
    matchToken name.toList = GherkinToken.tagLine [{ name := name }] := by
  obtain ⟨rest, hname, hat, _, htrim⟩ := isTagName_cases name h
  have hd : List.dropWhile isWhiteSpace ('@' :: rest) = '@' :: rest :=
    List.dropWhile_cons_of_neg (by decide)
  have h1 : "#".toList.isPrefixOf ('@' :: rest) = false := rfl
  have h2 : "@".toList.isPrefixOf ('@' :: rest) = true :=
    isPrefixOf_append_closed _ ['@'] rest true (by decide)
  unfold matchToken
  rw [hname]
  simp only [hd, h1, h2]
  rw [if_neg (by simp)]
  simp only [Bool.false_eq_true, if_false, if_true]
  unfold getTags
  rw [trim_of_isTrimmed _ (isTrimmed_cons '@' rest (by decide) htrim)]
  rw [splitOnChar]
  simp only [beq_self_eq_true, if_true, List.reverse_nil, List.drop_succ_cons, List.drop_zero]
  rw [splitOnChar_of_not_mem '@' rest [] hat]
  simp only [List.reverse_nil, List.nil_append, List.map_cons, List.map_nil,
    trim_of_isTrimmed _ htrim]
  rw [← hname]
  rfl

theorem getTableCells_cell (v rest cur : List Char) (h1 : '|' ∉ v) (h2 : '\\' ∉ v) :
    getTableCells (v ++ '|' :: rest) cur false =
      { value := String.mk (trim (cur.reverse ++ v)) } :: getTableCells rest [] false := by
  induction v generalizing cur with
  | nil => simp [getTableCells_bar]
  | cons c cs ih =>
    have hc1 : (c == '|') = false := by
      have : c ≠ '|' := fun e => h1 (by simp [e])
      simpa using this
    have hc2 : (c == '\\') = false := by
      have : c ≠ '\\' := fun e => h2 (by simp [e])
      simpa using this
    rw [List.cons_append, getTableCells_plain _ _ _ _ hc1 hc2]
    rw [ih _ (fun e => h1 (List.mem_cons_of_mem c e)) (fun e => h2 (List.mem_cons_of_mem c e))]
    simp

theorem isPlainCell_cases (cell : TableCell) (h : isPlainCell cell = true) :
    '|' ∉ cell.value.toList ∧ '\\' ∉ cell.value.toList ∧ '\n' ∉ cell.value.toList ∧
      isTrimmed cell.value.toList = true := by
  unfold isPlainCell at h
  simp only [Bool.and_eq_true, Bool.not_eq_true'] at h
  exact ⟨not_mem_of_contains _ _ h.1.1.1, not_mem_of_contains _ _ h.1.1.2,
    not_mem_of_contains _ _ h.1.2, h.2⟩

theorem getTableCells_cells (cells : List TableCell)
    (h : ∀ cell ∈ cells, isPlainCell cell = true) :
    getTableCells (cells.flatMap (fun cell => cell.value.toList ++ ['|'])) [] false = cells := by
  induction cells with
  | nil => rfl
  | cons cell cells ih =>
    obtain ⟨h1, h2, _, h4⟩ := isPlainCell_cases cell (h cell (List.mem_cons_self cell cells))
    simp only [List.flatMap_cons, List.append_assoc, List.singleton_append]
    rw [getTableCells_cell _ _ _ h1 h2, ih (fun x hx => h x (List.mem_cons_of_mem cell hx))]
    simp only [List.reverse_nil, List.nil_append, trim_of_isTrimmed _ h4]
    rfl

theorem matchToken_row (row : TableRow) (h : ∀ cell ∈ row.cells, isPlainCell cell = true) :
    matchToken (rowLine row) = GherkinToken.tableRow row.cells := by
  unfold rowLine
  have hd : ∀ rest, List.dropWhile isWhiteSpace ('|' :: rest) = '|' :: rest :=
    fun rest => List.dropWhile_cons_of_neg (by decide)
  have h1 : ∀ rest, "#".toList.isPrefixOf ('|' :: rest) = false := fun _ => rfl
  have h2 : ∀ rest, "@".toList.isPrefixOf ('|' :: rest) = false := fun _ => rfl
  have h3 : ∀ rest, "Feature:".toList.isPrefixOf ('|' :: rest) = false := fun _ => rfl
  have h4 : ∀ rest, "Background:".toList.isPrefixOf ('|' :: rest) = false := fun _ => rfl
  have h5 : ∀ rest, "Scenario:".toList.isPrefixOf ('|' :: rest) = false := fun _ => rfl
  have h6 : ∀ rest, "|".toList.isPrefixOf ('|' :: rest) = true :=
    fun rest => isPrefixOf_append_closed _ ['|'] rest true (by decide)
  unfold matchToken
  simp only [hd, h1, h2, h3, h4, h5, h6]
  rw [if_neg (by simp)]
  simp only [Bool.false_eq_true, if_false, if_true]
  rw [getTableCells_first, getTableCells_cells _ h]

theorem matchToken_docStringSeparator :
    matchToken "\"\"\"".toList = GherkinToken.docStringSeparator 0 "" := by
  decide

/-! ## Round trip: the lines of the written text pass the token scanner -/

theorem isScanLine_append (p t : List Char) (hp : IsScanLine p) (ht : '\n' ∉ t)
    (hl : ∀ c, t.getLast? = some c → isWhiteSpace c = false) : IsScanLine (p ++ t) := by
  refine ⟨?_, ?_⟩
  · intro h
    rcases List.mem_append.mp h with h | h
    · exact hp.1 h
    · exact ht h
  · rw [List.getLast?_append]
    cases hlast : t.getLast? with
    | none => simpa using hp.2
    | some c =>
      have := hl c hlast
      intro hc
      have hc2 : c = '\r' := by simpa [Option.or] using hc
      rw [hc2] at this
      exact absurd this (by decide)

theorem isScanLine_lineText (p : List Char) (s : String) (hp : IsScanLine p)
    (h : isLineText s = true) : IsScanLine (p ++ s.toList) :=
  isScanLine_append p s.toList hp (isLineText_not_mem s h)
    (isTrimmed_last _ (isLineText_isTrimmed s h))

theorem isScanLine_tag (name : String) (h : isTagName name = true) : IsScanLine name.toList := by
  obtain ⟨rest, hname, _, hnl, htrim⟩ := isTagName_cases name h
  rw [hname]
  exact isScanLine_append ['@'] rest ⟨by decide, by decide⟩ hnl (isTrimmed_last _ htrim)

theorem isScanLine_keyword (keyword : String) (hk : stepKeywords.contains keyword = true) :
    IsScanLine keyword.toList := by
  have hmem : keyword ∈ stepKeywords := by simpa using hk
  simp only [stepKeywords, List.mem_cons, List.mem_singleton, List.not_mem_nil, or_false] at hmem
  rcases hmem with rfl | rfl | rfl | rfl | rfl | rfl <;> exact ⟨by decide, by decide⟩

theorem rowLine_eq_concat (row : TableRow) : ∃ body, rowLine row = body ++ ['|'] := by
  unfold rowLine
  rcases List.eq_nil_or_concat row.cells with h | ⟨init, last, h⟩
  · rw [h]
    exact ⟨[], rfl⟩
  · rw [h]
    refine ⟨'|' :: init.flatMap (fun cell => cell.value.toList ++ ['|']) ++ last.value.toList, ?_⟩
    simp

theorem isScanLine_row (row : TableRow) (h : ∀ cell ∈ row.cells, isPlainCell cell = true) :
    IsScanLine (rowLine row) := by
  refine ⟨?_, ?_⟩
  · unfold rowLine
    intro hm
    simp only [List.mem_cons, List.mem_flatMap, List.mem_append, List.mem_singleton] at hm
    rcases hm with hm | ⟨cell, hcell, hm | hm⟩
    · exact absurd hm (by decide)
    · exact (isPlainCell_cases cell (h cell hcell)).2.2.1 hm
    · exact absurd hm (by decide)
  · obtain ⟨body, hbody⟩ := rowLine_eq_concat row
    rw [hbody, List.getLast?_append]
    simp

theorem not_mem_of_mem_splitOnChar (sep : Char) (s cur l : List Char)
    (hcur : sep ∉ cur) (h : l ∈ splitOnChar sep s cur) : sep ∉ l := by
  induction s generalizing cur with
  | nil =>
    simp only [splitOnChar, List.mem_singleton] at h
    rw [h]
    simpa using hcur
  | cons c cs ih =>
    rw [splitOnChar] at h
    by_cases hc : c = sep
    · simp only [hc, beq_self_eq_true, if_true, List.mem_cons] at h
      rcases h with h | h
      · rw [h]
        simpa using hcur
      · exact ih [] (by simp) h
    · have hc2 : (c == sep) = false := by simpa using hc
      simp only [hc2, Bool.false_eq_true, if_false] at h
      refine ih (c :: cur) ?_ h
      intro hm
      rcases List.mem_cons.mp hm with hm | hm
      · exact hc hm.symm
      · exact hcur hm

theorem isPlainDocStringLine_cases (line : List Char) (h : isPlainDocStringLine line = true) :
    "\"\"\"".toList.isPrefixOf (line.dropWhile isWhiteSpace) = false ∧
    occursIn "\\\"\\\"\\\"".toList line = false ∧ line.getLast? ≠ some '\r' := by
  unfold isPlainDocStringLine at h
  simp only [Bool.and_eq_true, Bool.not_eq_true', beq_eq_false_iff_ne, ne_eq] at h
  exact ⟨h.1.1, h.1.2, h.2⟩

theorem isPlainStep_cases (step : Step) (h : isPlainStep step = true) :
    stepKeywords.contains step.keyword = true ∧ isLineText step.text = true ∧
      isPlainArgument step.argument = true := by
  unfold isPlainStep at h
  simp only [Bool.and_eq_true] at h
  exact ⟨h.1.1, h.1.2, h.2⟩

theorem isPlainArgument_dataTable (rows : List TableRow)
    (h : isPlainArgument (some (Argument.DataTable rows)) = true) :
    ∃ first more, rows = first :: more ∧
      ∀ row ∈ rows, row.cells.length = first.cells.length ∧
        ∀ cell ∈ row.cells, isPlainCell cell = true := by
  cases rows with
  | nil => exact absurd h (by simp [isPlainArgument])
  | cons first more =>
    refine ⟨first, more, rfl, ?_⟩
    intro row hrow
    simp only [isPlainArgument, List.all_eq_true, Bool.and_eq_true, beq_iff_eq] at h
    exact h row hrow

theorem isPlainArgument_docString (content : String)
    (h : isPlainArgument (some (Argument.DocString content)) = true) :
    ∀ line ∈ splitOnChar '\n' content.toList [], isPlainDocStringLine line = true := by
  intro line hline
  simp only [isPlainArgument, List.all_eq_true] at h
  exact h line hline

theorem isScanLine_step (step : Step) (h : isPlainStep step = true) :
    ∀ line ∈ stepLineList step, IsScanLine line := by
  obtain ⟨hk, ht, ha⟩ := isPlainStep_cases step h
  intro line hline
  unfold stepLineList at hline
  rcases List.mem_cons.mp hline with hline | hline
  · rw [hline]
    exact isScanLine_lineText _ _ (isScanLine_keyword _ hk) ht
  · cases harg : step.argument with
    | none => simp [harg] at hline
    | some arg =>
      rw [harg] at hline ha
      cases arg with
      | DataTable rows =>
        obtain ⟨first, more, _, hrows⟩ := isPlainArgument_dataTable rows ha
        simp only [List.mem_map] at hline
        obtain ⟨row, hrow, hl⟩ := hline
        rw [← hl]
        exact isScanLine_row row (hrows row hrow).2
      | DocString content =>
        have hlines := isPlainArgument_docString content ha
        simp only [List.mem_append, List.mem_singleton] at hline
        rcases hline with (hline | hline) | hline
        · rw [hline]
          exact ⟨by decide, by decide⟩
        · exact ⟨not_mem_of_mem_splitOnChar '\n' _ [] line (by simp) hline,
            (isPlainDocStringLine_cases line (hlines line hline)).2.2⟩
        · rw [hline]
          exact ⟨by decide, by decide⟩
      | Other type => simp at hline

theorem isTagList_cases (tags : Option (List Tag)) (h : isTagList tags = true) :
    ∃ ts, tags = some ts ∧ ∀ t ∈ ts, isTagName t.name = true := by
  cases tags with
  | none => exact absurd h (by simp [isTagList])
  | some ts =>
    refine ⟨ts, rfl, ?_⟩
    simpa [isTagList] using h

theorem isPlainScenario_cases (child : Scenario) (h : isPlainScenario child = true) :
    child.type = NodeType.Scenario ∧ child.keyword = "Scenario" ∧ isLineText child.name = true ∧
      isTagList child.tags = true ∧ (∀ step ∈ child.steps, isPlainStep step = true) ∧
      child.examples = none := by
  unfold isPlainScenario at h
  simp only [Bool.and_eq_true, beq_iff_eq, List.all_eq_true] at h
  obtain ⟨⟨⟨⟨⟨h1, h2⟩, h3⟩, h4⟩, h5⟩, h6⟩ := h
  exact ⟨h1, h2, h3, h4, h5, h6⟩

theorem isPlainBackground_cases (child : Scenario) (h : isPlainBackground child = true) :
    child.type = NodeType.Background ∧ child.keyword = "Background" ∧
      isLineText child.name = true ∧ child.tags = none ∧
      (∀ step ∈ child.steps, isPlainStep step = true) ∧ child.examples = none := by
  unfold isPlainBackground at h
  simp only [Bool.and_eq_true, beq_iff_eq, List.all_eq_true] at h
  obtain ⟨⟨⟨⟨⟨h1, h2⟩, h3⟩, h4⟩, h5⟩, h6⟩ := h
  exact ⟨h1, h2, h3, h4, h5, h6⟩

theorem isScanLine_tags (tags : List Tag) (h : ∀ t ∈ tags, isTagName t.name = true) :
    ∀ line ∈ tagLineList (some tags), IsScanLine line := by
  intro line hline
  simp only [tagLineList, Option.getD_some, List.mem_map] at hline
  obtain ⟨t, ht, hl⟩ := hline
  rw [← hl]
  exact isScanLine_tag _ (h t ht)

theorem isScanLine_steps (steps : List Step) (h : ∀ step ∈ steps, isPlainStep step = true) :
    ∀ line ∈ steps.flatMap stepLineList, IsScanLine line := by
  intro line hline
  obtain ⟨step, hstep, hl⟩ := List.mem_flatMap.mp hline
  exact isScanLine_step step (h step hstep) line hl

theorem isScanLine_scenario (child : Scenario) (h : isPlainScenario child = true) :
    ∀ line ∈ childLineList child, IsScanLine line := by
  obtain ⟨_, hk, hn, ht, hs, _⟩ := isPlainScenario_cases child h
  obtain ⟨ts, hts, htag⟩ := isTagList_cases _ ht
  intro line hline
  unfold childLineList at hline
  rw [hts, hk] at hline
  simp only [List.mem_append, List.mem_singleton] at hline
  rcases hline with (hline | hline) | hline
  · exact isScanLine_tags ts htag line hline
  · rw [hline, List.append_assoc]
    rw [show "Scenario".toList ++ (": ".toList ++ child.name.toList) =
      "Scenario: ".toList ++ child.name.toList from rfl]
    exact isScanLine_lineText _ _ ⟨by decide, by decide⟩ hn
  · exact isScanLine_steps _ hs line hline

theorem isScanLine_background (child : Scenario) (h : isPlainBackground child = true) :
    ∀ line ∈ childLineList child, IsScanLine line := by
  obtain ⟨_, hk, hn, ht, hs, _⟩ := isPlainBackground_cases child h
  intro line hline
  unfold childLineList at hline
  rw [ht, hk] at hline
  simp only [tagLineList, Option.getD_none, List.map_nil, List.nil_append, List.mem_append,
    List.mem_singleton] at hline
  rcases hline with hline | hline
  · rw [hline, List.append_assoc]
    rw [show "Background".toList ++ (": ".toList ++ child.name.toList) =
      "Background: ".toList ++ child.name.toList from rfl]
    exact isScanLine_lineText _ _ ⟨by decide, by decide⟩ hn
  · exact isScanLine_steps _ hs line hline

/-! ## Round trip: the parser on the lines of the written text -/

theorem parseLine_token (builder : AstBuilder) (line : List Char)
    (h : builder.docString = none) :
    parseLine builder line = parseToken builder (matchToken line) := by
  unfold parseLine
  simp only [h]

theorem parseLines_cons_some (builder next : AstBuilder) (line : List Char)
    (rest : List (List Char)) (h : parseLine builder line = some next) :
    parseLines builder (line :: rest) = parseLines next rest := by
  rw [parseLines, h]

theorem dropLast_append_getLast {α : Type} (l : List α) :
    l.dropLast ++ l.getLast?.toList = l := by
  rcases List.eq_nil_or_concat l with h | ⟨init, last, h⟩
  · rw [h]
    rfl
  · rw [h]
    simp

theorem closedChild_builderAt (f : List Tag × String) (fin : List Scenario) (c : Scenario) :
    (builderAt f fin c).closedChild = some c := by
  unfold builderAt AstBuilder.closedChild
  simp only [Option.map_some', dropLast_append_getLast]

theorem builderAt_concat (f : List Tag × String) (fin : List Scenario) (c : Scenario)
    (s : Step) :
    builderAt f fin { c with steps := c.steps ++ [s] } = openStep f fin c s none := by
  unfold builderAt openStep
  simp

theorem replaceFirst_of_not_occursIn (pattern replacement l : List Char)
    (hp : pattern.isEmpty = false) (h : occursIn pattern l = false) :
    replaceFirst pattern replacement l = l := by
  induction l with
  | nil => simp [replaceFirst, hp]
  | cons c cs ih =>
    simp only [occursIn, Bool.or_eq_false_iff] at h
    rw [replaceFirst]
    simp only [h.1, Bool.false_eq_true, if_false, ih h.2]

theorem parseLines_rows (f : List Tag × String) (fin : List Scenario) (c : Scenario)
    (k t : String) (first : TableRow) (acc rows : List TableRow) (rest : List (List Char))
    (h : ∀ row ∈ rows, row.cells.length = first.cells.length ∧
      ∀ cell ∈ row.cells, isPlainCell cell = true) :
    parseLines (openStep f fin c
        { keyword := k, text := t, argument := some (Argument.DataTable (first :: acc)) } none)
        (rows.map rowLine ++ rest) =
      parseLines (openStep f fin c
        { keyword := k, text := t, argument := some (Argument.DataTable (first :: acc ++ rows)) }
        none) rest := by
  induction rows generalizing acc with
  | nil => simp
  | cons row rows ih =>
    have hrow := h row (List.mem_cons_self row rows)
    rw [List.map_cons, List.cons_append]
    rw [parseLines_cons_some _ (openStep f fin c
      { keyword := k, text := t,
        argument := some (Argument.DataTable (first :: (acc ++ [row]))) } none)]
    · rw [ih (acc ++ [row]) (fun r hr => h r (List.mem_cons_of_mem row hr))]
      simp
    · rw [parseLine_token _ _ rfl, matchToken_row row hrow.2]
      simp [parseToken, openStep, hrow.1]

theorem parseLines_docLines (f : List Tag × String) (fin : List Scenario) (c : Scenario)
    (st : Step) (acc lines : List (List Char)) (rest : List (List Char))
    (h : ∀ line ∈ lines, isPlainDocStringLine line = true) :
    parseLines (openStep f fin c st (some (0, acc))) (lines ++ rest) =
      parseLines (openStep f fin c st (some (0, acc ++ lines))) rest := by
  induction lines generalizing acc with
  | nil => simp
  | cons line lines ih =>
    obtain ⟨h1, h2, _⟩ := isPlainDocStringLine_cases line (h line (List.mem_cons_self line lines))
    rw [List.cons_append]
    rw [parseLines_cons_some _ (openStep f fin c st (some (0, acc ++ [line])))]
    · rw [ih (acc ++ [line]) (fun r hr => h r (List.mem_cons_of_mem line hr))]
      simp
    · unfold parseLine
      simp only [openStep, h1, Bool.false_eq_true, if_false, Nat.not_lt_zero, gt_iff_lt,
        List.drop_zero]
      rw [replaceFirst_of_not_occursIn _ _ _ (by decide) h2]

theorem parseLine_docString_close (f : List Tag × String) (fin : List Scenario) (c : Scenario)
    (k t : String) (acc : List (List Char)) :
    parseLine (openStep f fin c { keyword := k, text := t, argument := none } (some (0, acc)))
        "\"\"\"".toList =
      some (openStep f fin c
        { keyword := k, text := t,
          argument := some (Argument.DocString (String.mk (List.intercalate ['\n'] acc))) }
        none) := by
  have hd : List.dropWhile isWhiteSpace "\"\"\"".toList = "\"\"\"".toList := by decide
  have hp : "\"\"\"".toList.isPrefixOf "\"\"\"".toList = true := by decide
  unfold parseLine
  simp only [openStep, hd, hp, if_true]

theorem parseLines_step (f : List Tag × String) (fin : List Scenario) (c : Scenario)
    (s : Step) (rest : List (List Char)) (hs : isPlainStep s = true) :
    parseLines (builderAt f fin c) (stepLineList s ++ rest) =
      parseLines (builderAt f fin { c with steps := c.steps ++ [s] }) rest := by
  obtain ⟨hk, ht, ha⟩ := isPlainStep_cases s hs
  obtain ⟨k, t, arg⟩ := s
  simp only at hk ht ha
  have hfirst : parseLine (builderAt f fin c) (k.toList ++ t.toList) =
      some (openStep f fin c { keyword := k, text := t, argument := none } none) := by
    rw [parseLine_token _ _ rfl, matchToken_step k t hk ht]
    simp only [parseToken, closedChild_builderAt]
    rfl
  rw [builderAt_concat]
  unfold stepLineList
  rw [List.cons_append, parseLines_cons_some _ _ _ _ hfirst]
  cases arg with
  | none => rfl
  | some arg =>
    cases arg with
    | DataTable rows =>
      obtain ⟨first, more, hrows, hall⟩ := isPlainArgument_dataTable rows ha
      subst hrows
      simp only [List.map_cons, List.cons_append]
      rw [parseLines_cons_some _ (openStep f fin c
        { keyword := k, text := t, argument := some (Argument.DataTable (first :: [])) } none)]
      · rw [parseLines_rows f fin c k t first [] more rest
          (fun r hr => hall r (List.mem_cons_of_mem first hr))]
        simp
      · rw [parseLine_token _ _ rfl,
          matchToken_row first (hall first (List.mem_cons_self first more)).2]
        simp [parseToken, openStep]
    | DocString content =>
      have hlines := isPlainArgument_docString content ha
      simp only [List.append_assoc, List.singleton_append, List.cons_append, List.nil_append]
      rw [parseLines_cons_some _ (openStep f fin c
        { keyword := k, text := t, argument := none } (some (0, [])))]
      · rw [parseLines_docLines f fin c _ [] _ _ hlines]
        rw [parseLines_cons_some _ _ _ _ (parseLine_docString_close f fin c k t _)]
        rw [List.nil_append, intercalate_splitOnChar]
        rfl
      · rw [parseLine_token _ _ rfl, matchToken_docStringSeparator]
        simp [parseToken, openStep]
    | Other type => exact absurd ha (by simp [isPlainArgument])

theorem parseLines_steps (f : List Tag × String) (fin : List Scenario) (c : Scenario)
    (steps : List Step) (rest : List (List Char))
    (hs : ∀ step ∈ steps, isPlainStep step = true) :
    parseLines (builderAt f fin c) (steps.flatMap stepLineList ++ rest) =
      parseLines (builderAt f fin { c with steps := c.steps ++ steps }) rest := by
  induction steps generalizing c with
  | nil => simp
  | cons s steps ih =>
    rw [List.flatMap_cons, List.append_assoc,
      parseLines_step f fin c s _ (hs s (List.mem_cons_self s steps)),
      ih _ (fun x hx => hs x (List.mem_cons_of_mem s hx))]
    simp

theorem scenario_steps_append_nil (c : Scenario) : { c with steps := c.steps ++ [] } = c := by
  cases c
  simp

theorem parseLines_tags (b : AstBuilder) (ts : List Tag) (rest : List (List Char))
    (hd : b.docString = none) (h : ∀ t ∈ ts, isTagName t.name = true) :
    ∃ next, parseLines b (tagLineList (some ts) ++ rest) = parseLines next rest ∧
      next.feature = b.feature ∧ next.children = b.children ∧
      next.pendingTags = b.pendingTags ++ ts ∧ next.docString = none := by
  induction ts generalizing b with
  | nil => exact ⟨b, rfl, rfl, rfl, by simp, hd⟩
  | cons t ts ih =>
    have hstep : parseLine b t.name.toList =
        some { b with current := b.closedChild, step := none,
                      pendingTags := b.pendingTags ++ [t] } := by
      rw [parseLine_token _ _ hd, matchToken_tag _ (h t (List.mem_cons_self t ts))]
      rfl
    obtain ⟨next, h1, h2, h3, h4, h5⟩ := ih
      { b with current := b.closedChild, step := none, pendingTags := b.pendingTags ++ [t] }
      hd (fun x hx => h x (List.mem_cons_of_mem t hx))
    refine ⟨next, ?_, h2, ?_, ?_, h5⟩
    · simp only [tagLineList, Option.getD_some, List.map_cons, List.cons_append] at h1 ⊢
      rw [parseLines_cons_some _ _ _ _ hstep]
      exact h1
    · rw [h3]
      unfold AstBuilder.children AstBuilder.closedChild
      cases hcur : b.current with
      | none => simp
      | some c => simp
    · rw [h4]
      simp

theorem builderAt_children (f : List Tag × String) (fin : List Scenario) (c : Scenario) :
    (builderAt f fin c).children = fin ++ [c] := by
  unfold AstBuilder.children
  rw [closedChild_builderAt]
  rfl

theorem parseLines_scenario (b : AstBuilder) (f : List Tag × String) (c : Scenario)
    (rest : List (List Char)) (hf : b.feature = some f) (hd : b.docString = none)
    (hp : b.pendingTags = []) (hc : isPlainScenario c = true) :
    parseLines b (childLineList c ++ rest) = parseLines (builderAt f b.children c) rest := by
  obtain ⟨hty, hk, hn, ht, hs, hex⟩ := isPlainScenario_cases c hc
  obtain ⟨ts, hts, htag⟩ := isTagList_cases _ ht
  unfold childLineList
  rw [hts, hk, List.append_assoc, List.append_assoc]
  obtain ⟨next, h1, h2, h3, h4, h5⟩ := parseLines_tags b ts
    (["Scenario".toList ++ ": ".toList ++ c.name.toList] ++
      (c.steps.flatMap stepLineList ++ rest)) hd htag
  rw [h1, List.singleton_append]
  have hhead : parseLine next ("Scenario".toList ++ ": ".toList ++ c.name.toList) =
      some (builderAt f b.children { c with steps := [] }) := by
    rw [parseLine_token _ _ h5, matchToken_scenario _ hn]
    simp only [parseToken, h2, hf, h3, h4, hp, List.nil_append]
    obtain ⟨nf, nfin, ncur, nstep, ndoc, npend⟩ := next
    simp only at h2 h5
    simp only [builderAt, h2, hf, h5, List.dropLast_nil, List.getLast?_nil, hts, hty, hk, hex]
  rw [parseLines_cons_some _ _ _ _ hhead, parseLines_steps _ _ _ _ _ hs]
  simp only [List.nil_append]

theorem parseLines_background (b : AstBuilder) (f : List Tag × String) (c : Scenario)
    (rest : List (List Char)) (hf : b.feature = some f) (hd : b.docString = none)
    (hp : b.pendingTags = []) (hch : b.children = []) (hc : isPlainBackground c = true) :
    parseLines b (childLineList c ++ rest) = parseLines (builderAt f [] c) rest := by
  obtain ⟨hty, hk, hn, ht, hs, hex⟩ := isPlainBackground_cases c hc
  unfold childLineList
  rw [ht, hk]
  simp only [tagLineList, Option.getD_none, List.map_nil, List.nil_append, List.append_assoc,
    List.singleton_append]
  have hfin : b.finished = [] := by
    unfold AstBuilder.children at hch
    exact (List.append_eq_nil.mp hch).1
  have hhead : parseLine b ("Background".toList ++ (": ".toList ++ c.name.toList)) =
      some (builderAt f [] { c with steps := [] }) := by
    rw [← List.append_assoc, parseLine_token _ _ hd, matchToken_background _ hn]
    simp only [parseToken, hf, hch, hp]
    obtain ⟨nf, nfin, ncur, nstep, ndoc, npend⟩ := b
    simp only at hf hd hp hfin
    simp only [builderAt, hf, hd, hp, hfin, List.dropLast_nil, List.getLast?_nil, ht, hty, hk, hex]
  rw [List.cons_append, parseLines_cons_some _ _ _ _ hhead, parseLines_steps _ _ _ _ _ hs]
  simp only [List.nil_append]

theorem parseLines_scenarios (b : AstBuilder) (f : List Tag × String) (cs : List Scenario)
    (rest : List (List Char)) (hf : b.feature = some f) (hd : b.docString = none)
    (hp : b.pendingTags = []) (hc : ∀ c ∈ cs, isPlainScenario c = true) :
    ∃ next, parseLines b (cs.flatMap childLineList ++ rest) = parseLines next rest ∧
      next.feature = some f ∧ next.docString = none ∧ next.pendingTags = [] ∧
      next.children = b.children ++ cs := by
  induction cs generalizing b with
  | nil => exact ⟨b, rfl, hf, hd, hp, by simp⟩
  | cons c cs ih =>
    obtain ⟨next, h1, h2, h3, h4, h5⟩ := ih (builderAt f b.children c) rfl rfl rfl
      (fun x hx => hc x (List.mem_cons_of_mem c hx))
    refine ⟨next, ?_, h2, h3, h4, ?_⟩
    · rw [List.flatMap_cons, List.append_assoc,
        parseLines_scenario b f c _ hf hd hp (hc c (List.mem_cons_self c cs))]
      exact h1
    · rw [h5, builderAt_children]
      simp

theorem isPlainFeature_cases (feature : Feature) (h : isPlainFeature feature = true) :
    feature.type = "Feature" ∧ isLineText feature.name = true ∧
      isTagList feature.tags = true ∧
      (feature.children = [] ∨
        ∃ first rest, feature.children = first :: rest ∧
          (isPlainBackground first = true ∨ isPlainScenario first = true) ∧
          ∀ c ∈ rest, isPlainScenario c = true) := by
  unfold isPlainFeature at h
  simp only [Bool.and_eq_true, beq_iff_eq] at h
  obtain ⟨⟨⟨h1, h2⟩, h3⟩, h4⟩ := h
  refine ⟨h1, h2, h3, ?_⟩
  cases hch : feature.children with
  | nil => exact Or.inl rfl
  | cons first rest =>
    rw [hch] at h4
    simp only [Bool.and_eq_true, Bool.or_eq_true, List.all_eq_true] at h4
    exact Or.inr ⟨first, rest, rfl, h4.1, h4.2⟩

theorem parseLines_children (b : AstBuilder) (f : List Tag × String) (feature : Feature)
    (hf : b.feature = some f) (hd : b.docString = none) (hp : b.pendingTags = [])
    (hch : b.children = []) (h : isPlainFeature feature = true) :
    ∃ next, parseLines b (feature.children.flatMap childLineList) = some next ∧
      next.feature = some f ∧ next.docString = none ∧ next.pendingTags = [] ∧
      next.children = feature.children := by
  obtain ⟨_, _, _, hchildren⟩ := isPlainFeature_cases feature h
  rcases hchildren with hnil | ⟨first, rest, hcons, hfirst, hrest⟩
  · rw [hnil]
    exact ⟨b, rfl, hf, hd, hp, hch⟩
  · rw [hcons, List.flatMap_cons]
    rcases hfirst with hbg | hsc
    · obtain ⟨next, h1, h2, h3, h4, h5⟩ := parseLines_scenarios (builderAt f [] first) f rest []
        rfl rfl rfl hrest
      refine ⟨next, ?_, h2, h3, h4, ?_⟩
      · rw [parseLines_background b f first _ hf hd hp hch hbg]
        rw [← List.append_nil (rest.flatMap childLineList), h1]
        rfl
      · rw [h5, builderAt_children]
        simp
    · obtain ⟨next, h1, h2, h3, h4, h5⟩ := parseLines_scenarios b f (first :: rest) []
        hf hd hp (by
          intro c hmem
          rcases List.mem_cons.mp hmem with hmem | hmem
          · rw [hmem]
            exact hsc
          · exact hrest c hmem)
      refine ⟨next, ?_, h2, h3, h4, ?_⟩
      · rw [List.flatMap_cons, List.append_nil] at h1
        rw [h1]
        rfl
      · rw [h5, hch]
        simp

theorem parseLines_featureLineList (feature : Feature) (ftags : List Tag)
    (htags : feature.tags = some ftags) (h : isPlainFeature feature = true) :
    ∃ next, parseLines initialBuilder (featureLineList feature) = some next ∧
      next.feature = some (ftags, feature.name) ∧ next.docString = none ∧
      next.pendingTags = [] ∧ next.children = feature.children := by
  obtain ⟨hty, hn, ht, _⟩ := isPlainFeature_cases feature h
  obtain ⟨ts, hts, htag⟩ := isTagList_cases _ ht
  have hts2 : ts = ftags := by
    rw [hts] at htags
    exact Option.some.inj htags
  subst hts2
  unfold featureLineList
  rw [hts, hty, List.append_assoc]
  obtain ⟨b1, h1, h2, h3, h4, h5⟩ := parseLines_tags initialBuilder ts
    (["Feature".toList ++ ": ".toList ++ feature.name.toList] ++
      feature.children.flatMap childLineList) rfl htag
  rw [h1, List.singleton_append]
  have h2 : b1.feature = none := h2
  have h4 : b1.pendingTags = ts := by
    rw [h4]
    rfl
  have hhead : parseLine b1 ("Feature".toList ++ ": ".toList ++ feature.name.toList) =
      some { b1 with feature := some (ts, feature.name), pendingTags := [] } := by
    rw [parseLine_token _ _ h5, matchToken_feature _ hn]
    simp only [parseToken, h2, h4]
  rw [parseLines_cons_some _ _ _ _ hhead]
  exact parseLines_children _ (ts, feature.name) feature rfl h5 rfl (by
    have h6 : b1.children = [] := h3
    exact h6) h

theorem isPlainFeature_examples (feature : Feature) (h : isPlainFeature feature = true) :
    ∀ child ∈ feature.children, child.examples = none := by
  obtain ⟨_, _, _, hchildren⟩ := isPlainFeature_cases feature h
  intro child hchild
  rcases hchildren with hnil | ⟨first, rest, hcons, hfirst, hrest⟩
  · rw [hnil] at hchild
    exact absurd hchild (List.not_mem_nil child)
  · rw [hcons] at hchild
    rcases List.mem_cons.mp hchild with hc | hc
    · rw [hc]
      rcases hfirst with hbg | hsc
      · exact (isPlainBackground_cases first hbg).2.2.2.2.2
      · exact (isPlainScenario_cases first hsc).2.2.2.2.2
    · exact (isPlainScenario_cases child (hrest child hc)).2.2.2.2.2

theorem isScanLine_feature (feature : Feature) (h : isPlainFeature feature = true) :
    ∀ line ∈ featureLineList feature, IsScanLine line := by
  obtain ⟨hty, hn, ht, hchildren⟩ := isPlainFeature_cases feature h
  obtain ⟨ts, hts, htag⟩ := isTagList_cases _ ht
  intro line hline
  unfold featureLineList at hline
  rw [hts, hty] at hline
  simp only [List.mem_append, List.mem_singleton, List.mem_flatMap] at hline
  rcases hline with (hline | hline) | ⟨child, hchild, hline⟩
  · exact isScanLine_tags ts htag line hline
  · rw [hline, List.append_assoc]
    rw [show "Feature".toList ++ (": ".toList ++ feature.name.toList) =
      "Feature: ".toList ++ feature.name.toList from rfl]
    exact isScanLine_lineText _ _ ⟨by decide, by decide⟩ hn
  · rcases hchildren with hnil | ⟨first, rest, hcons, hfirst, hrest⟩
    · rw [hnil] at hchild
      exact absurd hchild (List.not_mem_nil child)
    · rw [hcons] at hchild
      rcases List.mem_cons.mp hchild with hc | hc
      · rw [hc] at hline
        rcases hfirst with hbg | hsc
        · exact isScanLine_background first hbg line hline
        · exact isScanLine_scenario first hsc line hline
      · exact isScanLine_scenario child (hrest child hc) line hline

/-- The parser reads the text of a plain feature back as the feature itself,
the keyword of the feature node being the type tag that the header line was
written with. -/
theorem parseGherkin_featureLayout (feature : Feature) (h : isPlainFeature feature = true) :
    parseGherkin (featureLayout feature) =
      some { feature := { feature with keyword := "Feature" } } := by
  obtain ⟨hty, _, ht, _⟩ := isPlainFeature_cases feature h
  obtain ⟨ts, hts, _⟩ := isTagList_cases _ ht
  obtain ⟨next, h1, h2, h3, h4, h5⟩ := parseLines_featureLineList feature ts hts h
  unfold parseGherkin
  rw [featureLayout_toList feature (isPlainFeature_examples feature h),
    scanLines_unlines _ (isScanLine_feature feature h), h1]
  simp only [h2, h3, h4, h5]
  obtain ⟨fty, ftags, fkw, fname, fchildren⟩ := feature
  simp only at hty hts
  simp only [hty, hts]

theorem filter_plain_scenarios (cs : List Scenario) (h : ∀ c ∈ cs, isPlainScenario c = true) :
    cs.filter (fun scenario => scenario.type != NodeType.Background) = cs := by
  rw [List.filter_eq_self]
  intro c hc
  rw [(isPlainScenario_cases c (h c hc)).1]
  rfl

theorem plain_children_shape (doc : GherkinDocument) (scenario : Scenario)
    (hplain : isPlainFeature doc.feature = true) (hchildren : scenarioChildren doc = [scenario]) :
    isPlainScenario scenario = true ∧
      (doc.feature.children = [scenario] ∨
        ∃ background, isPlainBackground background = true ∧
          doc.feature.children = [background, scenario]) := by
  obtain ⟨_, _, _, hshape⟩ := isPlainFeature_cases doc.feature hplain
  unfold scenarioChildren at hchildren
  rcases hshape with hnil | ⟨first, rest, hcons, hfirst, hrest⟩
  · rw [hnil] at hchildren
    exact absurd hchildren (by simp)
  · rw [hcons] at hchildren
    rcases hfirst with hbg | hsc
    · have hty := (isPlainBackground_cases first hbg).1
      rw [List.filter_cons_of_neg (by simp [hty]), filter_plain_scenarios rest hrest] at hchildren
      rw [hchildren] at hrest hcons
      exact ⟨hrest scenario (List.mem_singleton_self scenario),
        Or.inr ⟨first, hbg, hcons⟩⟩
    · have hall : ∀ c ∈ first :: rest, isPlainScenario c = true := by
        intro c hmem
        rcases List.mem_cons.mp hmem with hmem | hmem
        · rw [hmem]
          exact hsc
        · exact hrest c hmem
      rw [filter_plain_scenarios _ hall] at hchildren
      rw [hchildren] at hcons
      have hfs : first = scenario := (List.cons.inj hchildren).1
      rw [hfs] at hsc
      exact ⟨hsc, Or.inl hcons⟩

theorem isPlainScenario_with_tags (scenario : Scenario) (stags ftags : List Tag)
    (h : isPlainScenario scenario = true) (hs : scenario.tags = some stags)
    (hf : ∀ t ∈ ftags, isTagName t.name = true) :
    isPlainScenario { scenario with tags := some (stags ++ ftags) } = true := by
  obtain ⟨hty, hk, hn, ht, hsteps, hex⟩ := isPlainScenario_cases scenario h
  obtain ⟨ts, hts, htag⟩ := isTagList_cases _ ht
  rw [hs] at hts
  have hts2 := Option.some.inj hts
  subst hts2
  unfold isPlainScenario
  simp only [hty, hk, hn, hex, beq_self_eq_true, Bool.true_and, Bool.and_true, isTagList,
    List.all_append, Bool.and_eq_true, List.all_eq_true]
  exact ⟨⟨htag, hf⟩, hsteps⟩

/-! ## Round trip: what the parser records -/

theorem contains_of_not_mem (l : List Char) (c : Char) (h : c ∉ l) : l.contains c = false := by
  simpa using h

theorem isTrimmed_trim (l : List Char) : isTrimmed (trim l) = true := by
  obtain ⟨_, _, _, _, _, hhead, hlast⟩ := trim_isTrimOf l
  unfold isTrimmed
  cases h1 : (trim l).head? with
  | none =>
    cases h2 : (trim l).getLast? with
    | none => rfl
    | some d => simp [hlast d h2]
  | some c =>
    cases h2 : (trim l).getLast? with
    | none => simp [hhead c h1]
    | some d => simp [hhead c h1, hlast d h2]

theorem mem_of_mem_trim (l : List Char) (c : Char) (h : c ∈ trim l) : c ∈ l := by
  unfold trim at h
  rw [List.mem_reverse] at h
  have h2 := (List.dropWhile_sublist isWhiteSpace).subset h
  rw [List.mem_reverse] at h2
  exact (List.dropWhile_sublist isWhiteSpace).subset h2

theorem isLineText_getRestTrimmed (l : List Char) (n : Nat) (h : '\n' ∉ l) :
    isLineText (getRestTrimmed l n) = true := by
  unfold isLineText getRestTrimmed
  have h1 : '\n' ∉ trim (l.drop n) := fun hm =>
    h (List.mem_of_mem_drop (mem_of_mem_trim _ _ hm))
  have h2 : (String.mk (trim (l.drop n))).toList = trim (l.drop n) := rfl
  rw [h2, isTrimmed_trim, Bool.and_true, contains_of_not_mem _ _ h1]
  rfl

theorem mem_of_mem_splitOnChar (sep : Char) (s cur l : List Char) (c : Char)
    (h : l ∈ splitOnChar sep s cur) (hc : c ∈ l) : c ∈ cur ∨ c ∈ s := by
  induction s generalizing cur with
  | nil =>
    simp only [splitOnChar, List.mem_singleton] at h
    rw [h] at hc
    exact Or.inl (List.mem_reverse.mp hc)
  | cons d ds ih =>
    rw [splitOnChar] at h
    by_cases hd : d = sep
    · simp only [hd, beq_self_eq_true, if_true, List.mem_cons] at h
      rcases h with h | h
      · rw [h] at hc
        exact Or.inl (List.mem_reverse.mp hc)
      · rcases ih [] h with h2 | h2
        · exact absurd h2 (List.not_mem_nil c)
        · exact Or.inr (List.mem_cons_of_mem d h2)
    · have hd2 : (d == sep) = false := by simpa using hd
      simp only [hd2, Bool.false_eq_true, if_false] at h
      rcases ih (d :: cur) h with h2 | h2
      · rcases List.mem_cons.mp h2 with h3 | h3
        · exact Or.inr (by rw [h3]; exact List.mem_cons_self d ds)
        · exact Or.inl h3
      · exact Or.inr (List.mem_cons_of_mem d h2)

theorem isTagName_getTags (l : List Char) (h : '\n' ∉ l) :
    ∀ tag ∈ getTags l, isTagName tag.name = true := by
  intro tag htag
  unfold getTags at htag
  obtain ⟨item, hitem, hname⟩ := List.mem_map.mp htag
  have hitem2 : item ∈ splitOnChar '@' (trim l) [] := List.mem_of_mem_drop hitem
  have hat : '@' ∉ item := not_mem_of_mem_splitOnChar '@' _ [] item (by simp) hitem2
  have hnl : '\n' ∉ item := by
    intro hm
    rcases mem_of_mem_splitOnChar '@' _ [] item '\n' hitem2 hm with h2 | h2
    · exact absurd h2 (List.not_mem_nil _)
    · exact h (mem_of_mem_trim _ _ h2)
  rw [← hname]
  unfold isTagName
  have h2 : (String.mk ('@' :: trim item)).toList = '@' :: trim item := rfl
  rw [h2]
  have h3 : '@' ∉ trim item := fun hm => hat (mem_of_mem_trim _ _ hm)
  have h4 : '\n' ∉ trim item := fun hm => hnl (mem_of_mem_trim _ _ hm)
  simp only [beq_self_eq_true, Bool.true_and, isTrimmed_trim, Bool.and_true,
    contains_of_not_mem _ _ h3, contains_of_not_mem _ _ h4, Bool.not_false]

theorem isTrimmed_getTableCells (n : Nat) :
    ∀ (cs cell : List Char) (firstCell : Bool), cs.length ≤ n →
      ∀ c ∈ getTableCells cs cell firstCell, isTrimmed c.value.toList = true := by
  induction n using Nat.strong_induction_on with
  | _ n ih =>
    intro cs cell firstCell hlen c hc
    cases cs with
    | nil => simp [getTableCells] at hc
    | cons d ds =>
      have hds : ds.length < n := by
        simp only [List.length_cons] at hlen
        omega
      rw [getTableCells.eq_def] at hc
      simp only at hc
      split at hc
      · split at hc
        · exact ih ds.length hds ds [] false (Nat.le_refl _) c hc
        · rcases List.mem_cons.mp hc with hc | hc
          · rw [hc]
            exact isTrimmed_trim _
          · exact ih ds.length hds ds [] false (Nat.le_refl _) c hc
      · split at hc
        · cases ds with
          | nil => simp at hc
          | cons e es =>
            have hes : es.length < n := by
              simp only [List.length_cons] at hlen
              omega
            simp only at hc
            split at hc
            · exact ih es.length hes es _ firstCell (Nat.le_refl _) c hc
            · split at hc
              · exact ih es.length hes es _ firstCell (Nat.le_refl _) c hc
              · exact ih es.length hes es _ firstCell (Nat.le_refl _) c hc
        · exact ih ds.length hds ds _ firstCell (Nat.le_refl _) c hc

/-- What the token matcher returns on a line without line feed is as the parser
records it. -/
theorem matchToken_recorded (line : List Char) (h : '\n' ∉ line) :
    IsRecordedToken (matchToken line) := by
  have hd : '\n' ∉ line.dropWhile isWhiteSpace := fun hm =>
    h ((List.dropWhile_sublist isWhiteSpace).subset hm)
  unfold matchToken
  simp only
  split
  · trivial
  · split
    · trivial
    · split
      · exact isTagName_getTags _ hd
      · split
        · exact isLineText_getRestTrimmed _ _ hd
        · split
          · exact isLineText_getRestTrimmed _ _ hd
          · split
            · exact isLineText_getRestTrimmed _ _ hd
            · split
              · exact isTrimmed_getTableCells _ _ _ _ (Nat.le_refl _)
              · split
                · trivial
                · split
                  · rename_i keyword hfind
                    refine ⟨?_, isLineText_getRestTrimmed _ _ hd⟩
                    have := List.mem_of_find?_eq_some hfind
                    simpa using this
                  · trivial

theorem recorded_closedChild (b : AstBuilder) (hb : IsRecordedBuilder b) :
    ∀ child, b.closedChild = some child →
      IsRecordedScenario child ∨ (b.finished = [] ∧ IsRecordedBackground child) := by
  obtain ⟨_, _, hS, hC, _, _⟩ := hb
  intro child hchild
  unfold AstBuilder.closedChild at hchild
  cases hcur : b.current with
  | none => rw [hcur] at hchild; exact absurd hchild (by simp)
  | some c =>
    rw [hcur] at hchild
    simp only [Option.map_some', Option.some.injEq] at hchild
    have hsteps : ∀ step ∈ c.steps ++ b.step.toList, IsRecordedStep step →
        IsRecordedStep step := fun _ _ h => h
    have hstep : ∀ step ∈ b.step.toList, IsRecordedStep step := by
      intro step hstep
      exact hS step (by simpa using hstep)
    rcases hC c hcur with h | ⟨hfin, h⟩
    · left
      obtain ⟨h1, h2, h3, h4, h5, h6⟩ := h
      rw [← hchild]
      refine ⟨h1, h2, h3, h4, ?_, h6⟩
      intro step hmem
      rcases List.mem_append.mp hmem with hmem | hmem
      · exact h5 step hmem
      · exact hstep step hmem
    · right
      obtain ⟨h1, h2, h3, h4, h5, h6⟩ := h
      rw [← hchild]
      refine ⟨hfin, h1, h2, h3, h4, ?_, h6⟩
      intro step hmem
      rcases List.mem_append.mp hmem with hmem | hmem
      · exact h5 step hmem
      · exact hstep step hmem

theorem recorded_children_head (b : AstBuilder) (hb : IsRecordedBuilder b) :
    ∀ child, b.children.head? = some child →
      IsRecordedScenario child ∨ IsRecordedBackground child := by
  have hclosed := recorded_closedChild b hb
  obtain ⟨_, _, _, _, hH, _⟩ := hb
  intro child hchild
  unfold AstBuilder.children at hchild
  cases hfin : b.finished with
  | nil =>
    rw [hfin, List.nil_append] at hchild
    cases hcl : b.closedChild with
    | none => rw [hcl] at hchild; exact absurd hchild (by simp)
    | some c =>
      rw [hcl] at hchild
      simp only [Option.toList_some, List.head?_cons, Option.some.injEq] at hchild
      rw [← hchild]
      rcases hclosed c hcl with h | ⟨_, h⟩
      · exact Or.inl h
      · exact Or.inr h
  | cons f fs =>
    rw [hfin] at hchild
    simp only [List.cons_append, List.head?_cons, Option.some.injEq] at hchild
    exact hH child (by rw [hfin, ← hchild]; rfl)

theorem recorded_children_tail (b : AstBuilder) (hb : IsRecordedBuilder b) :
    ∀ child ∈ b.children.tail, IsRecordedScenario child := by
  have hclosed := recorded_closedChild b hb
  obtain ⟨_, _, _, _, _, hT⟩ := hb
  intro child hchild
  unfold AstBuilder.children at hchild
  cases hfin : b.finished with
  | nil =>
    rw [hfin, List.nil_append] at hchild
    cases hcl : b.closedChild with
    | none => rw [hcl] at hchild; exact absurd hchild (by simp)
    | some c => rw [hcl] at hchild; exact absurd hchild (by simp)
  | cons f fs =>
    rw [hfin] at hchild hT
    simp only [List.cons_append, List.tail_cons, List.mem_append] at hchild hT
    rcases hchild with h | h
    · exact hT child h
    · cases hcl : b.closedChild with
      | none => rw [hcl] at h; exact absurd h (by simp)
      | some c =>
        rw [hcl] at h
        simp only [Option.toList_some, List.mem_singleton] at h
        rw [h]
        rcases hclosed c hcl with h2 | ⟨h2, _⟩
        · exact h2
        · rw [hfin] at h2
          exact absurd h2 (by simp)

theorem parseToken_recorded (b next : AstBuilder) (token : GherkinToken)
    (hb : IsRecordedBuilder b) (ht : IsRecordedToken token)
    (h : parseToken b token = some next) : IsRecordedBuilder next := by
  have hclosed := recorded_closedChild b hb
  have hhead := recorded_children_head b hb
  have htail := recorded_children_tail b hb
  obtain ⟨hF, hP, hS, hC, hH, hT⟩ := hb
  cases token with
  | empty =>
    simp only [parseToken, Option.some.injEq] at h
    rw [← h]
    exact ⟨hF, hP, hS, hC, hH, hT⟩
  | tagLine tags =>
    simp only [parseToken, Option.some.injEq] at h
    rw [← h]
    refine ⟨hF, ?_, ?_, hclosed, hH, hT⟩
    · intro tag hmem
      rcases List.mem_append.mp hmem with hmem | hmem
      · exact hP tag hmem
      · exact ht tag hmem
    · intro step hstep
      exact absurd hstep (by simp)
  | featureLine name =>
    simp only [parseToken] at h
    split at h
    · exact absurd h (by simp)
    · simp only [Option.some.injEq] at h
      rw [← h]
      refine ⟨?_, ?_, hS, hC, hH, hT⟩
      · intro f hf
        simp only [Option.some.injEq] at hf
        rw [← hf]
        exact ⟨hP, ht⟩
      · intro tag hmem
        exact absurd hmem (List.not_mem_nil tag)
  | backgroundLine name =>
    simp only [parseToken] at h
    split at h
    · rename_i hfeat hch hpend
      simp only [Option.some.injEq] at h
      rw [← h]
      have hfin : b.finished = [] := by
        unfold AstBuilder.children at hch
        exact (List.append_eq_nil.mp hch).1
      refine ⟨hF, hP, ?_, ?_, hH, hT⟩
      · intro step hstep
        exact absurd hstep (by simp)
      · intro child hchild
        simp only [Option.some.injEq] at hchild
        rw [← hchild]
        exact Or.inr ⟨hfin, rfl, rfl, ht, rfl, fun _ hm => absurd hm (List.not_mem_nil _), rfl⟩
    · exact absurd h (by simp)
  | scenarioLine name =>
    simp only [parseToken] at h
    split at h
    · exact absurd h (by simp)
    · simp only [Option.some.injEq] at h
      rw [← h]
      refine ⟨hF, ?_, ?_, ?_, hhead, htail⟩
      · intro tag hmem
        exact absurd hmem (List.not_mem_nil tag)
      · intro step hstep
        exact absurd hstep (by simp)
      · intro child hchild
        simp only [Option.some.injEq] at hchild
        rw [← hchild]
        refine Or.inl ⟨rfl, rfl, ht, ?_, fun _ hm => absurd hm (List.not_mem_nil _), rfl⟩
        simp only [isTagList, List.all_eq_true]
        exact hP
  | stepLine keyword text =>
    simp only [parseToken] at h
    split at h
    · rename_i child hcl hpend
      simp only [Option.some.injEq] at h
      rw [← h]
      refine ⟨hF, hP, ?_, ?_, hH, hT⟩
      · intro step hstep
        simp only [Option.some.injEq] at hstep
        rw [← hstep]
        exact ⟨ht.1, ht.2, rfl⟩
      · intro c hc
        simp only [Option.some.injEq] at hc
        rw [← hc]
        exact hclosed child hcl
    · exact absurd h (by simp)
  | tableRow cells =>
    simp only [parseToken] at h
    split at h
    · rename_i step hstep hpend
      obtain ⟨hk, htext, harg⟩ := hS step hstep
      split at h
      · simp only [Option.some.injEq] at h
        rw [← h]
        refine ⟨hF, hP, ?_, hC, hH, hT⟩
        intro s hs
        simp only [Option.some.injEq] at hs
        rw [← hs]
        refine ⟨hk, htext, ?_⟩
        simp only [isRecordedArgument, List.all_cons, List.all_nil, beq_self_eq_true,
          Bool.true_and, Bool.and_true, List.all_eq_true]
        exact ht
      · rename_i first rows harg2
        split at h
        · rename_i hlen
          simp only [Option.some.injEq] at h
          rw [← h]
          refine ⟨hF, hP, ?_, hC, hH, hT⟩
          intro s hs
          simp only [Option.some.injEq] at hs
          rw [← hs]
          refine ⟨hk, htext, ?_⟩
          rw [harg2] at harg
          simp only [List.cons_append, isRecordedArgument, List.all_cons, List.all_append,
            List.all_nil, beq_self_eq_true, Bool.true_and, Bool.and_true, Bool.and_eq_true,
            List.all_eq_true, beq_iff_eq] at harg ⊢
          exact ⟨harg.1, harg.2, hlen, ht⟩
        · exact absurd h (by simp)
      · exact absurd h (by simp)
    · exact absurd h (by simp)
  | docStringSeparator indent contentType =>
    simp only [parseToken] at h
    split at h
    · split at h
      · split at h
        · simp only [Option.some.injEq] at h
          rw [← h]
          exact ⟨hF, hP, hS, hC, hH, hT⟩
        · exact absurd h (by simp)
      · exact absurd h (by simp)
    · exact absurd h (by simp)
  | other => exact absurd h (by simp [parseToken])

theorem parseLine_recorded (b next : AstBuilder) (line : List Char)
    (hb : IsRecordedBuilder b) (hl : '\n' ∉ line)
    (h : parseLine b line = some next) : IsRecordedBuilder next := by
  unfold parseLine at h
  simp only at h
  split at h
  · obtain ⟨hF, hP, hS, hC, hH, hT⟩ := hb
    split at h
    · split at h
      · rename_i step hstep
        obtain ⟨hk, htext, _⟩ := hS step hstep
        simp only [Option.some.injEq] at h
        rw [← h]
        refine ⟨hF, hP, ?_, hC, hH, hT⟩
        intro s hs
        simp only [Option.some.injEq] at hs
        rw [← hs]
        exact ⟨hk, htext, rfl⟩
      · exact absurd h (by simp)
    · simp only [Option.some.injEq] at h
      rw [← h]
      exact ⟨hF, hP, hS, hC, hH, hT⟩
  · exact parseToken_recorded b next _ hb (matchToken_recorded line hl) h

theorem parseLines_recorded (b next : AstBuilder) (lines : List (List Char))
    (hb : IsRecordedBuilder b) (hl : ∀ line ∈ lines, '\n' ∉ line)
    (h : parseLines b lines = some next) : IsRecordedBuilder next := by
  induction lines generalizing b with
  | nil =>
    simp only [parseLines, Option.some.injEq] at h
    rw [← h]
    exact hb
  | cons line rest ih =>
    rw [parseLines] at h
    cases hline : parseLine b line with
    | none => rw [hline] at h; exact absurd h (by simp)
    | some mid =>
      rw [hline] at h
      exact ih mid (parseLine_recorded b mid line hb (hl line (List.mem_cons_self line rest))
        hline) (fun l hm => hl l (List.mem_cons_of_mem line hm)) h

theorem not_mem_of_mem_splitLines (s cur l : List Char) (hcur : '\n' ∉ cur)
    (h : l ∈ splitLines s cur) : '\n' ∉ l := by
  induction s generalizing cur with
  | nil =>
    simp only [splitLines, List.mem_singleton] at h
    rw [h]
    simpa using hcur
  | cons c cs ih =>
    rw [splitLines] at h
    by_cases hc : c = '\n'
    · simp only [hc, beq_self_eq_true, if_true, List.mem_cons] at h
      rcases h with h | h
      · rw [h]
        split
        · intro hm
          exact hcur (List.mem_of_mem_tail (List.mem_reverse.mp hm))
        · simpa using hcur
      · exact ih [] (by simp) h
    · have hc2 : (c == '\n') = false := by simpa using hc
      simp only [hc2, Bool.false_eq_true, if_false] at h
      refine ih (c :: cur) ?_ h
      intro hm
      rcases List.mem_cons.mp hm with hm | hm
      · exact hc hm.symm
      · exact hcur hm

theorem not_mem_of_mem_scanLines (source l : List Char) (h : l ∈ scanLines source) :
    '\n' ∉ l := by
  unfold scanLines at h
  simp only at h
  have hall : ∀ x ∈ splitLines source [], '\n' ∉ x :=
    fun x hx => not_mem_of_mem_splitLines source [] x (by simp) hx
  split at h
  · split at h
    · exact hall l (List.mem_of_mem_dropLast h)
    · exact hall l h
  · exact hall l h

/-- The document that the parser returns is as the parser records it: the type
tag is `Feature`, names are single trimmed lines, tags are tag names, and only
the first child may be a Background. -/
theorem parseGherkin_recorded (source : String) (doc : GherkinDocument)
    (h : parseGherkin source = some doc) :
    doc.feature.type = "Feature" ∧ isLineText doc.feature.name = true ∧
      isTagList doc.feature.tags = true ∧
      (∀ child, doc.feature.children.head? = some child →
        IsRecordedScenario child ∨ IsRecordedBackground child) ∧
      (∀ child ∈ doc.feature.children.tail, IsRecordedScenario child) := by
  unfold parseGherkin at h
  split at h
  · exact absurd h (by simp)
  · rename_i builder hlines
    have hinit : IsRecordedBuilder initialBuilder :=
      ⟨fun f hf => absurd hf (by simp [initialBuilder]),
        fun t ht => absurd ht (List.not_mem_nil t),
        fun s hs => absurd hs (by simp [initialBuilder]),
        fun c hc => absurd hc (by simp [initialBuilder]),
        fun c hc => absurd hc (by simp [initialBuilder]),
        fun c hc => absurd hc (List.not_mem_nil c)⟩
    have hrec := parseLines_recorded _ builder _ hinit
      (fun l hl => not_mem_of_mem_scanLines _ l hl) hlines
    have hhead := recorded_children_head builder hrec
    have htail := recorded_children_tail builder hrec
    obtain ⟨hF, _, _, _, _, _⟩ := hrec
    split at h
    · rename_i tags name hfeat hdoc hpend
      simp only [Option.some.injEq] at h
      rw [← h]
      obtain ⟨h1, h2⟩ := hF (tags, name) hfeat
      refine ⟨rfl, h2, ?_, hhead, htail⟩
      simp only [isTagList, List.all_eq_true]
      exact h1
    · exact absurd h (by simp)

theorem isPlainArgument_of_recorded (argument : Option Argument)
    (hr : isRecordedArgument argument = true) (he : isEscapeFree argument = true) :
    isPlainArgument argument = true := by
  cases argument with
  | none => rfl
  | some arg =>
    cases arg with
    | DataTable rows =>
      cases rows with
      | nil => exact absurd hr (by simp [isRecordedArgument])
      | cons first rows =>
        simp only [isRecordedArgument, isEscapeFree, isPlainArgument, isPlainCell,
          List.all_eq_true, Bool.and_eq_true, beq_iff_eq] at hr he ⊢
        intro row hrow
        refine ⟨(hr row hrow).1, ?_⟩
        intro cell hcell
        exact ⟨he row hrow cell hcell, (hr row hrow).2 cell hcell⟩
    | DocString content => exact he
    | Other type => exact absurd hr (by simp [isRecordedArgument])

theorem isPlainSteps_of_recorded (steps : List Step)
    (hr : ∀ step ∈ steps, IsRecordedStep step)
    (he : ∀ step ∈ steps, isEscapeFree step.argument = true) :
    steps.all isPlainStep = true := by
  rw [List.all_eq_true]
  intro step hstep
  obtain ⟨h1, h2, h3⟩ := hr step hstep
  unfold isPlainStep
  rw [h1, h2, isPlainArgument_of_recorded _ h3 (he step hstep)]
  rfl

theorem isPlainScenario_of_recorded (child : Scenario) (hr : IsRecordedScenario child)
    (he : ∀ step ∈ child.steps, isEscapeFree step.argument = true) :
    isPlainScenario child = true := by
  obtain ⟨h1, h2, h3, h4, h5, h6⟩ := hr
  unfold isPlainScenario
  rw [h1, h2, h3, h4, h6, isPlainSteps_of_recorded _ h5 he]
  rfl

theorem isPlainBackground_of_recorded (child : Scenario) (hr : IsRecordedBackground child)
    (he : ∀ step ∈ child.steps, isEscapeFree step.argument = true) :
    isPlainBackground child = true := by
  obtain ⟨h1, h2, h3, h4, h5, h6⟩ := hr
  unfold isPlainBackground
  rw [h1, h2, h3, h4, h6, isPlainSteps_of_recorded _ h5 he]
  rfl

/-- The document that the parser returns is plain when its step arguments hold
nothing to escape. -/
theorem isPlainFeature_of_parseGherkin (source : String) (doc : GherkinDocument)
    (h : parseGherkin source = some doc)
    (he : ∀ child ∈ doc.feature.children, ∀ step ∈ child.steps,
      isEscapeFree step.argument = true) :
    isPlainFeature doc.feature = true := by
  obtain ⟨h1, h2, h3, hhead, htail⟩ := parseGherkin_recorded source doc h
  unfold isPlainFeature
  rw [h1, h2, h3]
  cases hch : doc.feature.children with
  | nil => rfl
  | cons first rest =>
    rw [hch] at hhead htail he
    have hrest : rest.all isPlainScenario = true := by
      rw [List.all_eq_true]
      intro c hc
      exact isPlainScenario_of_recorded c (htail c hc)
        (he c (List.mem_cons_of_mem first hc))
    have hfirst : (isPlainBackground first || isPlainScenario first) = true := by
      rcases hhead first rfl with hs | hbg
      · rw [isPlainScenario_of_recorded first hs (he first (List.mem_cons_self first rest))]
        simp
      · rw [isPlainBackground_of_recorded first hbg (he first (List.mem_cons_self first rest))]
        simp
    simp only [hfirst, hrest]
    rfl

theorem isPlainFeature_subFeature (doc : GherkinDocument) (scenario updated : Scenario)
    (hplain : isPlainFeature doc.feature = true)
    (hshape : doc.feature.children = [scenario] ∨
      ∃ background, isPlainBackground background = true ∧
        doc.feature.children = [background, scenario])
    (hsty : scenario.type = NodeType.Scenario) (hup : isPlainScenario updated = true) :
    isPlainFeature (subFeature (getFeatureTemplate doc) updated).feature = true := by
  obtain ⟨hty, hn, ht, _⟩ := isPlainFeature_cases doc.feature hplain
  have h1 : (subFeature (getFeatureTemplate doc) updated).feature.type = "Feature" := hty
  have h2 : (subFeature (getFeatureTemplate doc) updated).feature.name = doc.feature.name := rfl
  have h3 : (subFeature (getFeatureTemplate doc) updated).feature.tags = doc.feature.tags := rfl
  rcases hshape with hone | ⟨background, hbg, htwo⟩
  · have hch : (subFeature (getFeatureTemplate doc) updated).feature.children = [updated] := by
      simp only [subFeature, getFeatureTemplate, hone]
      rw [List.filter_cons_of_neg (by simp [hsty])]
      rfl
    unfold isPlainFeature
    rw [h1, h2, h3, hch, hn, ht]
    simp [hup]
  · have hbty := (isPlainBackground_cases background hbg).1
    have hch : (subFeature (getFeatureTemplate doc) updated).feature.children =
        [background, updated] := by
      simp only [subFeature, getFeatureTemplate, htwo]
      rw [List.filter_cons_of_pos (by simp [hbty]), List.filter_cons_of_neg (by simp [hsty])]
      rfl
    unfold isPlainFeature
    rw [h1, h2, h3, hch, hn, ht]
    simp [hup, hbg]

/-- The round trip for a plain feature with a single Scenario: the text written
for the one sub-feature is read back as that sub-feature. -/
theorem plain_feature_round_trip (doc : GherkinDocument) (scenario : Scenario)
    (split : Bool) (tagExpression : String)
    (hplain : isPlainFeature doc.feature = true)
    (hchildren : scenarioChildren doc = [scenario]) :
    ∃ sub text reparsed child,
      splitFeature doc.feature.children (getFeatureTemplate doc) split tagExpression =
        some [sub] ∧
      writeFeature sub.feature = some text ∧
      parseGherkin text = some reparsed ∧
      scenarioChildren reparsed = [child] ∧
      child.name = scenario.name ∧ child.steps = scenario.steps ∧
      child.tags = some (scenario.tags.getD [] ++ doc.feature.tags.getD []) := by
  obtain ⟨hty, hn, ht, _⟩ := isPlainFeature_cases doc.feature hplain
  obtain ⟨ftags, hftags, hftag⟩ := isTagList_cases _ ht
  obtain ⟨hsc, hshape⟩ := plain_children_shape doc scenario hplain hchildren
  obtain ⟨hsty, hsk, hsn, hst, hss, hsex⟩ := isPlainScenario_cases scenario hsc
  obtain ⟨stags, hstags, _⟩ := isTagList_cases _ hst
  have hsplit := splitFeature_eq_contribution doc.feature.children (getFeatureTemplate doc)
    ftags split tagExpression hftags
  unfold scenarioChildren at hchildren
  rw [hchildren] at hsplit
  have hc : contribution (getFeatureTemplate doc) ftags split tagExpression scenario =
      [subFeature (getFeatureTemplate doc) { scenario with tags := some (stags ++ ftags) }] := by
    unfold contribution
    simp [hsty, hstags, orEmpty]
  simp only [List.flatMap_cons, List.flatMap_nil, List.append_nil, hc] at hsplit
  have hsc2 := isPlainScenario_with_tags scenario stags ftags hsc hstags hftag
  have hsubplain := isPlainFeature_subFeature doc scenario
    { scenario with tags := some (stags ++ ftags) } hplain hshape hsty hsc2
  have hwrite : writeFeature (subFeature (getFeatureTemplate doc)
      { scenario with tags := some (stags ++ ftags) }).feature =
      some (featureLayout (subFeature (getFeatureTemplate doc)
        { scenario with tags := some (stags ++ ftags) }).feature) := by
    rw [writeFeature_eq_featureLayout, if_pos]
    rw [List.all_eq_true]
    intro child hchild
    rw [isPlainFeature_examples _ hsubplain child hchild]
    rfl
  refine ⟨_, _, _, { scenario with tags := some (stags ++ ftags) }, hsplit, hwrite,
    parseGherkin_featureLayout _ hsubplain, ?_, rfl, rfl, ?_⟩
  · unfold scenarioChildren
    simp only [subFeature, getFeatureTemplate]
    apply filter_background_append
    · intro b hb
      simpa using (List.mem_filter.mp hb).2
    · simp [hsty]
  · simp [hstags, hftags]

/-- C17, as amended (round trip). For a document that the parser returns, whose
only non-Background child is `scenario` (a plain Scenario: the parser modelled
reads no outline) and whose table cells and doc strings hold nothing that a
writer would have to escape: `splitFeature` returns exactly one sub-feature,
`writeFeature` returns a text for it, the parser reads that text, and the
single scenario of the document read has the name and the steps of the original
scenario, its tags being the tags of the original scenario followed by the
feature-level tags. -/
theorem round_trip_plain_scenario (source : String) (doc : GherkinDocument)
    (scenario : Scenario) (split : Bool) (tagExpression : String)
    (hparse : parseGherkin source = some doc)
    (hchildren : scenarioChildren doc = [scenario])
    (hescape : ∀ child ∈ doc.feature.children, ∀ step ∈ child.steps,
      isEscapeFree step.argument = true) :
    ∃ sub text reparsed child,
      splitFeature doc.feature.children (getFeatureTemplate doc) split tagExpression =
        some [sub] ∧
      writeFeature sub.feature = some text ∧
      parseGherkin text = some reparsed ∧
      scenarioChildren reparsed = [child] ∧
      child.name = scenario.name ∧ child.steps = scenario.steps ∧
      child.tags = some (scenario.tags.getD [] ++ doc.feature.tags.getD []) :=
  plain_feature_round_trip doc scenario split tagExpression
    (isPlainFeature_of_parseGherkin source doc hparse hescape) hchildren

theorem round_trip_plain_scenario_witness :
    parseGherkin "@smoke\nFeature: Shop\n\n  Background:\n    Given a user\n\n  @pay\n  Scenario: Pay\n    Given a table\n      | a | b |\n      | c | d |\n    When a text\n      \"\"\"\n      hello\n        world\n      \"\"\"\n    Then done\n" =
      some samplePayDocument ∧
    scenarioChildren samplePayDocument = [samplePayScenario] ∧
    (splitFeature samplePayDocument.feature.children (getFeatureTemplate samplePayDocument)
        false "").bind (fun subs => subs.head?.bind (fun sub => writeFeature sub.feature)) =
      some "@smoke\nFeature: Shop\nBackground: \nGiven a user\n@pay\n@smoke\nScenario: Pay\nGiven a table\n|a|b|\n|c|d|\nWhen a text\n\"\"\"\nhello\n  world\n\"\"\"\nThen done\n" ∧
    parseGherkin "@smoke\nFeature: Shop\nBackground: \nGiven a user\n@pay\n@smoke\nScenario: Pay\nGiven a table\n|a|b|\n|c|d|\nWhen a text\n\"\"\"\nhello\n  world\n\"\"\"\nThen done\n" =
      some { feature :=
        { type := "Feature", tags := some [{ name := "@smoke" }], keyword := "Feature",
          name := "Shop",
          children := [sampleBackground,
            { samplePayScenario with tags := some [{ name := "@pay" }, { name := "@smoke" }] }] } } ∧
    ∃ sub text reparsed child,
      splitFeature samplePayDocument.feature.children (getFeatureTemplate samplePayDocument)
        false "" = some [sub] ∧
      writeFeature sub.feature = some text ∧
      parseGherkin text = some reparsed ∧
      scenarioChildren reparsed = [child] ∧
      child.name = samplePayScenario.name ∧ child.steps = samplePayScenario.steps ∧
      child.tags = some (samplePayScenario.tags.getD [] ++ samplePayDocument.feature.tags.getD []) :=
  ⟨by decide, rfl, rfl, by decide,
    round_trip_plain_scenario
      "@smoke\nFeature: Shop\n\n  Background:\n    Given a user\n\n  @pay\n  Scenario: Pay\n    Given a table\n      | a | b |\n      | c | d |\n    When a text\n      \"\"\"\n      hello\n        world\n      \"\"\"\n    Then done\n"
      samplePayDocument samplePayScenario false "" (by decide) rfl (by decide)⟩

/-- The writer does not escape: a cell that holds a bar is written as it is, and
the parser reads the row back as two cells. `sampleBarDocument` is the parse of
a text whose cell is `a\\|b`; its cell is not free of characters to escape, and
the steps of the scenario read back differ from the original steps. -/
theorem unescaped_bar_splits_the_cell :
    parseGherkin "Feature: Shop\nScenario: Pay\nGiven a table\n|a\\|b|\n" =
      some sampleBarDocument ∧
    isEscapeFree (some (Argument.DataTable [{ cells := [{ value := "a|b" }] }])) = false ∧
    splitFeature sampleBarDocument.feature.children (getFeatureTemplate sampleBarDocument)
        false "" = some [sampleBarDocument] ∧
    writeFeature sampleBarDocument.feature =
      some "Feature: Shop\nScenario: Pay\nGiven a table\n|a|b|\n" ∧
    (parseGherkin "Feature: Shop\nScenario: Pay\nGiven a table\n|a|b|\n").map
        (fun reparsed => (scenarioChildren reparsed).map (fun child => child.steps)) =
      some [[{ keyword := "Given ", text := "a table",
               argument := some (Argument.DataTable
                 [{ cells := [{ value := "a" }, { value := "b" }] }]) }]] :=
  ⟨by decide, by decide, rfl, rfl, by decide⟩

/-- C17, counterexample. The feature `Shop` tagged `@smoke` with the untagged
Scenario Login is what the parser reads from the text `@smoke`, `Feature: Shop`,
`Scenario: Login`, `When the user logs in`. Its sub-feature is written with the
line `@smoke` before the Scenario line. The parser reads this text as a
document whose single scenario carries the tag `@smoke`, and so does every
parser that reads the text as Gherkin does, whereas the original scenario
carries no tag: the tags are not the same. -/
theorem round_trip_adds_feature_tags :
    parseGherkin "@smoke\nFeature: Shop\nScenario: Login\nWhen the user logs in\n" =
      some sampleLoginDocument ∧
    scenarioChildren sampleLoginDocument = [sampleScenario] ∧
    sampleScenario.tags = some [] ∧
    splitFeature sampleLoginDocument.feature.children (getFeatureTemplate sampleLoginDocument)
        false "" = some [sampleLoginReparsed] ∧
    writeFeature sampleLoginReparsed.feature =
      some "@smoke\nFeature: Shop\n@smoke\nScenario: Login\nWhen the user logs in\n" ∧
    parseGherkin "@smoke\nFeature: Shop\n@smoke\nScenario: Login\nWhen the user logs in\n" =
      some sampleLoginReparsed ∧
    (scenarioChildren sampleLoginReparsed).map (fun child => child.tags) =
      [some [{ name := "@smoke" }]] ∧
    ∀ (parse : String → Option GherkinDocument) (reparsed : GherkinDocument) (child : Scenario),
      parse "@smoke\nFeature: Shop\n@smoke\nScenario: Login\nWhen the user logs in\n" =
        some sampleLoginReparsed →
      parse "@smoke\nFeature: Shop\n@smoke\nScenario: Login\nWhen the user logs in\n" =
        some reparsed →
      scenarioChildren reparsed = [child] →
      child.tags = some [{ name := "@smoke" }] ∧ child.tags ≠ sampleScenario.tags := by
  refine ⟨by decide, rfl, rfl, rfl, rfl, by decide, rfl, ?_⟩
  intro parse reparsed child h1 h2 hsc
  rw [h1, Option.some.injEq] at h2
  rw [← h2] at hsc
  have hchild : scenarioChildren sampleLoginReparsed =
      [{ type := NodeType.Scenario, tags := some [{ name := "@smoke" }], keyword := "Scenario",
         name := "Login",
         steps := [{ keyword := "When ", text := "the user logs in", argument := none }],
         examples := none }] := rfl
  rw [hchild, List.cons.injEq] at hsc
  rw [← hsc.1]
  exact ⟨rfl, by decide⟩

end FeatureFileSplitter
